import Mathlib

/-!
# Container protocol of the GUI library (GUI.hpp, GUIElements.hpp)

A shallow embedding of `GUI::IContainer` and of its concrete implementers.

* Objects live in a finite store (`Heap`); an object is named by its index.
  A `std::shared_ptr<IContainer>` or `IContainer*` is an `Option Nat`
  (`none` is `nullptr`).
* The dynamic type of an object decides which override of the virtual
  primitives runs.  Three families occur in the sources:
  - `Store.leaf`: the defaults of `IContainer` (FilledRect, BorderedRect, ...),
  - `Store.group`: `ContainerGroup` with its vector `_children`,
  - `Store.slot`: `FloatSlider`, `IntSlider` and `Toggle`, whose four
    primitives, `NumChildren` and `ChildPosition` are textually identical
    and work on the single field `handle_container`.
* `assert` is compiled in; a failed assertion aborts, which is the result
  `Except.error Fault.assertion`.  Dereferencing a null handle is
  `Except.error Fault.nullDeref`.
* `size_t` values are natural numbers; the sentinel `~(size_t)0` is
  `NOT_FOUND = 2 ^ 64 - 1`.
-/

namespace GUI

/-- The sentinel `~(size_t)0` returned by `ChildPosition` when the child is absent. -/
def NOT_FOUND : Nat := 2 ^ 64 - 1

/-- The child storage of an object, by dynamic type.  The vector of a
`ContainerGroup` never holds a null handle: `_AddChild` is protected and its
only caller `AddChild` has returned on `nullptr` before. -/
inductive Store where
  | leaf
  | group (_children : List Nat)
  | slot (handle_container : Option Nat)
  deriving DecidableEq, Repr

/-- One `IContainer` object: the back-reference `parent` and the child storage. -/
structure Node where
  parent : Option Nat
  store : Store
  deriving DecidableEq, Repr

/-- The object store: object `i` is the `i`-th entry. -/
abbrev Heap := List Node

/-- The two ways a call can stop the program. -/
inductive Fault where
  | assertion
  | nullDeref
  deriving DecidableEq, Repr

/-- Object `i` of the store (an index outside the store reads as a parentless leaf). -/
def Heap.node (h : Heap) (i : Nat) : Node := h.getD i ⟨none, Store.leaf⟩

/-- The field `parent` of object `i`. -/
def Heap.parent (h : Heap) (i : Nat) : Option Nat := (h.node i).parent

/-- The child storage of object `i`. -/
def Heap.store (h : Heap) (i : Nat) : Store := (h.node i).store

/-- The assignment `i->parent = p`. -/
def Heap.setParent (h : Heap) (i : Nat) (p : Option Nat) : Heap :=
  h.set i { h.node i with parent := p }

/-- An assignment to the child storage of object `i`. -/
def Heap.setStore (h : Heap) (i : Nat) (s : Store) : Heap :=
  h.set i { h.node i with store := s }

/-- The statement `assert(c)`. -/
def ensure (c : Prop) [Decidable c] : Except Fault Unit :=
  if c then Except.ok () else Except.error Fault.assertion

/-- The virtual `NumChildren`. -/
def NumChildren (h : Heap) (self : Nat) : Nat :=
  match h.store self with
  | Store.leaf => 0
  | Store.group cs => cs.length
  | Store.slot hc => if hc = none then 0 else 1

/-- The virtual `ChildPosition`: for a group `std::find` and the distance to
`begin()`, for a slot the comparison with `handle_container`. -/
def ChildPosition (h : Heap) (self : Nat) (child : Option Nat) : Nat :=
  match h.store self with
  | Store.leaf => NOT_FOUND
  | Store.group cs =>
    match child with
    | none => NOT_FOUND
    | some c => if cs.indexOf c = cs.length then NOT_FOUND else cs.indexOf c
  | Store.slot hc => if hc ≠ none ∧ child = hc then 0 else NOT_FOUND

/-- The virtual `_AddChild`. -/
def _AddChild (h : Heap) (self : Nat) (child : Nat) : Heap × Bool :=
  match h.store self with
  | Store.leaf => (h, false)
  | Store.group cs => (h.setStore self (Store.group (cs ++ [child])), true)
  | Store.slot hc =>
    if hc ≠ none then (h, false)
    else (h.setStore self (Store.slot (some child)), true)

/-- The virtual `_RemoveChild`. -/
def _RemoveChild (h : Heap) (self : Nat) (index : Nat) : Except Fault Heap :=
  match h.store self with
  | Store.leaf => Except.error Fault.assertion
  | Store.group cs =>
    if index < cs.length then
      Except.ok (h.setStore self (Store.group (cs.eraseIdx index)))
    else Except.error Fault.assertion
  | Store.slot hc =>
    if index ≠ 0 then Except.error Fault.assertion
    else
      match hc with
      | none => Except.error Fault.assertion
      | some c => Except.ok ((h.setParent c none).setStore self (Store.slot none))

/-- The virtual `_ClearChildren`. -/
def _ClearChildren (h : Heap) (self : Nat) : Heap :=
  match h.store self with
  | Store.leaf => h
  | Store.group cs =>
    (cs.foldl (fun acc c => acc.setParent c none) h).setStore self (Store.group [])
  | Store.slot none => h
  | Store.slot (some c) => (h.setParent c none).setStore self (Store.slot none)

/-- The virtual `_GetChild`. -/
def _GetChild (h : Heap) (self : Nat) (index : Nat) : Except Fault (Option Nat) :=
  match h.store self with
  | Store.leaf => Except.error Fault.assertion
  | Store.group cs =>
    if index < cs.length then Except.ok cs[index]? else Except.error Fault.assertion
  | Store.slot hc =>
    if index ≠ 0 then Except.error Fault.assertion
    else if hc = none then Except.error Fault.assertion
    else Except.ok hc

/-- The method `IContainer::GetChild`. -/
def GetChild (h : Heap) (self : Nat) (index : Nat) : Except Fault Nat := do
  ensure (index < NumChildren h self)
  let child ← _GetChild h self index
  ensure (child ≠ some self)
  ensure (ChildPosition h self child = index)
  match child with
  | none => Except.error Fault.nullDeref
  | some c =>
    ensure (h.parent c = some self)
    pure c

/-- The method `IContainer::RemoveChild(std::shared_ptr<IContainer>)`: its body,
up to the point where the parameter `child` goes out of scope (for that, see
`RemoveChildOwned`). -/
def RemoveChild (h : Heap) (self : Nat) (child : Option Nat) : Except Fault Heap :=
  match child with
  | none => Except.error Fault.nullDeref
  | some c => do
    ensure (h.parent c = some self)
    ensure (ChildPosition h self child ≠ NOT_FOUND)
    let h1 ← _RemoveChild h self (ChildPosition h self child)
    let h2 := h1.setParent c none
    ensure (ChildPosition h2 self child = NOT_FOUND)
    pure h2

/-- The method `IContainer::RemoveChild(size_t)`: its body, up to the closing
brace where the local `child` goes out of scope (for that, see
`RemoveChildAtOwned`). -/
def RemoveChildAt (h : Heap) (self : Nat) (index : Nat) : Except Fault Heap := do
  let c ← GetChild h self index
  let h1 ← _RemoveChild h self index
  let h2 := h1.setParent c none
  ensure (ChildPosition h2 self (some c) = NOT_FOUND)
  pure h2

/-- The statement `if (child->parent != nullptr) child->parent->RemoveChild(child);`
of `AddChild`. -/
def detachFromParent (h : Heap) (c : Nat) : Except Fault Heap :=
  match h.parent c with
  | some p => RemoveChild h p (some c)
  | none => Except.ok h

/-- The method `IContainer::AddChild`. -/
def AddChild (h : Heap) (self : Nat) (child : Option Nat) : Except Fault (Heap × Bool) :=
  match child with
  | none => Except.ok (h, false)
  | some c =>
    if h.parent c = some self then do
      ensure (ChildPosition h self child ≠ NOT_FOUND)
      pure (h, true)
    else do
      let h1 ← detachFromParent h c
      ensure (ChildPosition h1 self child = NOT_FOUND)
      match _AddChild h1 self c with
      | (h2, true) =>
        ensure (ChildPosition h2 self child ≠ NOT_FOUND)
        pure (h2.setParent c (some self), true)
      | (h2, false) =>
        ensure (ChildPosition h2 self child = NOT_FOUND)
        pure (h2.setParent c none, false)

/-- The method `IContainer::ClearChildren`. -/
def ClearChildren (h : Heap) (self : Nat) : Except Fault Heap := do
  let h1 := _ClearChildren h self
  ensure (NumChildren h1 self = 0)
  pure h1

/-- The handles held by a child storage, in storage order. -/
def Store.kids : Store → List Nat
  | Store.leaf => []
  | Store.group cs => cs
  | Store.slot hc => hc.toList

/-- The children of object `p`, in storage order. -/
def children (h : Heap) (p : Nat) : List Nat := (h.store p).kids

/-- Parent/child consistency of a whole store: every object stores each of its
children once and is the parent of each of them, and every object with a
parent is stored by that parent. -/
def WF (h : Heap) : Prop :=
  (∀ p < h.length, (children h p).Nodup ∧ ∀ c ∈ children h p, h.parent c = some p) ∧
  (∀ n < h.length, ∀ p ∈ h.parent n, n ∈ children h p)

instance (h : Heap) : Decidable (WF h) := by
  unfold WF
  infer_instance

/-- Whether the `_AddChild` of an object with this storage takes a child:
a group always, a slot when it is empty, a leaf never. -/
def Store.accepts : Store → Bool
  | Store.leaf => false
  | Store.group _ => true
  | Store.slot hc => hc.isNone

/-- The child vectors that `AddChild h a (some b)` indexes stay clear of the
sentinel: the position of `b` in its present parent, and the position `b`
would get at the end of `a`. -/
def BoundOK (h : Heap) (a b : Nat) : Prop :=
  (∀ p ∈ h.parent b, ChildPosition h p (some b) ≠ NOT_FOUND) ∧
  ((h.store a).accepts = true → (children h a).length ≠ NOT_FOUND)

instance (h : Heap) (a b : Nat) : Decidable (BoundOK h a b) := by
  unfold BoundOK
  infer_instance

/-- The same consistency, on a parent map and a children map over all indices. -/
def Consistent (par : Nat → Option Nat) (ch : Nat → List Nat) : Prop :=
  (∀ n p, par n = some p ↔ n ∈ ch p) ∧ ∀ p, (ch p).Nodup

/-- No object is its own parent. -/
def NoSelfParent (h : Heap) : Prop := ∀ n < h.length, h.parent n ≠ some n

instance (h : Heap) : Decidable (NoSelfParent h) := by
  unfold NoSelfParent
  infer_instance

/-- Every child vector is shorter than the sentinel `~(size_t)0`, so that an
index into it is never mistaken for `NOT_FOUND`. -/
def Bounded (h : Heap) : Prop := ∀ p < h.length, (children h p).length < NOT_FOUND

instance (h : Heap) : Decidable (Bounded h) := by
  unfold Bounded
  infer_instance

/-- No object is stored by two parents. -/
def SingleOwner (h : Heap) : Prop :=
  ∀ n p q, n ∈ children h p → n ∈ children h q → p = q

/-- What a removal of `b` from `a` leaves in the store `h2`, compared with the
store `h` before: `b` has no parent, `a` does not find `b` any more and has
one child fewer, the child storage of `b` is untouched and so is the parent of
every other object. -/
def DetachedFrom (h h2 : Heap) (a b : Nat) : Prop :=
  h2.parent b = none ∧ ChildPosition h2 a (some b) = NOT_FOUND ∧
  NumChildren h2 a + 1 = NumChildren h a ∧
  h2.store b = h.store b ∧ ∀ n, n ≠ b → h2.parent n = h.parent n

/-- The `k`-th ancestor of `n` along a parent map, when the chain is that long. -/
def climb (par : Nat → Option Nat) : Nat → Nat → Option Nat
  | 0, n => some n
  | k + 1, n => (par n).bind (climb par k)

/-- No object is its own ancestor: no parent chain of one or more links leads
from an object back to itself. -/
def NoCycle (h : Heap) : Prop := ∀ n k, climb h.parent (k + 1) n ≠ some n

/-- Every parent chain ends at a root within as many links as there are objects. -/
def ChainsEnd (h : Heap) : Prop := ∀ n < h.length, climb h.parent h.length n = none

instance (h : Heap) : Decidable (ChainsEnd h) := by
  unfold ChainsEnd
  infer_instance

/-- A store with one empty `ContainerGroup`. -/
def loneGroup : Heap := [⟨none, Store.group []⟩]

/-- The store `loneGroup` after the group was added to itself. -/
def selfLoop : Heap := [⟨some 0, Store.group [0]⟩]

/-- A store with two groups and a leaf held by the first group. -/
def twoGroups : Heap :=
  [⟨none, Store.group [2]⟩, ⟨none, Store.group []⟩, ⟨some 0, Store.leaf⟩]

/-- The store `twoGroups` after the leaf moved to the second group. -/
def twoGroupsMoved : Heap :=
  [⟨none, Store.group []⟩, ⟨none, Store.group [2]⟩, ⟨some 1, Store.leaf⟩]

/-- The store `twoGroups` after the leaf was detached. -/
def twoGroupsDetached : Heap :=
  [⟨none, Store.group []⟩, ⟨none, Store.group []⟩, ⟨none, Store.leaf⟩]

/-- A store with two empty groups. -/
def pairStart : Heap := [⟨none, Store.group []⟩, ⟨none, Store.group []⟩]

/-- The store `pairStart` after the second group became a child of the first. -/
def pairLinked : Heap := [⟨none, Store.group [1]⟩, ⟨some 0, Store.group []⟩]

/-- The store `pairLinked` after the first group became a child of the second. -/
def pairCycle : Heap := [⟨some 1, Store.group [1]⟩, ⟨some 0, Store.group [0]⟩]

/-- A store with a group holding a leaf, a full slot (a slider or a toggle with
its handle) and the handle. -/
def fullSlot : Heap :=
  [⟨none, Store.group [1]⟩, ⟨some 0, Store.leaf⟩, ⟨none, Store.slot (some 3)⟩,
    ⟨some 2, Store.leaf⟩]

/-- The store `fullSlot` after the slot declined the leaf of the group. -/
def fullSlotDeclined : Heap :=
  [⟨none, Store.group []⟩, ⟨none, Store.leaf⟩, ⟨none, Store.slot (some 3)⟩,
    ⟨some 2, Store.leaf⟩]

/-- The store `twoGroups` after the second group became a child of the first. -/
def twoGroupsNested : Heap :=
  [⟨none, Store.group [2, 1]⟩, ⟨some 0, Store.group []⟩, ⟨some 0, Store.leaf⟩]

/-- A store with a group holding three leaves. -/
def threeKids : Heap :=
  [⟨none, Store.group [1, 2, 3]⟩, ⟨some 0, Store.leaf⟩, ⟨some 0, Store.leaf⟩,
    ⟨some 0, Store.leaf⟩]

/-- The store `threeKids` after the middle leaf was removed. -/
def threeKidsCut : Heap :=
  [⟨none, Store.group [1, 3]⟩, ⟨some 0, Store.leaf⟩, ⟨none, Store.leaf⟩,
    ⟨some 0, Store.leaf⟩]

/-! ## Relative geometry (GUI.hpp) and interpolation (Lerp.hpp)

Numbers (`float`, `double`) are the elements of a linear ordered field `α`:
arithmetic is exact, there is no rounding, no infinity and no NaN.  The types
and helpers of the rendering/input substrate (`SDL.hpp`) are not part of the
sources; they are modelled from the spec or taken as parameters. -/

/-- Modelled from the spec: `SDL::FPoint`, a 2D vector with componentwise
arithmetic and multiplication and division by a scalar. -/
@[ext] structure FPoint (α : Type) where
  x : α
  y : α
  deriving DecidableEq, Repr

/-- Modelled from the spec: `SDL::FRect`, the axis-aligned rectangle with origin
point `pos` and size vector `size`. -/
@[ext] structure FRect (α : Type) where
  pos : FPoint α
  size : FPoint α
  deriving DecidableEq, Repr

section Geometry

variable {α : Type} [LinearOrderedField α]

instance : Add (FPoint α) := ⟨fun a b => ⟨a.x + b.x, a.y + b.y⟩⟩

instance : Sub (FPoint α) := ⟨fun a b => ⟨a.x - b.x, a.y - b.y⟩⟩

instance : Mul (FPoint α) := ⟨fun a b => ⟨a.x * b.x, a.y * b.y⟩⟩

instance : HMul (FPoint α) α (FPoint α) := ⟨fun a f => ⟨a.x * f, a.y * f⟩⟩

instance : HDiv (FPoint α) α (FPoint α) := ⟨fun a f => ⟨a.x / f, a.y / f⟩⟩

/-- Modelled from the spec: `SDL::FPoint::dot`, the dot product. -/
def FPoint.dot (a b : FPoint α) : α := a.x * b.x + a.y * b.y

/-- The struct `GUIPosition`. -/
structure GUIPosition (α : Type) where
  anchor : FPoint α
  offset : FPoint α
  deriving DecidableEq, Repr

/-- The struct `GUISize`. -/
structure GUISize (α : Type) where
  anchor : FPoint α
  offset : FPoint α
  deriving DecidableEq, Repr

/-- The struct `GUIRect`. -/
structure GUIRect (α : Type) where
  position : GUIPosition α
  size : GUISize α
  deriving DecidableEq, Repr

/-- The method `GUIPosition::Get`. -/
def GUIPosition.Get (p : GUIPosition α) (parent : FRect α) : FPoint α :=
  parent.pos + parent.size * p.anchor + p.offset

/-- The method `GUISize::Get`. -/
def GUISize.Get (s : GUISize α) (parent : FRect α) : FPoint α :=
  parent.size * s.anchor + s.offset

/-- The method `GUIRect::Get`. -/
def GUIRect.Get (r : GUIRect α) (parent : FRect α) : FRect α :=
  ⟨r.position.Get parent, r.size.Get parent⟩

/-- The four-point constructor of `GUIRect`. -/
def GUIRect.ofPoints (position_relative position_offset size_relative size_offset : FPoint α) :
    GUIRect α :=
  ⟨⟨position_relative, position_offset⟩, ⟨size_relative, size_offset⟩⟩

/-- The operator `GUIPosition::operator+`. -/
instance : Add (GUIPosition α) := ⟨fun a b => ⟨a.anchor + b.anchor, a.offset + b.offset⟩⟩

/-- The operator `GUIPosition::operator-`. -/
instance : Sub (GUIPosition α) := ⟨fun a b => ⟨a.anchor - b.anchor, a.offset - b.offset⟩⟩

/-- The operator `GUIPosition::operator*(double)`. -/
instance : HMul (GUIPosition α) α (GUIPosition α) :=
  ⟨fun a f => ⟨a.anchor * f, a.offset * f⟩⟩

/-- The operator `GUIPosition::operator/(double)`. -/
instance : HDiv (GUIPosition α) α (GUIPosition α) :=
  ⟨fun a f => ⟨a.anchor / f, a.offset / f⟩⟩

/-- The shape of the root `ContainerGroup` of `main.cpp`. -/
def rootShape : GUIRect α := GUIRect.ofPoints ⟨0, 0⟩ ⟨0, 0⟩ ⟨1, 1⟩ ⟨0, 0⟩

/-- The function `std::clamp(v, lo, hi)`. -/
def clamp (v lo hi : α) : α := if v < lo then lo else if hi < v then hi else v

/-- The function `InverseLerpClamped(SDL::FPoint, min, max)`.  The length
`SDL::FPoint::mag` of the substrate is the parameter `mag`. -/
def InverseLerpClamped (mag : FPoint α → α) (value min max : FPoint α) : α :=
  let diff := max - min
  let len := mag diff
  clamp (FPoint.dot ((value - min) / len) (diff / len)) 0 1

end Geometry

/-! ## Sliders (GUIElements.hpp)

`FloatSlider` and `IntSlider` have the same fields and the same code up to the
type `V` of the value (`float` or `int`), the instance of the template `Lerp`
that `SetFromNorm` calls, and `Dragger::OnRelease`.  They are one structure
`Slider α V` here, and the shared methods take the two differing pieces as
arguments. -/

section Sliders

variable {α : Type} [LinearOrderedField α]

/-- Modelled from the spec: `SDL::FRect + SDL::FPoint`, the rectangle moved by a
vector. -/
instance : HAdd (FRect α) (FPoint α) (FRect α) := ⟨fun r p => ⟨r.pos + p, r.size⟩⟩

/-- Modelled from the spec: `SDL::FRect::contains`, containment of a point, with
the convention of `SDL_PointInRect` (near edges inside, far edges outside). -/
def FRect.contains (r : FRect α) (p : FPoint α) : Bool :=
  decide (r.pos.x ≤ p.x ∧ p.x < r.pos.x + r.size.x ∧ r.pos.y ≤ p.y ∧ p.y < r.pos.y + r.size.y)

/-- Modelled from the spec: `SDL::FRect::pointToNorm`, the point as a fraction of
the rectangle. -/
def FRect.pointToNorm (r : FRect α) (p : FPoint α) : FPoint α :=
  ⟨(p.x - r.pos.x) / r.size.x, (p.y - r.pos.y) / r.size.y⟩

/-- Modelled from the spec: `SDL::FRect::normToPoint`, the point at a fraction of
the rectangle. -/
def FRect.normToPoint (r : FRect α) (n : FPoint α) : FPoint α := r.pos + n * r.size

/-- The template `Lerp<T>(double t, min, max)` at `T = float`. -/
def Lerp (t min max : α) : α := min + (max - min) * t

/-- The template `Lerp<T>(double t, min, max)` at `T = GUIPosition`. -/
def LerpPosition (t : α) (min max : GUIPosition α) : GUIPosition α := min + (max - min) * t

/-- The value of type `int` with the bits of `z`: two's-complement wrap-around to
32 bits.  (Signed overflow is undefined in C++; this is what the usual targets
compute.) -/
def wrapInt (z : ℤ) : ℤ := (z + 2 ^ 31) % 2 ^ 32 - 2 ^ 31

/-- The function `std::round`: nearest integer, halves away from zero. -/
def stdRound [FloorRing α] (x : α) : ℤ := if 0 ≤ x then ⌊x + 1 / 2⌋ else ⌈x - 1 / 2⌉

/-- The template `Lerp<T>(double t, min, max)` at `T = int`:
`(T)std::round((double)min + (double)(max - min) * t)`, the difference taken in
`int`. -/
def LerpInt [FloorRing α] (t : α) (min max : ℤ) : ℤ :=
  wrapInt (stdRound (((min : ℤ) : α) + ((wrapInt (max - min) : ℤ) : α) * t))

/-- The overload `InverseLerp(float value, float min, float max)`. -/
def InverseLerp (value min max : α) : α := (value - min) / (max - min)

/-- The template `InverseLerp<T>(value, min, max)` at `T = int`:
`(value - min) / (double)(max - min)`, both differences taken in `int`. -/
def InverseLerpInt (value min max : ℤ) : α :=
  ((wrapInt (value - min) : ℤ) : α) / ((wrapInt (max - min) : ℤ) : α)

/-- The fields of `FloatSlider` (`V` is `float`) and of `IntSlider` (`V` is `int`).
The members of the nested `clicker` are `is_clicked`, `click_relative` and
`button`; `motion_registered` says whether `dragger` is registered for
pointer-motion events; `has_handle` is `handle_container != nullptr` and
`handle_received` is the last rectangle passed to
`handle_container->SetParentShape`. -/
structure Slider (α V : Type) where
  shape : GUIRect α
  min_position : GUIPosition α
  max_position : GUIPosition α
  cur_position : GUIPosition α
  handle_shape : GUIRect α
  min_value : V
  max_value : V
  cur_value : V
  click_warp : Bool
  has_handle : Bool
  handle_received : Option (FRect α)
  _shape : FRect α
  _min_position : FPoint α
  _max_position : FPoint α
  _cur_position : FPoint α
  _handle_shape : FRect α
  _slider_area : FRect α
  is_clicked : Bool
  click_relative : FPoint α
  button : Nat
  motion_registered : Bool

/-- A button event: `e.button.button`, whether `e.button.state == SDL_RELEASED`,
and the pixel `e.button.x`, `e.button.y`. -/
structure ButtonEvent where
  button : Nat
  released : Bool
  x : ℤ
  y : ℤ
  deriving DecidableEq, Repr

/-- A pixel as an `SDL::FPoint`. -/
def pixel (x y : ℤ) : FPoint α := ⟨(x : α), (y : α)⟩

variable {V : Type}

/-- The statement
`if (handle_container != nullptr) handle_container->SetParentShape(SDL::FRect(_cur_position, _shape.size));`. -/
def Slider.passToHandle (s : Slider α V) : Slider α V :=
  if s.has_handle then { s with handle_received := some ⟨s._cur_position, s._shape.size⟩ }
  else s

/-- The method `SetParentShape` of both sliders. -/
def Slider.SetParentShape (s : Slider α V) (parent : FRect α) : Slider α V :=
  let s1 := { s with _shape := s.shape.Get parent }
  let s2 := { s1 with
    _min_position := s1.min_position.Get s1._shape
    _max_position := s1.max_position.Get s1._shape
    _cur_position := s1.cur_position.Get s1._shape }
  let s3 := { s2 with _handle_shape := s2.handle_shape.Get ⟨⟨0, 0⟩, s2._shape.size⟩ }
  let s4 := { s3 with
    _slider_area := ⟨s3._handle_shape.pos + s3._min_position,
      s3._handle_shape.size + (s3._max_position - s3._min_position)⟩ }
  s4.passToHandle

/-- The method `SetFromNorm` of both sliders; `lerp` is the instance of `Lerp` at
the value type. -/
def Slider.SetFromNorm (lerp : α → V → V → V) (s : Slider α V) (t : α) : Slider α V :=
  let s1 := { s with
    cur_position := LerpPosition t s.min_position s.max_position
    cur_value := lerp t s.min_value s.max_value }
  let s2 := { s1 with _cur_position := s1.cur_position.Get s1._shape }
  let s3 := { s2 with _handle_shape := s2.handle_shape.Get ⟨⟨0, 0⟩, s2._shape.size⟩ }
  s3.passToHandle

/-- The method `SetFromPosition` of both sliders. -/
def Slider.SetFromPosition (mag : FPoint α → α) (lerp : α → V → V → V) (s : Slider α V)
    (point : FPoint α) : Slider α V :=
  s.SetFromNorm lerp
    (InverseLerpClamped mag (point - s._handle_shape.normToPoint s.click_relative)
      s._min_position s._max_position)

/-- The method `Dragger::OnClick` of both sliders. -/
def Slider.OnClick (s : Slider α V) : Slider α V := { s with motion_registered := true }

/-- The method `FloatSlider::Dragger::OnRelease`. -/
def FloatSlider.OnRelease (s : Slider α α) : Slider α α := { s with motion_registered := false }

/-- The method `IntSlider::Dragger::OnRelease`. -/
def IntSlider.OnRelease (s : Slider α ℤ) : Slider α ℤ :=
  let s1 := { s with motion_registered := false }
  let s2 := { s1 with
    cur_position := LerpPosition (InverseLerpInt s1.cur_value s1.min_value s1.max_value)
      s1.min_position s1.max_position }
  let s3 := { s2 with _cur_position := s2.cur_position.Get s2._shape }
  s3.passToHandle

/-- The method `Clicker::Notify` of both sliders; `release` is `Dragger::OnRelease`. -/
def Slider.Notify (mag : FPoint α → α) (lerp : α → V → V → V)
    (release : Slider α V → Slider α V) (s : Slider α V) (e : ButtonEvent) : Slider α V :=
  if e.button ≠ s.button then s
  else if e.released then
    if s.is_clicked then release { s with is_clicked := false } else s
  else
    let click : FPoint α := pixel e.x e.y
    let s1 := { s with is_clicked := (s._handle_shape + s._cur_position).contains click }
    if s1.is_clicked then
      Slider.OnClick { s1 with
        click_relative := (s1._handle_shape + s1._cur_position).pointToNorm click }
    else if s1.click_warp then
      let s2 := { s1 with is_clicked := s1._slider_area.contains click }
      if s2.is_clicked = false then s2
      else
        let t := InverseLerpClamped mag click s2._min_position s2._max_position
        let s3 := s2.SetFromNorm lerp t
        Slider.OnClick { s3 with
          click_relative := (s3._handle_shape + s3._cur_position).pointToNorm click }
    else s1

/-- The method `Dragger::Notify` of both sliders, reached only while the dragger
is registered for pointer-motion events. -/
def Slider.Motion (mag : FPoint α → α) (lerp : α → V → V → V) (s : Slider α V)
    (x y : ℤ) : Slider α V :=
  if s.motion_registered then s.SetFromPosition mag lerp (pixel x y) else s

/-- The method `GetValueNorm` of `FloatSlider`. -/
def FloatSlider.GetValueNorm (s : Slider α α) : α :=
  (s.cur_value - s.min_value) / (s.max_value - s.min_value)

/-- The method `FloatSlider::SetFromNorm`. -/
def FloatSlider.SetFromNorm (s : Slider α α) (t : α) : Slider α α := s.SetFromNorm Lerp t

/-- The method `IntSlider::SetFromNorm`. -/
def IntSlider.SetFromNorm [FloorRing α] (s : Slider α ℤ) (t : α) : Slider α ℤ :=
  s.SetFromNorm LerpInt t

/-- The method `FloatSlider::Clicker::Notify`. -/
def FloatSlider.Notify (mag : FPoint α → α) (s : Slider α α) (e : ButtonEvent) : Slider α α :=
  s.Notify mag Lerp FloatSlider.OnRelease e

/-- The method `IntSlider::Clicker::Notify`. -/
def IntSlider.Notify [FloorRing α] (mag : FPoint α → α) (s : Slider α ℤ) (e : ButtonEvent) :
    Slider α ℤ :=
  s.Notify mag LerpInt IntSlider.OnRelease e

/-- The method `FloatSlider::Dragger::Notify`. -/
def FloatSlider.Motion (mag : FPoint α → α) (s : Slider α α) (x y : ℤ) : Slider α α :=
  s.Motion mag Lerp x y

/-- The method `IntSlider::Dragger::Notify`. -/
def IntSlider.Motion [FloorRing α] (mag : FPoint α → α) (s : Slider α ℤ) (x y : ℤ) :
    Slider α ℤ :=
  s.Motion mag LerpInt x y

end Sliders

/-- An `IntSlider` whose range `max_value - min_value` does not fit `int`; the
fields that `SetFromNorm` does not read are zero. -/
def wideIntSlider : Slider ℚ ℤ where
  shape := ⟨⟨⟨0, 0⟩, ⟨0, 0⟩⟩, ⟨⟨1, 1⟩, ⟨0, 0⟩⟩⟩
  min_position := ⟨⟨0, 1 / 2⟩, ⟨0, 0⟩⟩
  max_position := ⟨⟨1, 1 / 2⟩, ⟨0, 0⟩⟩
  cur_position := ⟨⟨0, 1 / 2⟩, ⟨0, 0⟩⟩
  handle_shape := ⟨⟨⟨0, 0⟩, ⟨-9, -9⟩⟩, ⟨⟨0, 0⟩, ⟨18, 18⟩⟩⟩
  min_value := -1073741824
  max_value := 1610612736
  cur_value := -1073741824
  click_warp := true
  has_handle := false
  handle_received := none
  _shape := ⟨⟨0, 0⟩, ⟨0, 0⟩⟩
  _min_position := ⟨0, 0⟩
  _max_position := ⟨0, 0⟩
  _cur_position := ⟨0, 0⟩
  _handle_shape := ⟨⟨0, 0⟩, ⟨0, 0⟩⟩
  _slider_area := ⟨⟨0, 0⟩, ⟨0, 0⟩⟩
  is_clicked := false
  click_relative := ⟨0, 0⟩
  button := 1
  motion_registered := false

/-- A `FloatSlider` configured as in the slider test of the spec (values 0 to 1,
initial value 0.5, track from anchor (0, 0.5) to anchor (1, 0.5)) with the
handle rectangle of `main.cpp`, before its first `SetParentShape`. -/
def demoSlider : Slider ℚ ℚ where
  shape := ⟨⟨⟨0, 0⟩, ⟨0, 0⟩⟩, ⟨⟨1, 1⟩, ⟨0, 0⟩⟩⟩
  min_position := ⟨⟨0, 1 / 2⟩, ⟨0, 0⟩⟩
  max_position := ⟨⟨1, 1 / 2⟩, ⟨0, 0⟩⟩
  cur_position := ⟨⟨1 / 2, 1 / 2⟩, ⟨0, 0⟩⟩
  handle_shape := ⟨⟨⟨0, 0⟩, ⟨-9, -9⟩⟩, ⟨⟨0, 0⟩, ⟨18, 18⟩⟩⟩
  min_value := 0
  max_value := 1
  cur_value := 1 / 2
  click_warp := true
  has_handle := true
  handle_received := none
  _shape := ⟨⟨0, 0⟩, ⟨0, 0⟩⟩
  _min_position := ⟨0, 0⟩
  _max_position := ⟨0, 0⟩
  _cur_position := ⟨0, 0⟩
  _handle_shape := ⟨⟨0, 0⟩, ⟨0, 0⟩⟩
  _slider_area := ⟨⟨0, 0⟩, ⟨0, 0⟩⟩
  is_clicked := false
  click_relative := ⟨0, 0⟩
  button := 1
  motion_registered := false

/-- The parent rectangle of the examples: origin (0,0), 100 wide, 20 high. -/
def demoParent : FRect ℚ := ⟨⟨0, 0⟩, ⟨100, 20⟩⟩

/-- The length of a horizontal vector. -/
def horizontalMag (d : FPoint ℚ) : ℚ := |d.x|

/-- The slider `demoSlider` after `SetParentShape(demoParent)`: the track runs
from (0,10) to (100,10) and the handle occupies [41,59) x [1,19). -/
def demoSliderShaped : Slider ℚ ℚ := demoSlider.SetParentShape demoParent
/-- The slider `demoSliderShaped` with click-warp disabled. -/
def demoSliderNoWarp : Slider ℚ ℚ := { demoSliderShaped with click_warp := false }

/-! ## Teardown (GUI.hpp) -/

/-- The loop `while (num) { ... }` of `DeleteTree`, entered with the count `num`;
`recurse` is the recursive call `DeleteTree(child.get())`.  The result `none`
means that the recursion ran out of fuel. -/
def deleteLoop (recurse : Heap → Option Nat → Option (Except Fault Heap)) (root : Nat) :
    Nat → Heap → Option (Except Fault Heap)
  | 0, h => some (Except.ok h)
  | num + 1, h =>
    match GetChild h root num with
    | Except.error e => some (Except.error e)
    | Except.ok child =>
      match RemoveChildAt h root num with
      | Except.error e => some (Except.error e)
      | Except.ok h1 =>
        if NumChildren h1 root ≠ num then some (Except.error Fault.assertion)
        else
          match recurse h1 (some child) with
          | none => none
          | some (Except.error e) => some (Except.error e)
          | some (Except.ok h2) => deleteLoop recurse root num h2

/-- The static method `IContainer::DeleteTree`.  The first argument bounds the
nesting depth of the recursive calls; the result `none` means that this bound
was reached. -/
def DeleteTree : Nat → Heap → Option Nat → Option (Except Fault Heap)
  | _, h, none => some (Except.ok h)
  | 0, _, some _ => none
  | fuel + 1, h, some root => deleteLoop (DeleteTree fuel) root (NumChildren h root) h

/-- Object `n` is in the subtree of `r`: `r` itself or one of its descendants. -/
def InSubtree (h : Heap) (r n : Nat) : Prop := ∃ k, climb h.parent k n = some r

/-- Object `n` is a proper descendant of `r`. -/
def Descendant (h : Heap) (r n : Nat) : Prop := ∃ k, climb h.parent (k + 1) n = some r

/-- No object is more than `H` parent links below `r`. -/
def HeightLE (h : Heap) (r H : Nat) : Prop := ∀ n k, climb h.parent k n = some r → k ≤ H

/-- What tearing down the subtree of `r` leaves in the store `h2`, compared with
the store `h` before: the store is consistent, every proper descendant of `r`
has lost its parent, every other object has kept its parent, and the child
storage of the objects outside the subtree is untouched. -/
def TornDown (h h2 : Heap) (r : Nat) : Prop :=
  h2.length = h.length ∧ WF h2 ∧
  (∀ n, Descendant h r n → h2.parent n = none) ∧
  (∀ n, ¬ Descendant h r n → h2.parent n = h.parent n) ∧
  (∀ p, ¬ InSubtree h r p → h2.store p = h.store p)

/-- A store with a three-level tree: a group holding a slot and a leaf, the slot
holding a group, that group holding two leaves. -/
def deepTree : Heap :=
  [⟨none, Store.group [1, 2]⟩, ⟨some 0, Store.slot (some 3)⟩, ⟨some 0, Store.leaf⟩,
    ⟨some 1, Store.group [4, 5]⟩, ⟨some 3, Store.leaf⟩, ⟨some 3, Store.leaf⟩]

/-- The store `deepTree` after `DeleteTree` of its root. -/
def deepTreeTorn : Heap :=
  [⟨none, Store.group []⟩, ⟨none, Store.slot none⟩, ⟨none, Store.leaf⟩,
    ⟨none, Store.group []⟩, ⟨none, Store.leaf⟩, ⟨none, Store.leaf⟩]

/-! ## Shape propagation (GUI.hpp, GUIElements.hpp) -/

section Propagation

variable {α : Type} [LinearOrderedField α]

/-- The layout fields of the objects of a store: the member `shape` of every
object and the member `cur_position` of every slider and toggle. -/
structure Layout (α : Type) where
  shape : Nat → GUIRect α
  cur_position : Nat → GUIPosition α

/-- The calls `c->SetParentShape(_shape)` that the body of
`ContainerGroup::SetParentShape` makes, in order: the loop
`for (auto& c : _children)` with `_shape = shape.Get(parent)`.  This is the
body as `main.cpp` compiles it, with `DEBUG_GUI_CONTAINERS` not defined. -/
def ContainerGroup.calls (shape : GUIRect α) (_children : List Nat) (parent : FRect α) :
    List (Nat × FRect α) :=
  _children.map (fun c => (c, shape.Get parent))

/-- The loop `while (num) { GetChild(--num)->SetParentShape(_shape); }` of the
base `IContainer::SetParentShape`, as the list of the calls it makes. -/
def IContainer.callsLoop (h : Heap) (self : Nat) (_shape : FRect α) :
    Nat → Except Fault (List (Nat × FRect α))
  | 0 => Except.ok []
  | num + 1 =>
    match GetChild h self num with
    | Except.error e => Except.error e
    | Except.ok c =>
      match IContainer.callsLoop h self _shape num with
      | Except.error e => Except.error e
      | Except.ok rest => Except.ok ((c, _shape) :: rest)

/-- The calls that the body of the base `IContainer::SetParentShape` makes, in
order. -/
def IContainer.calls (shape : GUIRect α) (h : Heap) (self : Nat) (parent : FRect α) :
    Except Fault (List (Nat × FRect α)) :=
  IContainer.callsLoop h self (shape.Get parent) (NumChildren h self)

/-- The virtual `SetParentShape`, on the cached rectangles `_shape` of the
objects.  An object with the default primitives is one of the rectangle
widgets (`FilledRect`, `BorderedRect`, `BorderedFilledRect`), which store
`shape.Get(parent)`; a `ContainerGroup` passes `shape.Get(parent)` to its
children; a slider or toggle stores `shape.Get(parent)` and passes
`SDL::FRect(_cur_position, _shape.size)` to its handle.  The first argument
bounds the nesting depth of the calls; `none` means the bound was reached. -/
def SetParentShape (L : Layout α) (h : Heap) :
    Nat → (Nat → FRect α) → Nat → FRect α → Option (Nat → FRect α)
  | 0, _, _, _ => none
  | fuel + 1, cache, self, parent =>
    match h.store self with
    | Store.leaf => some (Function.update cache self ((L.shape self).Get parent))
    | Store.group cs =>
      (ContainerGroup.calls (L.shape self) cs parent).foldlM
        (fun c call => SetParentShape L h fuel c call.1 call.2) cache
    | Store.slot hc =>
      let cache1 := Function.update cache self ((L.shape self).Get parent)
      match hc with
      | none => some cache1
      | some c =>
        SetParentShape L h fuel cache1 c
          ⟨(L.cur_position self).Get ((L.shape self).Get parent),
            ((L.shape self).Get parent).size⟩

/-- The rectangle `n_k.shape.Get(... n_1.shape.Get(P) ...)` along `n_1, ..., n_k`. -/
def Layout.resolve (L : Layout α) (P : FRect α) (path : List Nat) : FRect α :=
  path.foldl (fun r n => (L.shape n).Get r) P

/-- The objects `path` are `ContainerGroup`s, each storing the next, and the last
stores `leaf`. -/
def GroupPath (h : Heap) : List Nat → Nat → Prop
  | [], _ => False
  | [n], leaf => ∃ cs, h.store n = Store.group cs ∧ leaf ∈ cs
  | n :: m :: rest, leaf => (∃ cs, h.store n = Store.group cs ∧ m ∈ cs) ∧
      GroupPath h (m :: rest) leaf

end Propagation

/-! ## Shape propagation: statements and examples -/

section PropagationSpec

variable {α : Type} [LinearOrderedField α]

/-- What one call `SetParentShape(P)` on the object `m` does to the cached
rectangles: it returns, writes nothing outside the subtree of `m`, gives every
rectangle leaf below a chain of groups the nested evaluation of the shapes on
the chain, and gives `m` itself `shape.Get(P)` when it is a rectangle. -/
def Propagates (L : Layout α) (h : Heap) (fuel : Nat) : Prop :=
  ∀ m cache P, (∃ H, H < fuel ∧ HeightLE h m H) →
    ∃ cache2, SetParentShape L h fuel cache m P = some cache2 ∧
      (∀ x, ¬ InSubtree h m x → cache2 x = cache x) ∧
      (∀ path leaf, GroupPath h (m :: path) leaf → h.store leaf = Store.leaf →
        cache2 leaf = (L.shape leaf).Get (L.resolve P (m :: path))) ∧
      (h.store m = Store.leaf → cache2 m = (L.shape m).Get P)

end PropagationSpec

/-- A store with a root group holding a group and a rectangle; the inner group
holds one rectangle. -/
def groupTree : Heap :=
  [⟨none, Store.group [1, 2]⟩, ⟨some 0, Store.group [3]⟩, ⟨some 0, Store.leaf⟩,
    ⟨some 1, Store.leaf⟩]

/-- A layout for `groupTree`: the root fills its parent, the inner group is the
right half, its rectangle is inset by five pixels, the other rectangle is the
left half. -/
def groupLayout : Layout ℚ where
  shape := fun n =>
    if n = 0 then rootShape
    else if n = 1 then GUIRect.ofPoints ⟨1 / 2, 0⟩ ⟨0, 0⟩ ⟨1 / 2, 1⟩ ⟨0, 0⟩
    else if n = 2 then GUIRect.ofPoints ⟨0, 0⟩ ⟨0, 0⟩ ⟨1 / 2, 1⟩ ⟨0, 0⟩
    else GUIRect.ofPoints ⟨0, 0⟩ ⟨5, 5⟩ ⟨1, 1⟩ ⟨-10, -10⟩
  cur_position := fun _ => ⟨⟨0, 0⟩, ⟨0, 0⟩⟩

/-- The rectangle cache before any `SetParentShape`. -/
def blankCache : Nat → FRect ℚ := fun _ => ⟨⟨0, 0⟩, ⟨0, 0⟩⟩

/-! ## Toggle (GUIElements.hpp)

The counters `_t`, `scroll_time` and the argument `dT` are `Uint64`: natural
numbers below `2 ^ 64`, with the unsigned operations taken modulo `2 ^ 64`. -/

section Toggles

variable {α : Type} [LinearOrderedField α]

/-- The function `LerpClamped(double t, min, max)` at the type `GUIPosition`. -/
def LerpClampedPosition (t : α) (min max : GUIPosition α) : GUIPosition α :=
  min + (max - min) * clamp t 0 1

/-- The function `LerpClamped(double t, min, max)` at the type `SDL::FPoint`. -/
def LerpClampedPoint (t : α) (min max : FPoint α) : FPoint α :=
  min + (max - min) * clamp t 0 1

/-- The function `Lerp(double t, min, max)` at the type `SDL::FPoint`. -/
def LerpPoint (t : α) (min max : FPoint α) : FPoint α := min + (max - min) * t

/-- Subtraction of `Uint64` values. -/
def sub64 (a b : Nat) : Nat := (a + 2 ^ 64 - b % 2 ^ 64) % 2 ^ 64

/-- Addition of `Uint64` values. -/
def add64 (a b : Nat) : Nat := (a + b) % 2 ^ 64

/-- The fields of `Toggle` that its methods read or write.  The member `button`
is the one of the nested `clicker`; `has_handle` is `handle_container != nullptr`
and `handle_received` is the last rectangle passed to
`handle_container->SetParentShape`. -/
structure Toggle (α : Type) where
  shape : GUIRect α
  off_position : GUIPosition α
  on_position : GUIPosition α
  cur_position : GUIPosition α
  click_area : GUIRect α
  scroll_time : Nat
  state : Bool
  has_handle : Bool
  handle_received : Option (FRect α)
  _shape : FRect α
  _off_position : FPoint α
  _on_position : FPoint α
  _cur_position : FPoint α
  _click_area : FRect α
  _t : Nat
  button : Nat

/-- The constructor of `Toggle`; `mem` is the object before construction (the
cached members are not initialised by the constructor). -/
def Toggle.init (mem : Toggle α) (shape : GUIRect α) (off_pos on_pos : GUIPosition α)
    (click_area : GUIRect α) (state : Bool) (scroll_time : Nat) (button : Nat) : Toggle α :=
  { mem with
    shape := shape
    off_position := off_pos
    on_position := on_pos
    cur_position := if state then on_pos else off_pos
    click_area := click_area
    state := state
    scroll_time := scroll_time
    _t := if state then scroll_time else 0
    has_handle := false
    button := button }

/-- The statement
`if (handle_container != nullptr) handle_container->SetParentShape(SDL::FRect(_cur_position, _shape.size));`
of `Toggle`. -/
def Toggle.passToHandle (s : Toggle α) : Toggle α :=
  if s.has_handle then { s with handle_received := some ⟨s._cur_position, s._shape.size⟩ }
  else s

/-- The method `Toggle::SetParentShape`. -/
def Toggle.SetParentShape (s : Toggle α) (parent : FRect α) : Toggle α :=
  let s1 := { s with _shape := s.shape.Get parent }
  let s2 := { s1 with
    _off_position := s1.off_position.Get s1._shape
    _on_position := s1.on_position.Get s1._shape
    _cur_position := s1.cur_position.Get s1._shape }
  let s3 := { s2 with _click_area := s2.click_area.Get s2._shape }
  s3.passToHandle

/-- The assignments to `_t` in the animated branch of `Toggle::Update`. -/
def Toggle.advance (s : Toggle α) (dT : Nat) : Nat :=
  if s.state then
    if sub64 s.scroll_time s._t > dT then add64 s._t dT else s.scroll_time
  else
    if s._t > dT then sub64 s._t dT else 0

/-- The method `Toggle::Update`. -/
def Toggle.Update (s : Toggle α) (dT : Nat) : Toggle α :=
  let s3 :=
    if s.scroll_time = 0 then
      let s1 := { s with _t := 0 }
      if s1.state then
        { s1 with cur_position := s1.on_position, _cur_position := s1._on_position }
      else
        { s1 with cur_position := s1.off_position, _cur_position := s1._off_position }
    else
      let s1 := { s with _t := s.advance dT }
      let s2 := { s1 with
        cur_position := LerpClampedPosition ((s1._t : α) / (s1.scroll_time : α))
          s1.off_position s1.on_position }
      { s2 with
        _cur_position := LerpClampedPoint ((s2._t : α) / (s2.scroll_time : α))
          s2._off_position s2._on_position }
  s3.passToHandle

/-- The method `Toggle::Clicker::Notify`. -/
def Toggle.Notify (s : Toggle α) (e : ButtonEvent) : Toggle α :=
  if e.button ≠ s.button then s
  else if s._click_area.contains (pixel e.x e.y) = false then s
  else { s with state := !s.state }

/-- Modelled from the spec: the event source delivers an event to the observers
registered for its type.  `Toggle::Clicker` registers for `MOUSEBUTTONUP` only,
so a button event reaches `Notify` when it is a release. -/
def Toggle.deliver (s : Toggle α) (e : ButtonEvent) : Toggle α :=
  if e.released then s.Notify e else s

/-- What happens to a toggle between two frames: its `state` is flipped (by an
accepted click, or by an assignment to the public member), or `Update(dT)` runs. -/
inductive ToggleStep where
  | flip
  | update (dT : Nat)
  deriving DecidableEq, Repr

/-- One step on a toggle. -/
def Toggle.step (s : Toggle α) : ToggleStep → Toggle α
  | ToggleStep.flip => { s with state := !s.state }
  | ToggleStep.update dT => s.Update dT

/-- A sequence of steps on a toggle. -/
def Toggle.run (s : Toggle α) (steps : List ToggleStep) : Toggle α := steps.foldl Toggle.step s

/-- The cached endpoints are the evaluated ones: no member `shape`,
`off_position`, `on_position` was assigned since the last `SetParentShape`. -/
def Toggle.Fresh (s : Toggle α) : Prop :=
  s._off_position = s.off_position.Get s._shape ∧ s._on_position = s.on_position.Get s._shape

end Toggles

/-- A toggle as in `main.cpp`, animated over 500 time units, off, not laid out yet. -/
def demoToggle : Toggle ℚ where
  shape := GUIRect.ofPoints ⟨0, 0⟩ ⟨0, 0⟩ ⟨1, 1⟩ ⟨0, 0⟩
  off_position := ⟨⟨1 / 4, 1 / 2⟩, ⟨0, 0⟩⟩
  on_position := ⟨⟨3 / 4, 1 / 2⟩, ⟨0, 0⟩⟩
  cur_position := ⟨⟨1 / 4, 1 / 2⟩, ⟨0, 0⟩⟩
  click_area := GUIRect.ofPoints ⟨0, 0⟩ ⟨0, 0⟩ ⟨1, 1⟩ ⟨0, 0⟩
  scroll_time := 500
  state := false
  has_handle := true
  handle_received := none
  _shape := ⟨⟨0, 0⟩, ⟨0, 0⟩⟩
  _off_position := ⟨0, 0⟩
  _on_position := ⟨0, 0⟩
  _cur_position := ⟨0, 0⟩
  _click_area := ⟨⟨0, 0⟩, ⟨0, 0⟩⟩
  _t := 0
  button := 1

/-- The toggle `demoToggle` with `scroll_time == 0`. -/
def snapToggle : Toggle ℚ := { demoToggle with scroll_time := 0 }

section ToggleRuns

variable {α : Type} [LinearOrderedField α]

/-- A run of `Update` calls on a toggle, one per frame, with the given elapsed
times. -/
def Toggle.animate (s : Toggle α) (dTs : List Nat) : Toggle α := dTs.foldl Toggle.Update s

end ToggleRuns

/-- The toggle `snapToggle` laid out in `demoParent` and switched on. -/
def snapToggleOn : Toggle ℚ := { snapToggle.SetParentShape demoParent with state := true }

/-- The toggle `demoToggle` switched on. -/
def demoToggleOn : Toggle ℚ := { demoToggle with state := true }

/-- A click of button 1 released at pixel (30,10). -/
def demoClick : ButtonEvent := ⟨1, true, 30, 10⟩

/-! ## Render and update registries (GUI.hpp)

Objects are identified by natural numbers (their addresses). -/

/-- The container `std::map<int, std::vector<IRenderable*>>`: its entries in
ascending key order, which is the order of iteration. -/
abbrev RenderMap := List (Int × List Nat)

/-- The member `std::map::count`. -/
def RenderMap.count (m : RenderMap) (k : Int) : Nat :=
  if m.any (fun it => decide (it.1 = k)) then 1 else 0

/-- The vector `m[k]` of a key that is present; the empty vector for an absent
key (which `operator[]` inserts). -/
def RenderMap.get (m : RenderMap) (k : Int) : List Nat :=
  match m.find? (fun it => decide (it.1 = k)) with
  | some it => it.2
  | none => []

/-- The assignment `m[k] = v`: the entry of the key `k` is replaced, or inserted
at its place in key order. -/
def RenderMap.set : RenderMap → Int → List Nat → RenderMap
  | [], k, v => [(k, v)]
  | (k2, v2) :: rest, k, v =>
    if k < k2 then (k, v) :: (k2, v2) :: rest
    else if k = k2 then (k, v) :: rest
    else (k2, v2) :: RenderMap.set rest k v

/-- The keys of the map are strictly ascending. -/
def RenderMap.Sorted (m : RenderMap) : Prop := m.Pairwise (fun a b => a.1 < b.1)

/-- The algorithm `std::remove(first, last, value)` on a vector of pointers: the
elements other than `value` are moved to the front in order, the positions from
the returned iterator on are not written, and the vector keeps its length (the
returned iterator is discarded by both callers, no `erase` follows). -/
def stdRemove (v : List Nat) (x : Nat) : List Nat :=
  v.filter (fun y => decide (y ≠ x)) ++ v.drop (v.filter (fun y => decide (y ≠ x))).length

/-- The static method `IRenderable::_Add`, for an object `r` with
`r._order == order`. -/
def IRenderable._Add (m : RenderMap) (order : Int) (r : Nat) : RenderMap :=
  let m1 := if RenderMap.count m order = 0 then RenderMap.set m order [] else m
  RenderMap.set m1 order (RenderMap.get m1 order ++ [r])

/-- The static method `IRenderable::_Remove`, for an object `r` with
`r._order == order`; `_renderables[r._order]` inserts an empty vector when the
key is absent. -/
def IRenderable._Remove (m : RenderMap) (order : Int) (r : Nat) : RenderMap :=
  let m1 := if RenderMap.count m order = 0 then RenderMap.set m order [] else m
  RenderMap.set m1 order (stdRemove (RenderMap.get m1 order) r)

/-- The static member `_renderables` and the private members `_order` and
`_enabled` of the objects. -/
structure Renderables where
  _renderables : RenderMap
  _order : Nat → Int
  _enabled : Nat → Bool

/-- The state at program start: no renderable is registered. -/
def Renderables.start : Renderables := ⟨[], fun _ => 0, fun _ => true⟩

/-- The constructor of `IRenderable`, for the object `r`. -/
def IRenderable.init (w : Renderables) (r : Nat) (render_order : Int) (render_enabled : Bool) :
    Renderables :=
  let w1 := { w with _order := Function.update w._order r render_order }
  let w2 := { w1 with _enabled := Function.update w1._enabled r render_enabled }
  { w2 with _renderables := IRenderable._Add w2._renderables (w2._order r) r }

/-- The method `IRenderable::SetOrder`. -/
def IRenderable.SetOrder (w : Renderables) (r : Nat) (order : Int) : Renderables :=
  let w1 := { w with _renderables := IRenderable._Remove w._renderables (w._order r) r }
  let w2 := { w1 with _order := Function.update w1._order r order }
  { w2 with _renderables := IRenderable._Add w2._renderables (w2._order r) r }

/-- The method `IRenderable::SetEnable` (`OnEnable` and `OnDisable` do nothing
by default). -/
def IRenderable.SetEnable (w : Renderables) (r : Nat) (enable : Bool) : Renderables :=
  if w._enabled r = enable then w
  else { w with _enabled := Function.update w._enabled r enable }

/-- The destructor of `IRenderable`, for the object `r`. -/
def IRenderable.destroy (w : Renderables) (r : Nat) : Renderables :=
  { w with _renderables := IRenderable._Remove w._renderables (w._order r) r }

/-- The static method `IRenderable::RenderAllGUI`, as the list of the objects on
which `RenderGUI` is called, in order. -/
def IRenderable.RenderAllGUI (w : Renderables) : List Nat :=
  (w._renderables.map (fun it => it.2.filter (fun r => w._enabled r))).flatten

/-- The state after the renderables `0, 1, ..., n - 1` were constructed in this
order, the renderable `i` with order key `order i` and flag `enabled i`. -/
def IRenderable.constructed (order : Nat → Int) (enabled : Nat → Bool) : Nat → Renderables
  | 0 => Renderables.start
  | n + 1 => IRenderable.init (IRenderable.constructed order enabled n) n (order n) (enabled n)

/-- The static member `_updateables` and the private member `_enabled` of the
objects. -/
structure Updateables where
  _updateables : List Nat
  _enabled : Nat → Bool

/-- The state at program start: no updateable is registered. -/
def Updateables.start : Updateables := ⟨[], fun _ => true⟩

/-- The static method `IUpdateable::_Add`. -/
def IUpdateable._Add (l : List Nat) (u : Nat) : List Nat := l ++ [u]

/-- The static method `IUpdateable::_Remove`. -/
def IUpdateable._Remove (l : List Nat) (u : Nat) : List Nat := stdRemove l u

/-- The constructor of `IUpdateable`, for the object `u`. -/
def IUpdateable.init (w : Updateables) (u : Nat) : Updateables :=
  { _updateables := IUpdateable._Add w._updateables u
    _enabled := Function.update w._enabled u true }

/-- The destructor of `IUpdateable`, for the object `u`. -/
def IUpdateable.destroy (w : Updateables) (u : Nat) : Updateables :=
  { w with _updateables := IUpdateable._Remove w._updateables u }

/-- The static method `IUpdateable::UpdateAll`, as the list of the objects on
which `Update` is called, in order. -/
def IUpdateable.UpdateAll (w : Updateables) : List Nat :=
  w._updateables.filter (fun u => w._enabled u)

/-- The number of entries of the render registry, over all buckets. -/
def RenderMap.entries (m : RenderMap) : Nat := (m.map (fun it => it.2.length)).sum

/-- One renderable, object 0, constructed with order key 0. -/
def oneRenderable : Renderables := IRenderable.init Renderables.start 0 0 true

/-- Two renderables, objects 0 and 1, constructed with order key 0. -/
def twoRenderables : Renderables := IRenderable.init oneRenderable 1 0 true

/-- One updateable, object 0. -/
def oneUpdateable : Updateables := IUpdateable.init Updateables.start 0

/-! ## Subtree size -/

/-- The objects of the store in the subtree of `r`, in index order: those from
which at most `h.length` parent links lead to `r`. -/
def subtree (h : Heap) (r : Nat) : List Nat :=
  (List.range h.length).filter (fun n =>
    (List.range (h.length + 1)).any (fun k => decide (climb h.parent k n = some r)))

/-- The number of objects in the subtree of `r`. -/
def subtreeSize (h : Heap) (r : Nat) : Nat := (subtree h r).length

/-! ## The template `Groupable<T>` (Groupable.hpp) -/

/-- The virtual members of `Groupable<T>` that a container type overrides. -/
structure Primitives where
  _AddChild : Heap → Nat → Nat → Heap × Bool
  _RemoveChild : Heap → Nat → Nat → Except Fault Heap
  _ClearChildren : Heap → Nat → Heap
  _GetChild : Heap → Nat → Nat → Except Fault (Option Nat)
  NumChildren : Heap → Nat → Nat
  ChildPosition : Heap → Nat → Option Nat → Nat

/-- The default bodies of the virtual members in `Groupable<T>`. -/
def Groupable.defaults : Primitives where
  _AddChild := fun h _ _ => (h, false)
  _RemoveChild := fun _ _ _ => Except.error Fault.assertion
  _ClearChildren := fun h _ => h
  _GetChild := fun _ _ _ => Except.error Fault.assertion
  NumChildren := fun _ _ => 0
  ChildPosition := fun _ _ _ => NOT_FOUND

/-- The virtual members as the container types of `GUIElements.hpp` define them. -/
def IContainer.primitives : Primitives where
  _AddChild := _AddChild
  _RemoveChild := _RemoveChild
  _ClearChildren := _ClearChildren
  _GetChild := _GetChild
  NumChildren := NumChildren
  ChildPosition := ChildPosition

/-- The method `Groupable<T>::GetChild`. -/
def Groupable.GetChild (p : Primitives) (h : Heap) (self : Nat) (index : Nat) :
    Except Fault Nat := do
  ensure (index < p.NumChildren h self)
  let child ← p._GetChild h self index
  ensure (child ≠ some self)
  ensure (p.ChildPosition h self child = index)
  match child with
  | none => Except.error Fault.nullDeref
  | some c =>
    ensure (h.parent c = some self)
    pure c

/-- The method `Groupable<T>::RemoveChild(std::shared_ptr<Groupable<T>>)`. -/
def Groupable.RemoveChild (p : Primitives) (h : Heap) (self : Nat) (child : Option Nat) :
    Except Fault Heap :=
  match child with
  | none => Except.error Fault.nullDeref
  | some c => do
    ensure (h.parent c = some self)
    ensure (p.ChildPosition h self child ≠ NOT_FOUND)
    let h1 ← p._RemoveChild h self (p.ChildPosition h self child)
    let h2 := h1.setParent c none
    ensure (p.ChildPosition h2 self child = NOT_FOUND)
    pure h2

/-- The method `Groupable<T>::RemoveChild(size_t)`. -/
def Groupable.RemoveChildAt (p : Primitives) (h : Heap) (self : Nat) (index : Nat) :
    Except Fault Heap := do
  let c ← Groupable.GetChild p h self index
  let h1 ← p._RemoveChild h self index
  let h2 := h1.setParent c none
  ensure (p.ChildPosition h2 self (some c) = NOT_FOUND)
  pure h2

/-- The statement `if (child->parent != nullptr) child->parent->RemoveChild(child);`
of `Groupable<T>::AddChild`. -/
def Groupable.detachFromParent (p : Primitives) (h : Heap) (c : Nat) : Except Fault Heap :=
  match h.parent c with
  | some q => Groupable.RemoveChild p h q (some c)
  | none => Except.ok h

/-- The method `Groupable<T>::AddChild`. -/
def Groupable.AddChild (p : Primitives) (h : Heap) (self : Nat) (child : Option Nat) :
    Except Fault (Heap × Bool) :=
  match child with
  | none => Except.ok (h, false)
  | some c =>
    if h.parent c = some self then do
      ensure (p.ChildPosition h self child ≠ NOT_FOUND)
      pure (h, true)
    else do
      let h1 ← Groupable.detachFromParent p h c
      ensure (p.ChildPosition h1 self child = NOT_FOUND)
      match p._AddChild h1 self c with
      | (h2, true) =>
        ensure (p.ChildPosition h2 self child ≠ NOT_FOUND)
        pure (h2.setParent c (some self), true)
      | (h2, false) =>
        ensure (p.ChildPosition h2 self child = NOT_FOUND)
        pure (h2.setParent c none, false)

/-- The method `Groupable<T>::ClearChildren`. -/
def Groupable.ClearChildren (p : Primitives) (h : Heap) (self : Nat) : Except Fault Heap := do
  let h1 := p._ClearChildren h self
  ensure (p.NumChildren h1 self = 0)
  pure h1

/-- The loop `while (num) { ... }` of `Groupable<T>::DeleteTree`, entered with the
count `num`; `recurse` is the recursive call. -/
def Groupable.deleteLoop (p : Primitives)
    (recurse : Heap → Option Nat → Option (Except Fault Heap)) (root : Nat) :
    Nat → Heap → Option (Except Fault Heap)
  | 0, h => some (Except.ok h)
  | num + 1, h =>
    match Groupable.GetChild p h root num with
    | Except.error e => some (Except.error e)
    | Except.ok child =>
      match Groupable.RemoveChildAt p h root num with
      | Except.error e => some (Except.error e)
      | Except.ok h1 =>
        if p.NumChildren h1 root ≠ num then some (Except.error Fault.assertion)
        else
          match recurse h1 (some child) with
          | none => none
          | some (Except.error e) => some (Except.error e)
          | some (Except.ok h2) => Groupable.deleteLoop p recurse root num h2

/-- The static method `Groupable<T>::DeleteTree`; the first argument bounds the
nesting depth of the recursive calls, as for `DeleteTree`. -/
def Groupable.DeleteTree (p : Primitives) : Nat → Heap → Option Nat → Option (Except Fault Heap)
  | _, h, none => some (Except.ok h)
  | 0, _, some _ => none
  | fuel + 1, h, some root =>
    Groupable.deleteLoop p (Groupable.DeleteTree p fuel) root (p.NumChildren h root) h

/-! ## The last sliders' and `Lerp.hpp` members -/

section SliderExtras

variable {α : Type} [LinearOrderedField α]

/-- The method `IntSlider::GetValueNorm`: the members are `int`, so the two
subtractions and the division are taken in `int` (the division truncates
towards zero) and the quotient is then converted to `double`.  A division by
zero, undefined in C++, gives 0 here. -/
def IntSlider.GetValueNorm (s : Slider α ℤ) : α :=
  ((wrapInt (Int.tdiv (wrapInt (s.cur_value - s.min_value))
    (wrapInt (s.max_value - s.min_value))) : ℤ) : α)

/-- Modelled from the spec: `SDL::Point`, a point with `int` coordinates. -/
structure Point where
  x : ℤ
  y : ℤ
  deriving DecidableEq, Repr

/-- The function `Clamp(const SDL::Point&, min, max)` of `Lerp.hpp`. -/
def Point.Clamp (value min max : Point) : Except Fault Point := do
  ensure (min.x ≤ max.x)
  ensure (min.y ≤ max.y)
  pure
    ⟨if value.x < min.x then min.x else if value.x > max.x then max.x else value.x,
     if value.x < min.y then min.y else if value.y > max.y then max.y else value.y⟩

/-- The function `Clamp(const SDL::FPoint&, min, max)` of `Lerp.hpp`. -/
def FPoint.Clamp (value min max : FPoint α) : Except Fault (FPoint α) := do
  ensure (min.x ≤ max.x)
  ensure (min.y ≤ max.y)
  pure
    ⟨if value.x < min.x then min.x else if value.x > max.x then max.x else value.x,
     if value.x < min.y then min.y else if value.y > max.y then max.y else value.y⟩

end SliderExtras

/-- An `IntSlider` with values from 0 to 10, at 5. -/
def tenIntSlider : Slider ℚ ℤ :=
  { wideIntSlider with min_value := 0, max_value := 10, cur_value := 5 }

/-- A `FloatSlider` with values from 0 to 10, at 5. -/
def tenFloatSlider : Slider ℚ ℚ :=
  { demoSlider with min_value := 0, max_value := 10, cur_value := 5 }

/-- The slider `demoSliderShaped` after a press of its button on the handle, at
pixel (45,10). -/
def demoSliderGrabbed : Slider ℚ ℚ :=
  FloatSlider.Notify horizontalMag demoSliderShaped ⟨1, false, 45, 10⟩

/-- The slider `demoSliderGrabbed` after a second press of its button, without a
release in between, at pixel (80,50): off the handle and off the track. -/
def demoSliderPressedAgain : Slider ℚ ℚ :=
  FloatSlider.Notify horizontalMag demoSliderGrabbed ⟨1, false, 80, 50⟩

/-! ## Ownership and lifetime (GUI.hpp, GUIElements.hpp)

Children are held by `std::shared_ptr`: an object is destroyed when the last
`shared_ptr` to it goes away.  The methods above are the bodies of the member
functions; the definitions here add what happens when the local variable or
the parameter holding the child goes out of scope at the end of a call. -/

/-- The store with the ownership of its objects: `outside c` is the number of
`shared_ptr`s to `c` held outside the child storages (not counting the
parameter or local variable of the call at hand), and `dead` lists the objects
whose destructor has run. -/
structure Owned where
  heap : Heap
  outside : Nat → Nat
  dead : List Nat

/-- The number of `shared_ptr`s to `c` held in the child storages. -/
def stored (h : Heap) (c : Nat) : Nat :=
  ((List.range h.length).map (fun p => (children h p).count c)).sum

/-- The value `use_count()` of the `shared_ptr`s to `c`. -/
def Owned.use_count (st : Owned) (c : Nat) : Nat := st.outside c + stored st.heap c

/-- The destructor `~IContainer`: `assert(parent == nullptr)` and
`assert(NumChildren() == 0)`, the latter on the base `NumChildren`, which
returns 0. -/
def IContainer.destructor (st : Owned) (self : Nat) : Except Fault Owned :=
  if st.heap.parent self ≠ none then Except.error Fault.assertion
  else Except.ok { st with dead := self :: st.dead }

/-- The end of the lifetime of a `shared_ptr` to `c` that is counted neither in
`outside` nor in the storages: `destroy` runs when no reference is left. -/
def release (destroy : Owned → Nat → Option (Except Fault Owned)) (st : Owned) (c : Nat) :
    Option (Except Fault Owned) :=
  if st.use_count c = 0 then destroy st c else some (Except.ok st)

/-- The references of a cleared child vector (or handle) go away, in order. -/
def releaseAll (destroy : Owned → Nat → Option (Except Fault Owned)) :
    Owned → List Nat → Option (Except Fault Owned)
  | st, [] => some (Except.ok st)
  | st, c :: cs =>
    match release destroy st c with
    | none => none
    | some (Except.error e) => some (Except.error e)
    | some (Except.ok st1) => releaseAll destroy st1 cs

/-- The destruction of the object `self`.  The destructors of `ContainerGroup`,
`FloatSlider`, `IntSlider` and `Toggle` call `ClearChildren()`: `_ClearChildren()`
clears the parents of the children and empties the storage, which releases the
references to the children, then `assert(NumChildren() == 0)`; the rectangle
widgets have no destructor body.  `~IContainer` follows.  The first argument
bounds the nesting of destructions; `none` means that the bound was reached. -/
def destroy : Nat → Owned → Nat → Option (Except Fault Owned)
  | 0, _, _ => none
  | fuel + 1, st, self =>
    match st.heap.store self with
    | Store.leaf => some (IContainer.destructor st self)
    | _ =>
      match releaseAll (destroy fuel) { st with heap := _ClearChildren st.heap self }
          (children st.heap self) with
      | none => none
      | some (Except.error e) => some (Except.error e)
      | some (Except.ok st2) =>
        if NumChildren st2.heap self ≠ 0 then some (Except.error Fault.assertion)
        else some (IContainer.destructor st2 self)

/-- The call `RemoveChild(size_t)` up to its closing brace, where the local
`shared_ptr child` goes out of scope. -/
def RemoveChildAtOwned (fuel : Nat) (st : Owned) (self index : Nat) :
    Option (Except Fault Owned) :=
  match GetChild st.heap self index with
  | Except.error e => some (Except.error e)
  | Except.ok child =>
    match RemoveChildAt st.heap self index with
    | Except.error e => some (Except.error e)
    | Except.ok h1 => release (destroy fuel) { st with heap := h1 } child

/-- The call `RemoveChild(std::shared_ptr<IContainer>)` up to its return, where
the parameter `child` goes out of scope. -/
def RemoveChildOwned (fuel : Nat) (st : Owned) (self : Nat) (child : Option Nat) :
    Option (Except Fault Owned) :=
  match RemoveChild st.heap self child with
  | Except.error e => some (Except.error e)
  | Except.ok h1 =>
    match child with
    | none => some (Except.ok { st with heap := h1 })
    | some c => release (destroy fuel) { st with heap := h1 } c

/-- A group 0 holding a group 1 holding a rectangle 2.  Group 1 is referenced by
its parent only (as the children that `main.cpp` adds are); the caller holds
`shared_ptr`s to 0 and to 2. -/
def soleOwned : Owned :=
  ⟨[⟨none, Store.group [1]⟩, ⟨some 0, Store.group [2]⟩, ⟨some 1, Store.leaf⟩],
    fun n => if n = 1 then 0 else 1, []⟩

/-- The store of `soleOwned` after object 1 was removed from object 0 and
destroyed. -/
def soleOwnedAfter : Owned :=
  ⟨[⟨none, Store.group []⟩, ⟨none, Store.group []⟩, ⟨none, Store.leaf⟩],
    fun n => if n = 1 then 0 else 1, [1]⟩

/-- The store of `soleOwned` with every object referenced from outside as well. -/
def allHeld : Owned := ⟨soleOwned.heap, fun _ => 1, []⟩

/-- The store of `allHeld` after object 1 was removed from object 0. -/
def allHeldAfter : Owned :=
  ⟨[⟨none, Store.group []⟩, ⟨none, Store.group [2]⟩, ⟨some 1, Store.leaf⟩], fun _ => 1, []⟩

/-! ## The store: reading after writing -/

theorem Heap.node_set (h : Heap) (i j : Nat) (x : Node) :
    Heap.node (h.set i x) j = if j = i ∧ i < h.length then x else h.node j := by
  unfold Heap.node
  rw [List.getD_eq_getElem?_getD, List.getD_eq_getElem?_getD, List.getElem?_set]
  by_cases hji : i = j
  · subst hji
    by_cases hl : i < h.length
    · simp [hl]
    · simp [hl, List.getElem?_eq_none (Nat.le_of_not_lt hl)]
  · have hji2 : ¬ j = i := fun e => hji e.symm
    simp [hji, hji2]

theorem Heap.node_of_ge (h : Heap) (i : Nat) (hi : h.length ≤ i) :
    h.node i = ⟨none, Store.leaf⟩ := by
  unfold Heap.node
  rw [List.getD_eq_getElem?_getD, List.getElem?_eq_none hi]
  rfl

theorem Heap.parent_of_ge (h : Heap) (i : Nat) (hi : h.length ≤ i) : h.parent i = none := by
  simp [Heap.parent, Heap.node_of_ge h i hi]

theorem Heap.store_of_ge (h : Heap) (i : Nat) (hi : h.length ≤ i) : h.store i = Store.leaf := by
  simp [Heap.store, Heap.node_of_ge h i hi]

theorem Heap.lt_of_parent (h : Heap) (i p : Nat) (hp : h.parent i = some p) : i < h.length := by
  by_contra hc
  rw [Heap.parent_of_ge h i (Nat.le_of_not_lt hc)] at hp
  exact Option.noConfusion hp

@[simp] theorem Heap.length_setParent (h : Heap) (i : Nat) (p : Option Nat) :
    (h.setParent i p).length = h.length := by
  simp [Heap.setParent]

@[simp] theorem Heap.length_setStore (h : Heap) (i : Nat) (s : Store) :
    (h.setStore i s).length = h.length := by
  simp [Heap.setStore]

theorem Heap.parent_setParent (h : Heap) (i j : Nat) (p : Option Nat) :
    (h.setParent i p).parent j = if j = i ∧ i < h.length then p else h.parent j := by
  unfold Heap.parent Heap.setParent
  rw [Heap.node_set]
  split <;> rfl

@[simp] theorem Heap.store_setParent (h : Heap) (i j : Nat) (p : Option Nat) :
    (h.setParent i p).store j = h.store j := by
  unfold Heap.store Heap.setParent
  rw [Heap.node_set]
  split
  · rename_i hc
    rw [hc.1]
  · rfl

@[simp] theorem Heap.parent_setStore (h : Heap) (i j : Nat) (s : Store) :
    (h.setStore i s).parent j = h.parent j := by
  unfold Heap.parent Heap.setStore
  rw [Heap.node_set]
  split
  · rename_i hc
    rw [hc.1]
  · rfl

theorem Heap.store_setStore (h : Heap) (i j : Nat) (s : Store) :
    (h.setStore i s).store j = if j = i ∧ i < h.length then s else h.store j := by
  unfold Heap.store Heap.setStore
  rw [Heap.node_set]
  split <;> rfl

/-! ## Consistency on maps -/

theorem children_of_ge (h : Heap) (p : Nat) (hp : h.length ≤ p) : children h p = [] := by
  simp [children, Heap.store_of_ge h p hp, Store.kids]

theorem lt_of_mem_children (h : Heap) (c p : Nat) (hc : c ∈ children h p) : p < h.length := by
  by_contra hlt
  rw [children_of_ge h p (Nat.le_of_not_lt hlt)] at hc
  exact List.not_mem_nil c hc

theorem WF_iff (h : Heap) : WF h ↔ Consistent h.parent (children h) := by
  constructor
  · rintro ⟨h1, h2⟩
    refine ⟨fun n p => ⟨fun hp => ?_, fun hc => ?_⟩, fun p => ?_⟩
    · exact h2 n (Heap.lt_of_parent h n p hp) p hp
    · exact (h1 p (lt_of_mem_children h n p hc)).2 n hc
    · by_cases hp : p < h.length
      · exact (h1 p hp).1
      · rw [children_of_ge h p (Nat.le_of_not_lt hp)]
        exact List.nodup_nil
  · rintro ⟨h1, h2⟩
    exact ⟨fun p _ => ⟨h2 p, fun c hc => (h1 c p).2 hc⟩, fun n _ p hp => (h1 n p).1 hp⟩

theorem Consistent.detach {par par2 : Nat → Option Nat} {ch ch2 : Nat → List Nat}
    (hc : Consistent par ch) (a b : Nat)
    (hpar : ∀ n, par2 n = if n = b then none else par n)
    (hch : ∀ p, ch2 p = if p = a then (ch a).erase b else ch p)
    (hb : par b = some a) : Consistent par2 ch2 := by
  obtain ⟨h1, h2⟩ := hc
  refine ⟨fun n p => ?_, fun p => ?_⟩
  · rw [hpar, hch]
    by_cases hn : n = b
    · subst hn
      simp only [if_true]
      constructor
      · intro hx
        exact Option.noConfusion hx
      · intro hx
        exfalso
        by_cases hp : p = a
        · subst hp
          simp only [if_true] at hx
          exact (List.Nodup.not_mem_erase (h2 p)) hx
        · simp only [hp, if_false] at hx
          have := (h1 n p).2 hx
          rw [hb] at this
          exact hp (Option.some.inj this).symm
    · simp only [hn, if_false]
      by_cases hp : p = a
      · subst hp
        simp only [if_true]
        rw [h1 n p]
        exact (List.mem_erase_of_ne hn).symm
      · simp only [hp, if_false]
        exact h1 n p
  · rw [hch]
    by_cases hp : p = a
    · subst hp
      simp only [if_true]
      exact (h2 p).erase b
    · simp only [hp, if_false]
      exact h2 p

theorem Consistent.attach {par par2 : Nat → Option Nat} {ch ch2 : Nat → List Nat}
    (hc : Consistent par ch) (a b : Nat)
    (hpar : ∀ n, par2 n = if n = b then some a else par n)
    (hch : ∀ p, ch2 p = if p = a then ch a ++ [b] else ch p)
    (hb : par b = none) : Consistent par2 ch2 := by
  obtain ⟨h1, h2⟩ := hc
  have hnot : ∀ p, b ∉ ch p := by
    intro p hx
    have := (h1 b p).2 hx
    rw [hb] at this
    exact Option.noConfusion this
  refine ⟨fun n p => ?_, fun p => ?_⟩
  · rw [hpar, hch]
    by_cases hn : n = b
    · subst hn
      simp only [if_true]
      by_cases hp : p = a
      · subst hp
        simp
      · simp only [hp, if_false]
        constructor
        · intro hx
          exact absurd (Option.some.inj hx).symm hp
        · intro hx
          exact absurd hx (hnot p)
    · simp only [hn, if_false]
      by_cases hp : p = a
      · subst hp
        simp only [if_true, List.mem_append, List.mem_singleton, hn, or_false]
        exact h1 n p
      · simp only [hp, if_false]
        exact h1 n p
  · rw [hch]
    by_cases hp : p = a
    · subst hp
      simp only [if_true]
      rw [List.nodup_append]
      refine ⟨h2 p, List.nodup_singleton b, ?_⟩
      intro x hx hx2
      rw [List.mem_singleton] at hx2
      subst hx2
      exact hnot p hx
    · simp only [hp, if_false]
      exact h2 p

theorem Consistent.clear {par par2 : Nat → Option Nat} {ch ch2 : Nat → List Nat}
    (hc : Consistent par ch) (a : Nat)
    (hpar : ∀ n, par2 n = if n ∈ ch a then none else par n)
    (hch : ∀ p, ch2 p = if p = a then [] else ch p) : Consistent par2 ch2 := by
  obtain ⟨h1, h2⟩ := hc
  refine ⟨fun n p => ?_, fun p => ?_⟩
  · rw [hpar, hch]
    by_cases hn : n ∈ ch a
    · simp only [hn, if_true]
      constructor
      · intro hx
        exact Option.noConfusion hx
      · intro hx
        exfalso
        by_cases hp : p = a
        · subst hp
          simp at hx
        · simp only [hp, if_false] at hx
          have e1 := (h1 n p).2 hx
          have e2 := (h1 n a).2 hn
          rw [e1] at e2
          exact hp (Option.some.inj e2)
    · simp only [hn, if_false]
      by_cases hp : p = a
      · subst hp
        simp only [if_true, List.not_mem_nil, iff_false]
        intro hx
        exact hn ((h1 n p).1 hx)
      · simp only [hp, if_false]
        exact h1 n p
  · rw [hch]
    by_cases hp : p = a
    · simp [hp]
    · simp only [hp, if_false]
      exact h2 p

/-! ## The primitives, read through `children` and `parent` -/

theorem Heap.parent_setParent_none (h : Heap) (i j : Nat) :
    (h.setParent i none).parent j = if j = i then none else h.parent j := by
  rw [Heap.parent_setParent]
  by_cases hj : j = i
  · subst hj
    by_cases hl : j < h.length
    · simp [hl]
    · simp [hl, Heap.parent_of_ge h j (Nat.le_of_not_lt hl)]
  · simp [hj]

theorem children_setParent (h : Heap) (i p : Nat) (q : Option Nat) :
    children (h.setParent i q) p = children h p := by
  simp [children]

theorem children_setStore (h : Heap) (i p : Nat) (s : Store) (hi : i < h.length) :
    children (h.setStore i s) p = if p = i then s.kids else children h p := by
  unfold children
  rw [Heap.store_setStore]
  by_cases hp : p = i
  · simp [hp, hi]
  · simp [hp]

theorem NumChildren_eq (h : Heap) (a : Nat) : NumChildren h a = (children h a).length := by
  unfold NumChildren children
  cases h.store a with
  | leaf => rfl
  | group cs => rfl
  | slot hc => cases hc <;> rfl

theorem ChildPosition_some (h : Heap) (a b : Nat) :
    ChildPosition h a (some b) =
      if b ∈ children h a then (children h a).indexOf b else NOT_FOUND := by
  unfold ChildPosition children
  cases h.store a with
  | leaf => simp [Store.kids]
  | group cs =>
    simp only [Store.kids]
    by_cases hb : b ∈ cs
    · have hlt : cs.indexOf b < cs.length := List.indexOf_lt_length.2 hb
      simp [hb, Nat.ne_of_lt hlt]
    · have heq : cs.indexOf b = cs.length := List.indexOf_eq_length.2 hb
      simp [hb, heq]
  | slot hc =>
    cases hc with
    | none => simp [Store.kids]
    | some c =>
      by_cases hbc : b = c
      · subst hbc
        simp [Store.kids]
      · have hcb : ¬ c = b := fun e => hbc e.symm
        simp [Store.kids, hbc, hcb]

theorem _GetChild_eq (h : Heap) (a i : Nat) :
    _GetChild h a i =
      if i < (children h a).length then Except.ok (children h a)[i]?
      else Except.error Fault.assertion := by
  unfold _GetChild children
  cases h.store a with
  | leaf => simp [Store.kids]
  | group cs => simp [Store.kids]
  | slot hc =>
    cases hc with
    | none => simp [Store.kids]
    | some c =>
      by_cases hi : i = 0
      · subst hi
        simp [Store.kids]
      · simp [Store.kids, hi]

theorem GetChild_ge (h : Heap) (a i : Nat) (hi : ¬ i < NumChildren h a) :
    GetChild h a i = Except.error Fault.assertion := by
  simp [GetChild, ensure, hi, bind, Except.bind]

theorem GetChild_ok_iff (h : Heap) (a i c : Nat) :
    GetChild h a i = Except.ok c ↔
      (children h a)[i]? = some c ∧ c ≠ a ∧ (children h a).indexOf c = i ∧
        h.parent c = some a := by
  unfold GetChild
  rw [NumChildren_eq, _GetChild_eq]
  by_cases hi : i < (children h a).length
  · obtain ⟨d, hd⟩ : ∃ d, (children h a)[i]? = some d := ⟨_, List.getElem?_eq_getElem hi⟩
    have hmem : d ∈ children h a := List.getElem?_mem hd
    simp only [ensure, hi, if_true, bind, Except.bind, hd, ChildPosition_some, hmem]
    by_cases hda : d = a
    · subst hda
      simp
      intro e
      subst e
      simp
    · by_cases hidx : (children h a).indexOf d = i
      · by_cases hp : h.parent d = some a
        · simp [hda, hidx, hp, pure, Except.pure]
          intro e; subst e; exact ⟨hda, hidx, hp⟩
        · simp [hda, hidx, hp, pure, Except.pure]
          intro e; subst e
          intro _ _
          exact hp
      · simp [hda, hidx]
        intro e; subst e
        intro _ h2
        exact absurd h2 hidx
  · have hn : (children h a)[i]? = none := List.getElem?_eq_none (Nat.le_of_not_lt hi)
    simp [ensure, hi, bind, Except.bind, hn]

theorem lt_of_getElem?_children (h : Heap) (a i c : Nat)
    (hc : (children h a)[i]? = some c) : a < h.length :=
  lt_of_mem_children h c a (List.getElem?_mem hc)

theorem _RemoveChild_ge (h : Heap) (a i : Nat) (hi : ¬ i < (children h a).length) :
    _RemoveChild h a i = Except.error Fault.assertion := by
  unfold _RemoveChild
  unfold children at hi
  cases hs : h.store a with
  | leaf => rfl
  | group cs =>
    rw [hs] at hi
    simp only [Store.kids] at hi
    simp [hi]
  | slot hc =>
    rw [hs] at hi
    cases hc with
    | none => simp
    | some c =>
      simp only [Store.kids, Option.toList, List.length_singleton, Nat.lt_one_iff] at hi
      simp [hi]

theorem _RemoveChild_ok (h : Heap) (a i c : Nat) (hc : (children h a)[i]? = some c) :
    ∃ h1, _RemoveChild h a i = Except.ok h1 ∧ h1.length = h.length ∧
      (∀ n, (h1.setParent c none).parent n = if n = c then none else h.parent n) ∧
      (∀ p, children h1 p = if p = a then (children h a).eraseIdx i else children h p) ∧
      (∀ p, p ≠ a → h1.store p = h.store p) := by
  have ha : a < h.length := lt_of_getElem?_children h a i c hc
  unfold _RemoveChild
  unfold children at hc
  cases hs : h.store a with
  | leaf =>
    rw [hs] at hc
    simp [Store.kids] at hc
  | group cs =>
    rw [hs] at hc
    simp only [Store.kids] at hc
    have hi : i < cs.length := (List.getElem?_eq_some.1 hc).1
    refine ⟨h.setStore a (Store.group (cs.eraseIdx i)), by simp [hi], by simp, ?_, ?_, ?_⟩
    · intro n
      rw [Heap.parent_setParent_none, Heap.parent_setStore]
    · intro p
      rw [children_setStore h a p _ ha]
      by_cases hp : p = a
      · simp [hp, children, hs, Store.kids]
      · simp [hp]
    · intro p hp
      rw [Heap.store_setStore]
      simp [hp]
  | slot hc2 =>
    rw [hs] at hc
    cases hc2 with
    | none => simp [Store.kids] at hc
    | some d =>
      simp only [Store.kids, Option.toList] at hc
      have hi : i = 0 := by
        have := (List.getElem?_eq_some.1 hc).1
        simpa using this
      subst hi
      have hd : d = c := by simpa using hc
      subst hd
      refine ⟨(h.setParent d none).setStore a (Store.slot none), by simp, by simp, ?_, ?_, ?_⟩
      · intro n
        rw [Heap.parent_setParent_none, Heap.parent_setStore, Heap.parent_setParent_none]
        by_cases hn : n = d <;> simp [hn]
      · intro p
        rw [children_setStore _ a p _ (by simpa using ha), children_setParent]
        by_cases hp : p = a
        · simp [hp, children, hs, Store.kids]
        · simp [hp]
      · intro p hp
        rw [Heap.store_setStore]
        simp [hp]

theorem getElem?_indexOf_of_mem (l : List Nat) (b : Nat) (hb : b ∈ l) :
    l[l.indexOf b]? = some b := by
  have hlt : l.indexOf b < l.length := List.indexOf_lt_length.2 hb
  rw [List.getElem?_eq_getElem hlt, List.getElem_indexOf hlt]

theorem RemoveChild_inv (h : Heap) (a b : Nat) (h2 : Heap)
    (hr : RemoveChild h a (some b) = Except.ok h2) :
    h.parent b = some a ∧ ChildPosition h a (some b) ≠ NOT_FOUND := by
  unfold RemoveChild at hr
  by_cases hp : h.parent b = some a
  · by_cases hq : ChildPosition h a (some b) = NOT_FOUND
    · simp [ensure, hp, hq, bind, Except.bind] at hr
    · exact ⟨hp, hq⟩
  · simp [ensure, hp, bind, Except.bind] at hr

theorem RemoveChild_not_parent (h : Heap) (a b : Nat) (hp : h.parent b ≠ some a) :
    RemoveChild h a (some b) = Except.error Fault.assertion := by
  simp [RemoveChild, ensure, hp, bind, Except.bind]

theorem RemoveChild_ok (h : Heap) (a b : Nat) (hw : WF h) (hb : h.parent b = some a)
    (hq : ChildPosition h a (some b) ≠ NOT_FOUND) :
    ∃ h2, RemoveChild h a (some b) = Except.ok h2 ∧ h2.length = h.length ∧
      (∀ n, h2.parent n = if n = b then none else h.parent n) ∧
      (∀ p, children h2 p = if p = a then (children h a).erase b else children h p) ∧
      (∀ p, p ≠ a → h2.store p = h.store p) := by
  obtain ⟨hc1, hc2⟩ := (WF_iff h).1 hw
  have hmem : b ∈ children h a := (hc1 b a).1 hb
  have hpos : ChildPosition h a (some b) = (children h a).indexOf b := by
    rw [ChildPosition_some]
    simp [hmem]
  have hget := getElem?_indexOf_of_mem (children h a) b hmem
  obtain ⟨h1, e1, e2, e3, e4, e5⟩ := _RemoveChild_ok h a ((children h a).indexOf b) b hget
  have herase : (children h a).eraseIdx ((children h a).indexOf b) = (children h a).erase b :=
    List.eraseIdx_indexOf_eq_erase b (children h a)
  have hch : ∀ p, children (h1.setParent b none) p =
      if p = a then (children h a).erase b else children h p := by
    intro p
    rw [children_setParent, e4, herase]
  have hfin : ChildPosition (h1.setParent b none) a (some b) = NOT_FOUND := by
    rw [ChildPosition_some, hch]
    have : b ∉ (children h a).erase b := List.Nodup.not_mem_erase (hc2 a)
    simp [this]
  refine ⟨h1.setParent b none, ?_, by simp [e2], e3, hch, ?_⟩
  · unfold RemoveChild
    have hq2 : ¬ (children h a).indexOf b = NOT_FOUND := by
      rw [← hpos]
      exact hq
    simp [ensure, hb, hpos, hq2, e1, hfin, bind, Except.bind, pure, Except.pure]
  · intro p hp
    rw [Heap.store_setParent]
    exact e5 p hp

theorem Consistent.congr {par par2 : Nat → Option Nat} {ch ch2 : Nat → List Nat}
    (hc : Consistent par ch) (hpar : ∀ n, par2 n = par n) (hch : ∀ p, ch2 p = ch p) :
    Consistent par2 ch2 := by
  have e1 : par2 = par := funext hpar
  have e2 : ch2 = ch := funext hch
  rw [e1, e2]
  exact hc

theorem accepts_lt (h : Heap) (a : Nat) (hacc : (h.store a).accepts = true) : a < h.length := by
  by_contra hlt
  rw [Heap.store_of_ge h a (Nat.le_of_not_lt hlt)] at hacc
  exact Bool.noConfusion hacc

theorem _AddChild_reject (h : Heap) (a b : Nat) (hacc : (h.store a).accepts = false) :
    _AddChild h a b = (h, false) := by
  unfold _AddChild
  cases hs : h.store a with
  | leaf => rfl
  | group cs =>
    rw [hs] at hacc
    exact Bool.noConfusion hacc
  | slot hc =>
    rw [hs] at hacc
    cases hc with
    | none => exact Bool.noConfusion hacc
    | some c => simp

theorem _AddChild_accept (h : Heap) (a b : Nat) (hacc : (h.store a).accepts = true) :
    ∃ h2, _AddChild h a b = (h2, true) ∧ h2.length = h.length ∧
      (∀ n, h2.parent n = h.parent n) ∧
      (∀ p, children h2 p = if p = a then children h a ++ [b] else children h p) ∧
      (∀ p, p ≠ a → h2.store p = h.store p) := by
  have ha : a < h.length := accepts_lt h a hacc
  unfold _AddChild
  cases hs : h.store a with
  | leaf =>
    rw [hs] at hacc
    exact Bool.noConfusion hacc
  | group cs =>
    refine ⟨_, rfl, by simp, fun n => by simp, fun p => ?_, fun p hp => ?_⟩
    · rw [children_setStore h a p _ ha]
      by_cases hp : p = a
      · simp [hp, children, hs, Store.kids]
      · simp [hp]
    · rw [Heap.store_setStore]
      simp [hp]
  | slot hc =>
    rw [hs] at hacc
    cases hc with
    | some c => exact Bool.noConfusion hacc
    | none =>
      refine ⟨h.setStore a (Store.slot (some b)), by simp, by simp, fun n => by simp,
        fun p => ?_, fun p hp => ?_⟩
      · rw [children_setStore h a p _ ha]
        by_cases hp : p = a
        · simp [hp, children, hs, Store.kids]
        · simp [hp]
      · rw [Heap.store_setStore]
        simp [hp]

theorem detachFromParent_fail (h : Heap) (b p : Nat) (hp : h.parent b = some p)
    (hq : ChildPosition h p (some b) = NOT_FOUND) :
    detachFromParent h b = Except.error Fault.assertion := by
  simp [detachFromParent, hp, RemoveChild, ensure, hq, bind, Except.bind]

theorem detachFromParent_ok (h : Heap) (b : Nat) (hw : WF h)
    (hq : ∀ p ∈ h.parent b, ChildPosition h p (some b) ≠ NOT_FOUND) :
    ∃ h1, detachFromParent h b = Except.ok h1 ∧ h1.length = h.length ∧
      (∀ n, h1.parent n = if n = b then none else h.parent n) ∧
      (∀ p, children h1 p = if h.parent b = some p then (children h p).erase b
        else children h p) ∧
      (∀ p, h.parent b ≠ some p → h1.store p = h.store p) ∧ WF h1 := by
  unfold detachFromParent
  cases hp : h.parent b with
  | none =>
    refine ⟨h, rfl, rfl, fun n => ?_, fun p => by simp, fun p _ => rfl, hw⟩
    by_cases hn : n = b
    · simp [hn, hp]
    · simp [hn]
  | some q =>
    obtain ⟨h1, e1, e2, e3, e4, e5⟩ := RemoveChild_ok h q b hw hp (hq q hp)
    have hch : ∀ p, children h1 p = if some q = some p then (children h p).erase b
        else children h p := by
      intro p
      rw [e4]
      by_cases hpq : p = q
      · subst hpq
        simp
      · have : ¬ q = p := fun e => hpq e.symm
        simp [hpq, this]
    refine ⟨h1, e1, e2, e3, hch, ?_, ?_⟩
    · intro p hne
      exact e5 p (fun e => hne (by rw [e]))
    · rw [WF_iff]
      exact ((WF_iff h).1 hw).detach q b e3 e4 hp

theorem AddChild_attached (h : Heap) (a b : Nat) (hb : h.parent b = some a) :
    AddChild h a (some b) =
      if ChildPosition h a (some b) ≠ NOT_FOUND then Except.ok (h, true)
      else Except.error Fault.assertion := by
  unfold AddChild
  by_cases hq : ChildPosition h a (some b) = NOT_FOUND
  · simp [hb, ensure, hq, bind, Except.bind]
  · simp [hb, ensure, hq, bind, Except.bind, pure, Except.pure]

theorem indexOf_append_self (l : List Nat) (b : Nat) (hb : b ∉ l) :
    (l ++ [b]).indexOf b = l.length := by
  rw [List.indexOf_append_of_not_mem hb]
  simp

theorem AddChild_detached (h : Heap) (a b : Nat) (hw : WF h) (hb : b < h.length)
    (hne : h.parent b ≠ some a) :
    (¬ BoundOK h a b → AddChild h a (some b) = Except.error Fault.assertion) ∧
    (BoundOK h a b → ∃ h2, AddChild h a (some b) = Except.ok (h2, (h.store a).accepts) ∧
      h2.length = h.length ∧
      (∀ n, h2.parent n =
        if n = b then (if (h.store a).accepts = true then some a else none) else h.parent n) ∧
      (∀ p, children h2 p =
        if p = a ∧ (h.store a).accepts = true then children h a ++ [b]
        else if h.parent b = some p then (children h p).erase b else children h p) ∧
      (∀ p, p ≠ a → h.parent b ≠ some p → h2.store p = h.store p) ∧ WF h2) := by
  by_cases hq : ∀ p ∈ h.parent b, ChildPosition h p (some b) ≠ NOT_FOUND
  swap
  · refine ⟨fun _ => ?_, fun hbd => absurd hbd.1 hq⟩
    push_neg at hq
    obtain ⟨p, hp, hpq⟩ := hq
    unfold AddChild
    simp [hne, detachFromParent_fail h b p hp hpq, bind, Except.bind]
  obtain ⟨h1, e1, e2, e3, e4, e5, e6⟩ := detachFromParent_ok h b hw hq
  have hna : ¬ h.parent b = some a := hne
  have hcha : children h1 a = children h a := by
    rw [e4]
    simp [hna]
  have hsa : h1.store a = h.store a := e5 a hne
  have hpb : h1.parent b = none := by
    rw [e3]
    simp
  have hnm : b ∉ children h1 a := by
    intro hx
    have := (((WF_iff h1).1 e6).1 b a).2 hx
    rw [hpb] at this
    exact Option.noConfusion this
  have hpos1 : ChildPosition h1 a (some b) = NOT_FOUND := by
    rw [ChildPosition_some]
    simp [hnm]
  cases hacc : (h.store a).accepts with
  | false =>
    have hrej := _AddChild_reject h1 a b (by rw [hsa]; exact hacc)
    have hres : AddChild h a (some b) = Except.ok (h1.setParent b none, false) := by
      unfold AddChild
      simp [hne, e1, ensure, hpos1, hrej, bind, Except.bind, pure, Except.pure]
    have hbd : BoundOK h a b := ⟨hq, fun hx => by rw [hacc] at hx; exact Bool.noConfusion hx⟩
    refine ⟨fun hn => absurd hbd hn, fun _ => ⟨h1.setParent b none, hres, by simp [e2], ?_, ?_, ?_, ?_⟩⟩
    · intro n
      rw [Heap.parent_setParent_none, e3]
      by_cases hn : n = b <;> simp [hn]
    · intro p
      rw [children_setParent, e4]
      simp
    · intro p _ hp
      rw [Heap.store_setParent]
      exact e5 p hp
    · rw [WF_iff]
      refine ((WF_iff h1).1 e6).congr (fun n => ?_) (fun p => children_setParent h1 b p none)
      rw [Heap.parent_setParent_none]
      by_cases hn : n = b
      · simp [hn, hpb]
      · simp [hn]
  | true =>
    obtain ⟨h2, f1, f2, f3, f4, f5⟩ := _AddChild_accept h1 a b (by rw [hsa]; exact hacc)
    have hpos2 : ChildPosition h2 a (some b) = (children h a).length := by
      rw [ChildPosition_some, f4]
      simp only [if_true, hcha]
      rw [hcha] at hnm
      rw [indexOf_append_self _ _ hnm]
      simp
    by_cases hlen : (children h a).length = NOT_FOUND
    · refine ⟨fun _ => ?_, fun hbd => absurd hlen (hbd.2 hacc)⟩
      unfold AddChild
      simp [hne, e1, ensure, hpos1, f1, hpos2, hlen, bind, Except.bind]
    · have hbd : BoundOK h a b := ⟨hq, fun _ => hlen⟩
      have hres : AddChild h a (some b) = Except.ok (h2.setParent b (some a), true) := by
        unfold AddChild
        simp [hne, e1, ensure, hpos1, f1, hpos2, hlen, bind, Except.bind, pure, Except.pure]
      have hb2 : b < h2.length := by
        rw [f2, e2]
        exact hb
      have hpar : ∀ n, (h2.setParent b (some a)).parent n =
          if n = b then some a else h1.parent n := by
        intro n
        rw [Heap.parent_setParent, f3]
        by_cases hn : n = b
        · simp [hn, hb2]
        · simp [hn]
      have hch : ∀ p, children (h2.setParent b (some a)) p =
          if p = a then children h1 a ++ [b] else children h1 p := by
        intro p
        rw [children_setParent, f4]
      refine ⟨fun hn => absurd hbd hn,
        fun _ => ⟨h2.setParent b (some a), hres, by simp [f2, e2], ?_, ?_, ?_, ?_⟩⟩
      · intro n
        rw [hpar, e3]
        by_cases hn : n = b <;> simp [hn]
      · intro p
        rw [hch, hcha, e4]
        by_cases hp : p = a
        · simp [hp]
        · simp [hp]
      · intro p hpa hp
        rw [Heap.store_setParent, f5 p hpa]
        exact e5 p hp
      · rw [WF_iff]
        exact ((WF_iff h1).1 e6).attach a b hpar hch hpb

theorem RemoveChildAt_error (h : Heap) (a i : Nat) (e : Fault)
    (hg : GetChild h a i = Except.error e) : RemoveChildAt h a i = Except.error e := by
  simp [RemoveChildAt, hg, bind, Except.bind]

theorem RemoveChildAt_ok (h : Heap) (a i c : Nat) (hw : WF h)
    (hg : GetChild h a i = Except.ok c) :
    ∃ h2, RemoveChildAt h a i = Except.ok h2 ∧ h2.length = h.length ∧
      (∀ n, h2.parent n = if n = c then none else h.parent n) ∧
      (∀ p, children h2 p = if p = a then (children h a).erase c else children h p) ∧
      (∀ p, p ≠ a → h2.store p = h.store p) := by
  obtain ⟨_, hc2⟩ := (WF_iff h).1 hw
  obtain ⟨g1, _, g3, _⟩ := (GetChild_ok_iff h a i c).1 hg
  obtain ⟨h1, e1, e2, e3, e4, e5⟩ := _RemoveChild_ok h a i c g1
  have herase : (children h a).eraseIdx i = (children h a).erase c := by
    rw [← g3]
    exact List.eraseIdx_indexOf_eq_erase c (children h a)
  have hch : ∀ p, children (h1.setParent c none) p =
      if p = a then (children h a).erase c else children h p := by
    intro p
    rw [children_setParent, e4, herase]
  have hfin : ChildPosition (h1.setParent c none) a (some c) = NOT_FOUND := by
    rw [ChildPosition_some, hch]
    have : c ∉ (children h a).erase c := List.Nodup.not_mem_erase (hc2 a)
    simp [this]
  refine ⟨h1.setParent c none, ?_, by simp [e2], e3, hch, ?_⟩
  · simp [RemoveChildAt, hg, e1, ensure, hfin, bind, Except.bind, pure, Except.pure]
  · intro p hp
    rw [Heap.store_setParent]
    exact e5 p hp

theorem foldl_setParent_none (cs : List Nat) (h : Heap) :
    (cs.foldl (fun acc c => acc.setParent c none) h).length = h.length ∧
    (∀ n, (cs.foldl (fun acc c => acc.setParent c none) h).parent n =
      if n ∈ cs then none else h.parent n) ∧
    (∀ p, (cs.foldl (fun acc c => acc.setParent c none) h).store p = h.store p) := by
  induction cs generalizing h with
  | nil => simp
  | cons c cs ih =>
    obtain ⟨i1, i2, i3⟩ := ih (h.setParent c none)
    simp only [List.foldl_cons]
    refine ⟨by rw [i1]; simp, fun n => ?_, fun p => by rw [i3]; simp⟩
    rw [i2, Heap.parent_setParent_none]
    by_cases hn : n = c
    · simp [hn]
    · by_cases hm : n ∈ cs
      · simp [hm]
      · simp [hn, hm]

theorem _ClearChildren_spec (h : Heap) (a : Nat) :
    (_ClearChildren h a).length = h.length ∧
    (∀ n, (_ClearChildren h a).parent n = if n ∈ children h a then none else h.parent n) ∧
    (∀ p, children (_ClearChildren h a) p = if p = a then [] else children h p) ∧
    (∀ p, p ≠ a → (_ClearChildren h a).store p = h.store p) := by
  by_cases ha : a < h.length
  swap
  · have hs := Heap.store_of_ge h a (Nat.le_of_not_lt ha)
    have hcl : _ClearChildren h a = h := by
      unfold _ClearChildren
      rw [hs]
    have hk : children h a = [] := children_of_ge h a (Nat.le_of_not_lt ha)
    rw [hcl]
    refine ⟨rfl, fun n => by simp [hk], fun p => ?_, fun p _ => rfl⟩
    by_cases hp : p = a
    · simp [hp, hk]
    · simp [hp]
  unfold _ClearChildren
  cases hs : h.store a with
  | leaf =>
    have hk : children h a = [] := by simp [children, hs, Store.kids]
    refine ⟨rfl, fun n => by simp [hk], fun p => ?_, fun p _ => rfl⟩
    by_cases hp : p = a
    · simp [hp, hk]
    · simp [hp]
  | group cs =>
    have hk : children h a = cs := by simp [children, hs, Store.kids]
    obtain ⟨i1, i2, i3⟩ := foldl_setParent_none cs h
    refine ⟨by simp [i1], fun n => ?_, fun p => ?_, fun p hp => ?_⟩
    · rw [Heap.parent_setStore, i2, hk]
    · rw [children_setStore _ a p _ (by rw [i1]; exact ha)]
      by_cases hp : p = a
      · simp [hp, Store.kids]
      · simp [hp, children, i3]
    · rw [Heap.store_setStore]
      simp [hp, i3]
  | slot hc =>
    cases hc with
    | none =>
      have hk : children h a = [] := by simp [children, hs, Store.kids]
      refine ⟨rfl, fun n => by simp [hk], fun p => ?_, fun p _ => rfl⟩
      by_cases hp : p = a
      · simp [hp, hk]
      · simp [hp]
    | some c =>
      have hk : children h a = [c] := by simp [children, hs, Store.kids]
      refine ⟨by simp, fun n => ?_, fun p => ?_, fun p hp => ?_⟩
      · rw [Heap.parent_setStore, Heap.parent_setParent_none, hk]
        simp
      · rw [children_setStore _ a p _ (by simpa using ha), children_setParent]
        by_cases hp : p = a
        · simp [hp, Store.kids]
        · simp [hp]
      · rw [Heap.store_setStore]
        simp [hp]

theorem ClearChildren_eq (h : Heap) (a : Nat) :
    ClearChildren h a = Except.ok (_ClearChildren h a) := by
  have hz : NumChildren (_ClearChildren h a) a = 0 := by
    rw [NumChildren_eq, (_ClearChildren_spec h a).2.2.1 a]
    simp
  simp [ClearChildren, ensure, hz, bind, Except.bind, pure, Except.pure]

theorem Bounded.boundOK (h : Heap) (a b : Nat) (hw : WF h) (hbd : Bounded h) :
    BoundOK h a b := by
  refine ⟨fun p hp => ?_, fun hacc => ?_⟩
  · have hp2 : h.parent b = some p := hp
    have hmem : b ∈ children h p := (((WF_iff h).1 hw).1 b p).1 hp2
    have hlt := hbd p (lt_of_mem_children h b p hmem)
    rw [ChildPosition_some]
    simp only [hmem, if_true]
    have : (children h p).indexOf b < (children h p).length := List.indexOf_lt_length.2 hmem
    omega
  · exact Nat.ne_of_lt (hbd a (accepts_lt h a hacc))

theorem AddChild_detached_inv (h : Heap) (a b : Nat) (h2 : Heap) (r : Bool) (hw : WF h)
    (hb : b < h.length) (hne : h.parent b ≠ some a)
    (hr : AddChild h a (some b) = Except.ok (h2, r)) :
    BoundOK h a b ∧ r = (h.store a).accepts ∧ h2.length = h.length ∧
      (∀ n, h2.parent n =
        if n = b then (if (h.store a).accepts = true then some a else none) else h.parent n) ∧
      (∀ p, children h2 p =
        if p = a ∧ (h.store a).accepts = true then children h a ++ [b]
        else if h.parent b = some p then (children h p).erase b else children h p) ∧
      (∀ p, p ≠ a → h.parent b ≠ some p → h2.store p = h.store p) ∧ WF h2 := by
  obtain ⟨hfail, hok⟩ := AddChild_detached h a b hw hb hne
  by_cases hbd : BoundOK h a b
  · obtain ⟨h3, e1, e2⟩ := hok hbd
    rw [hr] at e1
    injection e1 with e1
    injection e1 with e1 e1b
    subst e1 e1b
    exact ⟨hbd, rfl, e2⟩
  · rw [hfail hbd] at hr
    exact Except.noConfusion hr

theorem WF.not_mem_of_parent_ne (h : Heap) (hw : WF h) (a b : Nat)
    (hne : h.parent b ≠ some a) : b ∉ children h a :=
  fun hx => hne ((((WF_iff h).1 hw).1 b a).2 hx)

/-- In a consistent store a child that is not its own parent is returned by
`GetChild` at the index `ChildPosition` reports. -/
theorem GetChild_ChildPosition (h : Heap) (a b : Nat) (hw : WF h)
    (hp : h.parent b = some a) (hab : b ≠ a) :
    ChildPosition h a (some b) = (children h a).indexOf b ∧
    (children h a).indexOf b < NumChildren h a ∧
    GetChild h a ((children h a).indexOf b) = Except.ok b := by
  have hmem : b ∈ children h a := (((WF_iff h).1 hw).1 b a).1 hp
  refine ⟨?_, ?_, ?_⟩
  · rw [ChildPosition_some]
    simp [hmem]
  · rw [NumChildren_eq]
    exact List.indexOf_lt_length.2 hmem
  · rw [GetChild_ok_iff]
    exact ⟨getElem?_indexOf_of_mem _ b hmem, hab, rfl, hp⟩

/-- Away from the self-insertion `A.AddChild(A)`, a successful `AddChild` has the
postcondition of C1: the child points back to the container, `ChildPosition`
reports an index below `NumChildren`, and `GetChild` at that index returns the
child. -/
theorem AddChild_postcondition (h h2 : Heap) (a b : Nat) (hw : WF h) (hb : b < h.length)
    (hab : b ≠ a) (hr : AddChild h a (some b) = Except.ok (h2, true)) :
    h2.parent b = some a ∧ ChildPosition h2 a (some b) < NumChildren h2 a ∧
      GetChild h2 a (ChildPosition h2 a (some b)) = Except.ok b := by
  have key : WF h2 ∧ h2.parent b = some a := by
    by_cases hp : h.parent b = some a
    · rw [AddChild_attached h a b hp] at hr
      by_cases hq : ChildPosition h a (some b) = NOT_FOUND
      · simp [hq] at hr
      · simp [hq] at hr
        subst hr
        exact ⟨hw, hp⟩
    · obtain ⟨_, e1, _, e3, _, _, e6⟩ := AddChild_detached_inv h a b h2 true hw hb hp hr
      refine ⟨e6, ?_⟩
      rw [e3]
      simp [← e1]
  obtain ⟨g1, g2, g3⟩ := GetChild_ChildPosition h2 a b key.1 key.2 hab
  rw [g1]
  exact ⟨key.2, g2, g3⟩

theorem WF.singleOwner (h : Heap) (hw : WF h) : SingleOwner h := by
  intro n p q hp hq
  obtain ⟨h1, _⟩ := (WF_iff h).1 hw
  have e1 := (h1 n p).2 hp
  have e2 := (h1 n q).2 hq
  rw [e1] at e2
  exact Option.some.inj e2

theorem WF_of_detach (h h2 : Heap) (a b : Nat) (hw : WF h) (hb : h.parent b = some a)
    (hpar : ∀ n, h2.parent n = if n = b then none else h.parent n)
    (hch : ∀ p, children h2 p = if p = a then (children h a).erase b else children h p) :
    WF h2 := by
  rw [WF_iff]
  exact ((WF_iff h).1 hw).detach a b hpar hch hb

theorem WF_of_clear (h : Heap) (a : Nat) (hw : WF h) : WF (_ClearChildren h a) := by
  obtain ⟨_, e2, e3, _⟩ := _ClearChildren_spec h a
  rw [WF_iff]
  exact ((WF_iff h).1 hw).clear a e2 e3

theorem AddChild_WF (h h2 : Heap) (a : Nat) (child : Option Nat) (r : Bool) (hw : WF h)
    (hv : ∀ c ∈ child, c < h.length) (hr : AddChild h a child = Except.ok (h2, r)) :
    WF h2 := by
  cases child with
  | none =>
    simp [AddChild] at hr
    rw [← hr.1]
    exact hw
  | some b =>
    by_cases hp : h.parent b = some a
    · rw [AddChild_attached h a b hp] at hr
      by_cases hq : ChildPosition h a (some b) = NOT_FOUND
      · simp [hq] at hr
      · simp [hq] at hr
        rw [← hr.1]
        exact hw
    · exact (AddChild_detached_inv h a b h2 r hw (hv b rfl) hp hr).2.2.2.2.2.2

theorem RemoveChild_WF (h h2 : Heap) (a : Nat) (child : Option Nat) (hw : WF h)
    (hr : RemoveChild h a child = Except.ok h2) : WF h2 := by
  cases child with
  | none => simp [RemoveChild] at hr
  | some b =>
    obtain ⟨hp, hq⟩ := RemoveChild_inv h a b h2 hr
    obtain ⟨h3, e1, _, e3, e4, _⟩ := RemoveChild_ok h a b hw hp hq
    rw [hr] at e1
    injection e1 with e1
    subst e1
    exact WF_of_detach h h2 a b hw hp e3 e4

theorem RemoveChildAt_WF (h h2 : Heap) (a i : Nat) (hw : WF h)
    (hr : RemoveChildAt h a i = Except.ok h2) : WF h2 := by
  cases hg : GetChild h a i with
  | error e =>
    rw [RemoveChildAt_error h a i e hg] at hr
    exact Except.noConfusion hr
  | ok c =>
    obtain ⟨h3, e1, _, e3, e4, _⟩ := RemoveChildAt_ok h a i c hw hg
    rw [hr] at e1
    injection e1 with e1
    subst e1
    exact WF_of_detach h h2 a c hw ((GetChild_ok_iff h a i c).1 hg).2.2.2 e3 e4

theorem ClearChildren_WF (h h2 : Heap) (a : Nat) (hw : WF h)
    (hr : ClearChildren h a = Except.ok h2) : WF h2 := by
  rw [ClearChildren_eq] at hr
  injection hr with hr
  subst hr
  exact WF_of_clear h a hw

/-! ## The claims -/

/-- C1 (the code departs from the claim at `A.AddChild(A)`): on a `ContainerGroup`
the call `A.AddChild(A)` returns true and leaves `A.parent == A` with
`ChildPosition(A) == 0 < NumChildren() == 1`, but `A.GetChild(0)` then stops on
`assert(child.get() != this)` instead of returning the child. -/
theorem C1_self_insertion_breaks_GetChild :
    AddChild loneGroup 0 (some 0) = Except.ok (selfLoop, true) ∧
    selfLoop.parent 0 = some 0 ∧
    ChildPosition selfLoop 0 (some 0) = 0 ∧ NumChildren selfLoop 0 = 1 ∧
    GetChild selfLoop 0 (ChildPosition selfLoop 0 (some 0)) = Except.error Fault.assertion := by
  refine ⟨rfl, rfl, rfl, rfl, rfl⟩

/-- C2: reparenting.  When `B.parent == A1`, `A1 != A2` and `A2.AddChild(B)`
returns true in a consistent store, then afterwards `A1.ChildPosition(B)` is
`NOT_FOUND`, `A1.NumChildren()` is one less than before and `B.parent == A2`. -/
theorem C2_reparenting (h h2 : Heap) (a1 a2 b : Nat) (hw : WF h) (hd : a1 ≠ a2)
    (hp : h.parent b = some a1) (hr : AddChild h a2 (some b) = Except.ok (h2, true)) :
    ChildPosition h2 a1 (some b) = NOT_FOUND ∧
    NumChildren h2 a1 + 1 = NumChildren h a1 ∧
    h2.parent b = some a2 := by
  have hb : b < h.length := Heap.lt_of_parent h b a1 hp
  have hne : h.parent b ≠ some a2 := by
    rw [hp]
    exact fun e => hd (Option.some.inj e)
  obtain ⟨_, e1, _, e3, e4, _, _⟩ := AddChild_detached_inv h a2 b h2 true hw hb hne hr
  obtain ⟨hc1, hc2⟩ := (WF_iff h).1 hw
  have hmem : b ∈ children h a1 := (hc1 b a1).1 hp
  have hch : children h2 a1 = (children h a1).erase b := by
    rw [e4]
    simp [hd, hp]
  refine ⟨?_, ?_, ?_⟩
  · rw [ChildPosition_some, hch]
    have : b ∉ (children h a1).erase b := List.Nodup.not_mem_erase (hc2 a1)
    simp [this]
  · rw [NumChildren_eq, NumChildren_eq, hch, List.length_erase_of_mem hmem]
    have : 0 < (children h a1).length := List.length_pos_of_mem hmem
    omega
  · rw [e3]
    simp [← e1]

theorem C2_reparenting_witness :
    ChildPosition twoGroupsMoved 0 (some 2) = NOT_FOUND ∧
    NumChildren twoGroupsMoved 0 + 1 = NumChildren twoGroups 0 ∧
    twoGroupsMoved.parent 2 = some 1 :=
  C2_reparenting twoGroups twoGroupsMoved 0 1 2 (by decide) (by decide) rfl rfl

/-- C3: parent/child consistency is preserved.  From a consistent store, every
`AddChild` (of null or of a live object), `RemoveChild(child)`,
`RemoveChild(index)` and `ClearChildren` call that does not abort leaves the
store consistent, and then no object is stored by two parents. -/
theorem C3_consistency_preserved (h : Heap) (hw : WF h) (a : Nat) :
    (∀ child h2 r, (∀ c ∈ child, c < h.length) →
      AddChild h a child = Except.ok (h2, r) → WF h2 ∧ SingleOwner h2) ∧
    (∀ child h2, RemoveChild h a child = Except.ok h2 → WF h2 ∧ SingleOwner h2) ∧
    (∀ i h2, RemoveChildAt h a i = Except.ok h2 → WF h2 ∧ SingleOwner h2) ∧
    (∀ h2, ClearChildren h a = Except.ok h2 → WF h2 ∧ SingleOwner h2) := by
  refine ⟨fun child h2 r hv hr => ?_, fun child h2 hr => ?_, fun i h2 hr => ?_,
    fun h2 hr => ?_⟩
  · have := AddChild_WF h h2 a child r hw hv hr
    exact ⟨this, WF.singleOwner h2 this⟩
  · have := RemoveChild_WF h h2 a child hw hr
    exact ⟨this, WF.singleOwner h2 this⟩
  · have := RemoveChildAt_WF h h2 a i hw hr
    exact ⟨this, WF.singleOwner h2 this⟩
  · have := ClearChildren_WF h h2 a hw hr
    exact ⟨this, WF.singleOwner h2 this⟩

theorem C3_consistency_preserved_witness :
    (WF twoGroupsMoved ∧ SingleOwner twoGroupsMoved) ∧
    (WF twoGroupsDetached ∧ SingleOwner twoGroupsDetached) ∧
    (WF twoGroupsDetached ∧ SingleOwner twoGroupsDetached) ∧
    (WF twoGroupsDetached ∧ SingleOwner twoGroupsDetached) :=
  ⟨(C3_consistency_preserved twoGroups (by decide) 1).1 (some 2) twoGroupsMoved true
      (by decide) rfl,
    (C3_consistency_preserved twoGroups (by decide) 0).2.1 (some 2) twoGroupsDetached rfl,
    (C3_consistency_preserved twoGroups (by decide) 0).2.2.1 0 twoGroupsDetached rfl,
    (C3_consistency_preserved twoGroups (by decide) 0).2.2.2 twoGroupsDetached rfl⟩

/-! ## Ancestors -/

theorem climb_add (par : Nat → Option Nat) (i j n : Nat) :
    climb par (i + j) n = (climb par i n).bind (climb par j) := by
  induction i generalizing n with
  | zero => simp [climb]
  | succ i ih =>
    have e : i + 1 + j = (i + j) + 1 := by omega
    rw [e]
    simp only [climb]
    cases par n with
    | none => rfl
    | some m => simp [ih]

theorem climb_none_add (par : Nat → Option Nat) (i j n : Nat)
    (hn : climb par i n = none) : climb par (i + j) n = none := by
  rw [climb_add, hn]
  rfl

theorem climb_cycle_mul (par : Nat → Option Nat) (k n : Nat)
    (hc : climb par (k + 1) n = some n) (m : Nat) : climb par (m * (k + 1)) n = some n := by
  induction m with
  | zero => simp [climb]
  | succ m ih =>
    have e : (m + 1) * (k + 1) = m * (k + 1) + (k + 1) := by ring
    rw [e, climb_add, ih]
    exact hc

theorem climb_succ_some (par : Nat → Option Nat) (k n x : Nat)
    (hc : climb par (k + 1) n = some x) : ∃ m, par n = some m ∧ climb par k m = some x := by
  simp only [climb] at hc
  cases hp : par n with
  | none =>
    rw [hp] at hc
    exact Option.noConfusion hc
  | some m =>
    rw [hp] at hc
    exact ⟨m, rfl, hc⟩

theorem ChainsEnd.noCycle (h : Heap) (hc : ChainsEnd h) : NoCycle h := by
  intro n k hk
  obtain ⟨m, hm, _⟩ := climb_succ_some h.parent k n n hk
  have hn : n < h.length := Heap.lt_of_parent h n m hm
  have h1 := climb_cycle_mul h.parent k n hk h.length
  have e : h.length * (k + 1) = h.length + h.length * k := by ring
  rw [e, climb_none_add h.parent h.length _ n (hc n hn)] at h1
  exact Option.noConfusion h1

theorem NoCycle.noSelfParent (h : Heap) (hc : NoCycle h) : NoSelfParent h := by
  intro n _ hp
  apply hc n 0
  simp [climb, hp]

/-- A chain of the new parent map that does not leave from `b` is a chain of the
old one, when the two maps differ away from `b` only by cleared entries. -/
theorem climb_avoid (par par2 : Nat → Option Nat) (b : Nat)
    (h1 : ∀ n, n ≠ b → par2 n = par n ∨ par2 n = none) (m x y : Nat)
    (hc : climb par2 m x = some y) (hav : ∀ j, j < m → climb par2 j x ≠ some b) :
    climb par m x = some y := by
  induction m generalizing x with
  | zero => simpa [climb] using hc
  | succ m ih =>
    obtain ⟨z, hz, hzy⟩ := climb_succ_some par2 m x y hc
    have hxb : x ≠ b := by
      intro e
      apply hav 0 (Nat.succ_pos m)
      simp [climb, e]
    have hpx : par x = some z := by
      rcases h1 x hxb with e | e
      · rw [← e]
        exact hz
      · rw [e] at hz
        exact Option.noConfusion hz
    have hav2 : ∀ j, j < m → climb par2 j z ≠ some b := by
      intro j hj hcj
      apply hav (j + 1) (Nat.succ_lt_succ hj)
      simp only [climb, hz]
      exact hcj
    have := ih z hzy hav2
    simp only [climb, hpx]
    exact this

theorem noCycle_prune (par par2 : Nat → Option Nat)
    (hold : ∀ n k, climb par (k + 1) n ≠ some n)
    (h1 : ∀ n, par2 n = par n ∨ par2 n = none) :
    ∀ n k, climb par2 (k + 1) n ≠ some n := by
  have hsub : ∀ m x y, climb par2 m x = some y → climb par m x = some y := by
    intro m
    induction m with
    | zero =>
      intro x y hc
      simpa [climb] using hc
    | succ m ih =>
      intro x y hc
      obtain ⟨z, hz, hzy⟩ := climb_succ_some par2 m x y hc
      have hpx : par x = some z := by
        rcases h1 x with e | e
        · rw [← e]
          exact hz
        · rw [e] at hz
          exact Option.noConfusion hz
      simp only [climb, hpx]
      exact ih z y hzy
  intro n k hc
  exact hold n k (hsub (k + 1) n n hc)

theorem noCycle_relink (par par2 : Nat → Option Nat) (a b : Nat)
    (hold : ∀ n k, climb par (k + 1) n ≠ some n)
    (h1 : ∀ n, n ≠ b → par2 n = par n ∨ par2 n = none)
    (h2 : par2 b = some a ∨ par2 b = none)
    (h3 : ∀ k, climb par k a ≠ some b) :
    ∀ n k, climb par2 (k + 1) n ≠ some n := by
  intro n k hc
  by_cases hit : ∃ j, j < k + 1 ∧ climb par2 j n = some b
  · obtain ⟨j, hj, hjb⟩ := hit
    have e1 : k + 1 = j + (k + 1 - j) := by omega
    have hr : climb par2 (k + 1 - j) b = some n := by
      have := hc
      rw [e1, climb_add, hjb] at this
      exact this
    have e2 : k + 1 = (k + 1 - j) + j := by omega
    have hbb : climb par2 (k + 1) b = some b := by
      rw [e2, climb_add, hr]
      exact hjb
    obtain ⟨z, hz, hzb⟩ := climb_succ_some par2 k b b hbb
    have hza : z = a := by
      rcases h2 with e | e
      · rw [e] at hz
        exact (Option.some.inj hz).symm
      · rw [e] at hz
        exact Option.noConfusion hz
    subst hza
    have hex : ∃ m, climb par2 m z = some b := ⟨k, hzb⟩
    have hmin := Nat.find_spec hex
    have hlt : ∀ j, j < Nat.find hex → climb par2 j z ≠ some b := fun j hj => Nat.find_min hex hj
    exact h3 (Nat.find hex) (climb_avoid par par2 b h1 (Nat.find hex) z b hmin hlt)
  · have hav : ∀ j, j < k + 1 → climb par2 j n ≠ some b := fun j hj hjb => hit ⟨j, hj, hjb⟩
    exact hold n k (climb_avoid par par2 b h1 (k + 1) n n hc hav)

theorem AddChild_noCycle (h h2 : Heap) (a : Nat) (child : Option Nat) (r : Bool)
    (hw : WF h) (hc : NoCycle h)
    (hv : ∀ b ∈ child, b < h.length ∧ ∀ k, climb h.parent k a ≠ some b)
    (hr : AddChild h a child = Except.ok (h2, r)) : NoCycle h2 := by
  cases child with
  | none =>
    simp [AddChild] at hr
    rw [← hr.1]
    exact hc
  | some b =>
    obtain ⟨hb, hanc⟩ := hv b rfl
    by_cases hp : h.parent b = some a
    · rw [AddChild_attached h a b hp] at hr
      by_cases hq : ChildPosition h a (some b) = NOT_FOUND
      · simp [hq] at hr
      · simp [hq] at hr
        rw [← hr.1]
        exact hc
    · obtain ⟨_, _, _, e3, _, _, _⟩ := AddChild_detached_inv h a b h2 r hw hb hp hr
      refine noCycle_relink h.parent h2.parent a b hc (fun n hn => ?_) ?_ hanc
      · left
        rw [e3]
        simp [hn]
      · rw [e3]
        by_cases hacc : (h.store a).accepts = true
        · left
          simp [hacc]
        · right
          simp [hacc]

theorem RemoveChild_noCycle (h h2 : Heap) (a : Nat) (child : Option Nat)
    (hw : WF h) (hc : NoCycle h) (hr : RemoveChild h a child = Except.ok h2) :
    NoCycle h2 := by
  cases child with
  | none => simp [RemoveChild] at hr
  | some b =>
    obtain ⟨hp, hq⟩ := RemoveChild_inv h a b h2 hr
    obtain ⟨h3, e1, _, e3, _, _⟩ := RemoveChild_ok h a b hw hp hq
    rw [hr] at e1
    injection e1 with e1
    subst e1
    refine noCycle_prune h.parent h2.parent hc (fun n => ?_)
    rw [e3]
    by_cases hn : n = b <;> simp [hn]

theorem RemoveChildAt_noCycle (h h2 : Heap) (a i : Nat)
    (hw : WF h) (hc : NoCycle h) (hr : RemoveChildAt h a i = Except.ok h2) :
    NoCycle h2 := by
  cases hg : GetChild h a i with
  | error e =>
    rw [RemoveChildAt_error h a i e hg] at hr
    exact Except.noConfusion hr
  | ok c =>
    obtain ⟨h3, e1, _, e3, _, _⟩ := RemoveChildAt_ok h a i c hw hg
    rw [hr] at e1
    injection e1 with e1
    subst e1
    refine noCycle_prune h.parent h2.parent hc (fun n => ?_)
    rw [e3]
    by_cases hn : n = c <;> simp [hn]

theorem ClearChildren_noCycle (h h2 : Heap) (a : Nat)
    (hc : NoCycle h) (hr : ClearChildren h a = Except.ok h2) : NoCycle h2 := by
  rw [ClearChildren_eq] at hr
  injection hr with hr
  subst hr
  refine noCycle_prune h.parent (_ClearChildren h a).parent hc (fun n => ?_)
  rw [(_ClearChildren_spec h a).2.1 n]
  by_cases hn : n ∈ children h a <;> simp [hn]

/-- C4 as stated fails: from the forest of two empty groups `A` and `B`, the calls
`A.AddChild(B)` and `B.AddChild(A)` both return true and leave `A` reachable
from itself through two parent links. -/
theorem C4_counterexample_mutual_insertion :
    WF pairStart ∧ NoCycle pairStart ∧
    AddChild pairStart 0 (some 1) = Except.ok (pairLinked, true) ∧
    AddChild pairLinked 1 (some 0) = Except.ok (pairCycle, true) ∧
    climb pairCycle.parent 2 0 = some 0 ∧ ¬ NoCycle pairCycle :=
  ⟨by decide, ChainsEnd.noCycle pairStart (by decide), rfl, rfl, rfl, fun hc => hc 0 1 rfl⟩

/-- C4 (amended): from a consistent store in which no object is its own ancestor,
`RemoveChild(child)`, `RemoveChild(index)` and `ClearChildren` always leave no
object its own ancestor, and so does `A.AddChild(B)` (whatever it returns)
whenever `B` is null or a live object that is neither `A` nor an ancestor of `A`. -/
theorem C4_acyclicity_preserved (h : Heap) (hw : WF h) (hc : NoCycle h) (a : Nat) :
    (∀ child h2 r, (∀ b ∈ child, b < h.length ∧ ∀ k, climb h.parent k a ≠ some b) →
      AddChild h a child = Except.ok (h2, r) → NoCycle h2) ∧
    (∀ child h2, RemoveChild h a child = Except.ok h2 → NoCycle h2) ∧
    (∀ i h2, RemoveChildAt h a i = Except.ok h2 → NoCycle h2) ∧
    (∀ h2, ClearChildren h a = Except.ok h2 → NoCycle h2) :=
  ⟨fun child h2 r hv hr => AddChild_noCycle h h2 a child r hw hc hv hr,
    fun child h2 hr => RemoveChild_noCycle h h2 a child hw hc hr,
    fun i h2 hr => RemoveChildAt_noCycle h h2 a i hw hc hr,
    fun h2 hr => ClearChildren_noCycle h h2 a hc hr⟩

theorem C4_acyclicity_preserved_witness :
    NoCycle twoGroupsMoved ∧ NoCycle twoGroupsDetached :=
  ⟨(C4_acyclicity_preserved twoGroups (by decide)
      (ChainsEnd.noCycle twoGroups (by decide)) 1).1 (some 2) twoGroupsMoved true
      (fun b hb => by
        cases hb
        refine ⟨by decide, fun k => ?_⟩
        cases k with
        | zero => decide
        | succ k =>
          show (none : Option Nat) ≠ some 2
          decide) rfl,
    (C4_acyclicity_preserved twoGroups (by decide)
      (ChainsEnd.noCycle twoGroups (by decide)) 0).2.1 (some 2) twoGroupsDetached rfl⟩

theorem NoSelfParent.ne (h : Heap) (hs : NoSelfParent h) (a c : Nat)
    (hp : h.parent c = some a) : c ≠ a := by
  intro e
  subst e
  exact hs c (Heap.lt_of_parent h c c hp) hp

theorem GetChild_of_lt (h : Heap) (a i : Nat) (hw : WF h) (hs : NoSelfParent h)
    (hi : i < NumChildren h a) :
    ∃ c, GetChild h a i = Except.ok c ∧ (children h a)[i]? = some c ∧
      h.parent c = some a ∧ ChildPosition h a (some c) = i := by
  rw [NumChildren_eq] at hi
  obtain ⟨hc1, hc2⟩ := (WF_iff h).1 hw
  have hget : (children h a)[i]? = some (children h a)[i] := List.getElem?_eq_getElem hi
  have hmem : (children h a)[i] ∈ children h a := List.getElem_mem hi
  have hp : h.parent (children h a)[i] = some a := (hc1 _ a).2 hmem
  have hidx : (children h a).indexOf (children h a)[i] = i := List.indexOf_getElem (hc2 a) i hi
  refine ⟨(children h a)[i], ?_, hget, hp, ?_⟩
  · rw [GetChild_ok_iff]
    exact ⟨hget, NoSelfParent.ne h hs a _ hp, hidx, hp⟩
  · rw [ChildPosition_some]
    simp [hmem, hidx]

/-- C5: in a consistent store where no object is its own parent (as in every
store without a cycle), `A.GetChild(i)` with `i < A.NumChildren()` passes its
assertions and returns a child `c` with `c.parent == A` and
`A.ChildPosition(c) == i`; conversely `A.ChildPosition(c) == i != NOT_FOUND`
gives `i < A.NumChildren()` and `A.GetChild(i) == c`. -/
theorem C5_GetChild_ChildPosition_agree (h : Heap) (hw : WF h) (hs : NoSelfParent h)
    (a i : Nat) :
    (i < NumChildren h a → ∃ c, GetChild h a i = Except.ok c ∧ h.parent c = some a ∧
      ChildPosition h a (some c) = i) ∧
    (∀ c, ChildPosition h a (some c) = i → i ≠ NOT_FOUND →
      i < NumChildren h a ∧ GetChild h a i = Except.ok c) := by
  refine ⟨fun hi => ?_, fun c hc hn => ?_⟩
  · obtain ⟨c, g1, _, g3, g4⟩ := GetChild_of_lt h a i hw hs hi
    exact ⟨c, g1, g3, g4⟩
  · rw [ChildPosition_some] at hc
    by_cases hmem : c ∈ children h a
    · simp only [hmem, if_true] at hc
      have hp : h.parent c = some a := (((WF_iff h).1 hw).1 c a).2 hmem
      obtain ⟨_, g2, g3⟩ := GetChild_ChildPosition h a c hw hp (NoSelfParent.ne h hs a c hp)
      rw [hc] at g2 g3
      exact ⟨g2, g3⟩
    · simp only [hmem, if_false] at hc
      exact absurd hc.symm hn

theorem C5_GetChild_ChildPosition_agree_witness :
    (∃ c, GetChild twoGroups 0 0 = Except.ok c ∧ twoGroups.parent c = some 0 ∧
      ChildPosition twoGroups 0 (some c) = 0) ∧
    (0 < NumChildren twoGroups 0 ∧ GetChild twoGroups 0 0 = Except.ok 2) :=
  ⟨(C5_GetChild_ChildPosition_agree twoGroups (by decide) (by decide) 0 0).1 (by decide),
    (C5_GetChild_ChildPosition_agree twoGroups (by decide) (by decide) 0 0).2 2 rfl
      (by decide)⟩

/-- C6: a full single-slot container declines.  In a consistent, bounded store
without self-parents, when `S` (a FloatSlider, IntSlider or Toggle) holds `H`
and `B` is a live object other than `H`, `S.AddChild(B)` returns false; `S`
still holds exactly `H` (`NumChildren() == 1`, `GetChild(0) == H`,
`H.parent == S`); `B.parent` is null; and a former parent `A1` of `B` no
longer stores `B` and has one child fewer. -/
theorem C6_full_slot_declines (h : Heap) (s x b : Nat) (hw : WF h) (hs : NoSelfParent h)
    (hbd : Bounded h) (hst : h.store s = Store.slot (some x)) (hb : b < h.length)
    (hbx : b ≠ x) :
    ∃ h2, AddChild h s (some b) = Except.ok (h2, false) ∧
      NumChildren h2 s = 1 ∧ GetChild h2 s 0 = Except.ok x ∧ h2.parent x = some s ∧
      h2.parent b = none ∧
      ∀ a1, h.parent b = some a1 →
        ChildPosition h2 a1 (some b) = NOT_FOUND ∧
        NumChildren h2 a1 + 1 = NumChildren h a1 := by
  obtain ⟨hc1, hc2⟩ := (WF_iff h).1 hw
  have hkids : children h s = [x] := by simp [children, hst, Store.kids]
  have hacc : (h.store s).accepts = false := by simp [hst, Store.accepts]
  have hne : h.parent b ≠ some s := by
    intro e
    have := (hc1 b s).1 e
    rw [hkids] at this
    exact hbx (List.mem_singleton.1 this)
  have hpx : h.parent x = some s := (hc1 x s).2 (by simp [hkids])
  have hxs : x ≠ s := NoSelfParent.ne h hs s x hpx
  obtain ⟨h2, e1, _, e3, e4, _, e6⟩ :=
    (AddChild_detached h s b hw hb hne).2 (Bounded.boundOK h s b hw hbd)
  rw [hacc] at e1
  have hxb : x ≠ b := fun e => hbx e.symm
  have hp2 : h2.parent x = some s := by
    rw [e3]
    simp [hxb, hpx]
  have hk2 : children h2 s = [x] := by
    rw [e4]
    simp [hacc, hne, hkids]
  refine ⟨h2, e1, ?_, ?_, hp2, ?_, ?_⟩
  · rw [NumChildren_eq, hk2]
    rfl
  · rw [GetChild_ok_iff, hk2]
    exact ⟨rfl, hxs, by simp, hp2⟩
  · rw [e3]
    simp [hacc]
  · intro a1 hp1
    have hmem : b ∈ children h a1 := (hc1 b a1).1 hp1
    have hch : children h2 a1 = (children h a1).erase b := by
      rw [e4]
      simp [hacc, hp1]
    constructor
    · rw [ChildPosition_some, hch]
      have : b ∉ (children h a1).erase b := List.Nodup.not_mem_erase (hc2 a1)
      simp [this]
    · rw [NumChildren_eq, NumChildren_eq, hch, List.length_erase_of_mem hmem]
      have : 0 < (children h a1).length := List.length_pos_of_mem hmem
      omega

theorem C6_full_slot_declines_witness :
    AddChild fullSlot 2 (some 1) = Except.ok (fullSlotDeclined, false) ∧
    NumChildren fullSlotDeclined 2 = 1 ∧ GetChild fullSlotDeclined 2 0 = Except.ok 3 ∧
    fullSlotDeclined.parent 3 = some 2 ∧ fullSlotDeclined.parent 1 = none ∧
    ChildPosition fullSlotDeclined 0 (some 1) = NOT_FOUND ∧
    NumChildren fullSlotDeclined 0 + 1 = NumChildren fullSlot 0 := by
  obtain ⟨h2, e1, e2, e3, e4, e5, e6⟩ :=
    C6_full_slot_declines fullSlot 2 3 1 (by decide) (by decide) (by decide) rfl (by decide)
      (by decide)
  have e : AddChild fullSlot 2 (some 1) = Except.ok (fullSlotDeclined, false) := rfl
  rw [e] at e1
  injection e1 with e1
  injection e1 with e1 _
  subst e1
  exact ⟨rfl, e2, e3, e4, e5, e6 0 rfl⟩

/-- C7: `AddChild` is idempotent on an attached child.  In a consistent, bounded
store, `A.AddChild(B)` with `B.parent == A` returns true and leaves the whole
store as it was; hence after a first `A.AddChild(B)` that returned true, a
second one returns true, changes nothing, and `B` is stored in `A` once. -/
theorem C7_AddChild_idempotent (h : Heap) (a b : Nat) (hw : WF h) (hbd : Bounded h)
    (hb : b < h.length) :
    (h.parent b = some a → AddChild h a (some b) = Except.ok (h, true)) ∧
    (∀ h1, AddChild h a (some b) = Except.ok (h1, true) →
      AddChild h1 a (some b) = Except.ok (h1, true) ∧ (children h1 a).count b = 1) := by
  have hatt : ∀ g : Heap, WF g → g.parent b = some a →
      (children g a).length ≤ NOT_FOUND →
      AddChild g a (some b) = Except.ok (g, true) ∧ (children g a).count b = 1 := by
    intro g hg hp hlen
    obtain ⟨hc1, hc2⟩ := (WF_iff g).1 hg
    have hmem : b ∈ children g a := (hc1 b a).1 hp
    have hlt : (children g a).indexOf b < (children g a).length :=
      List.indexOf_lt_length.2 hmem
    have hq : ChildPosition g a (some b) ≠ NOT_FOUND := by
      rw [ChildPosition_some]
      simp only [hmem, if_true]
      omega
    refine ⟨?_, List.count_eq_one_of_mem (hc2 a) hmem⟩
    rw [AddChild_attached g a b hp]
    simp [hq]
  refine ⟨fun hp => ?_, fun h1 hr => ?_⟩
  · have ha : a < h.length := lt_of_mem_children h b a ((((WF_iff h).1 hw).1 b a).1 hp)
    exact (hatt h hw hp (Nat.le_of_lt (hbd a ha))).1
  · by_cases hp : h.parent b = some a
    · have ha : a < h.length := lt_of_mem_children h b a ((((WF_iff h).1 hw).1 b a).1 hp)
      have hsame := (hatt h hw hp (Nat.le_of_lt (hbd a ha))).1
      rw [hsame] at hr
      injection hr with hr
      injection hr with hr _
      subst hr
      exact hatt h hw hp (Nat.le_of_lt (hbd a ha))
    · obtain ⟨_, e1, _, e3, e4, _, e6⟩ := AddChild_detached_inv h a b h1 true hw hb hp hr
      have hacc : (h.store a).accepts = true := e1.symm
      have hp1 : h1.parent b = some a := by
        rw [e3]
        simp [hacc]
      have hlen : (children h1 a).length ≤ NOT_FOUND := by
        rw [e4]
        simp only [hacc, and_self, if_true, List.length_append, List.length_singleton]
        exact hbd a (accepts_lt h a hacc)
      exact hatt h1 e6 hp1 hlen

theorem C7_AddChild_idempotent_witness :
    AddChild twoGroups 0 (some 2) = Except.ok (twoGroups, true) ∧
    AddChild twoGroupsMoved 1 (some 2) = Except.ok (twoGroupsMoved, true) ∧
    (children twoGroupsMoved 1).count 2 = 1 :=
  ⟨(C7_AddChild_idempotent twoGroups 0 2 (by decide) (by decide) (by decide)).1 rfl,
    (C7_AddChild_idempotent twoGroups 1 2 (by decide) (by decide) (by decide)).2
      twoGroupsMoved rfl⟩

/-- C8 as stated fails.  Group 0 holds group 1, which holds the rectangle 2, and
no `shared_ptr` outside group 0 refers to group 1.  `RemoveChild(0)` on group 0
ends with the local `child` as the last reference, so group 1 is destroyed at
the closing brace and its destructor runs `ClearChildren()`: the child storage
of group 1 is emptied and the parent of the rectangle 2, which the caller
still holds, becomes null.  `RemoveChild(child)` called with a temporary does
the same when the parameter goes out of scope. -/
theorem C8_counterexample_sole_owner :
    WF soleOwned.heap ∧ Bounded soleOwned.heap ∧ soleOwned.heap.parent 1 = some 0 ∧
    ChildPosition soleOwned.heap 0 (some 1) = 0 ∧
    children soleOwned.heap 1 = [2] ∧ soleOwned.heap.parent 2 = some 1 ∧
    soleOwned.use_count 1 = 1 ∧ soleOwned.outside 1 = 0 ∧
    RemoveChildAtOwned 2 soleOwned 0 0 = some (Except.ok soleOwnedAfter) ∧
    RemoveChildOwned 2 soleOwned 0 (some 1) = some (Except.ok soleOwnedAfter) ∧
    children soleOwnedAfter.heap 1 = [] ∧ soleOwnedAfter.heap.parent 2 = none ∧
    1 ∈ soleOwnedAfter.dead ∧ 2 ∉ soleOwnedAfter.dead :=
  ⟨by decide, by decide, rfl, rfl, rfl, rfl, rfl, rfl, rfl, rfl, rfl, rfl, by decide, by decide⟩

/-- C8 (amended): removal detaches without tearing down a child that is
referenced elsewhere.  In a consistent, bounded store with `B.parent == A`,
`B != A`, `B` stored at index `i` of `A`, and a `shared_ptr` to `B` held outside
the child storages besides the one the call consumes, both `A.RemoveChild(B)`
and `A.RemoveChild(i)` return normally, for every bound on the nesting of
destructions, and leave `B.parent == null`, `A.ChildPosition(B) == NOT_FOUND`
and one child fewer in `A`, while the child storage of `B` and the parent of
every other object are as before; no object is destroyed. -/
theorem C8_RemoveChild_detaches (st : Owned) (a b i : Nat) (hw : WF st.heap)
    (hbd : Bounded st.heap) (hab : b ≠ a) (hp : st.heap.parent b = some a)
    (hi : ChildPosition st.heap a (some b) = i) (hext : 0 < st.outside b) :
    (∃ h2, RemoveChild st.heap a (some b) = Except.ok h2 ∧ DetachedFrom st.heap h2 a b ∧
      ∀ fuel, RemoveChildOwned fuel st a (some b) = some (Except.ok { st with heap := h2 })) ∧
    (∃ h2, RemoveChildAt st.heap a i = Except.ok h2 ∧ DetachedFrom st.heap h2 a b ∧
      ∀ fuel, RemoveChildAtOwned fuel st a i = some (Except.ok { st with heap := h2 })) := by
  obtain ⟨hc1, hc2⟩ := (WF_iff st.heap).1 hw
  have hmem : b ∈ children st.heap a := (hc1 b a).1 hp
  have hq : ChildPosition st.heap a (some b) ≠ NOT_FOUND :=
    (Bounded.boundOK st.heap a b hw hbd).1 a hp
  obtain ⟨g1, _, g3⟩ := GetChild_ChildPosition st.heap a b hw hp hab
  rw [← g1, hi] at g3
  have post : ∀ h2 : Heap, (∀ n, h2.parent n = if n = b then none else st.heap.parent n) →
      (∀ p, children h2 p = if p = a then (children st.heap a).erase b
        else children st.heap p) →
      (∀ p, p ≠ a → h2.store p = st.heap.store p) → DetachedFrom st.heap h2 a b := by
    intro h2 e3 e4 e5
    have hch : children h2 a = (children st.heap a).erase b := by
      rw [e4]
      simp
    refine ⟨by rw [e3]; simp, ?_, ?_, e5 b hab, fun n hn => by rw [e3]; simp [hn]⟩
    · rw [ChildPosition_some, hch]
      have : b ∉ (children st.heap a).erase b := List.Nodup.not_mem_erase (hc2 a)
      simp [this]
    · rw [NumChildren_eq, NumChildren_eq, hch, List.length_erase_of_mem hmem]
      have : 0 < (children st.heap a).length := List.length_pos_of_mem hmem
      omega
  have held : ∀ (h2 : Heap) (d : Owned → Nat → Option (Except Fault Owned)),
      release d { st with heap := h2 } b = some (Except.ok { st with heap := h2 }) := by
    intro h2 d
    unfold release Owned.use_count
    have hne : ¬ (st.outside b + stored h2 b = 0) := by omega
    simp only [hne, if_false]
  constructor
  · obtain ⟨h2, e1, _, e3, e4, e5⟩ := RemoveChild_ok st.heap a b hw hp hq
    refine ⟨h2, e1, post h2 e3 e4 e5, fun fuel => ?_⟩
    simp only [RemoveChildOwned, e1]
    exact held h2 _
  · obtain ⟨h2, e1, _, e3, e4, e5⟩ := RemoveChildAt_ok st.heap a i b hw g3
    refine ⟨h2, e1, post h2 e3 e4 e5, fun fuel => ?_⟩
    simp only [RemoveChildAtOwned, g3, e1]
    exact held h2 _

theorem C8_RemoveChild_detaches_witness :
    RemoveChildOwned 0 allHeld 0 (some 1) = some (Except.ok allHeldAfter) ∧
    RemoveChildAtOwned 0 allHeld 0 0 = some (Except.ok allHeldAfter) ∧
    DetachedFrom allHeld.heap allHeldAfter.heap 0 1 ∧
    children allHeldAfter.heap 1 = [2] ∧ allHeldAfter.heap.parent 2 = some 1 := by
  obtain ⟨⟨h2, e1, d1, f1⟩, ⟨h3, e2, _, f2⟩⟩ :=
    C8_RemoveChild_detaches allHeld 0 1 0 (by decide) (by decide) (by decide) rfl rfl
      (by decide)
  have k1 : RemoveChild allHeld.heap 0 (some 1) = Except.ok allHeldAfter.heap := rfl
  have k2 : RemoveChildAt allHeld.heap 0 0 = Except.ok allHeldAfter.heap := rfl
  rw [k1] at e1
  rw [k2] at e2
  injection e1 with e1
  injection e2 with e2
  subst e1
  subst e2
  exact ⟨f1 0, f2 0, d1, rfl, rfl⟩

/-- C9: fatal versus recoverable.  In a consistent, bounded store without
self-parents, `A.GetChild(i)` and `A.RemoveChild(i)` stop on an assertion
exactly when `i >= A.NumChildren()`; `A.RemoveChild(B)` for non-null `B` stops
on an assertion exactly when `B.parent != A`; and `A.AddChild(B)` returns
normally with a Boolean for every `B`, null or live, with false for null. -/
theorem C9_fatal_versus_recoverable (h : Heap) (hw : WF h) (hs : NoSelfParent h)
    (hbd : Bounded h) (a : Nat) :
    (∀ i, GetChild h a i = Except.error Fault.assertion ↔ NumChildren h a ≤ i) ∧
    (∀ i, RemoveChildAt h a i = Except.error Fault.assertion ↔ NumChildren h a ≤ i) ∧
    (∀ b, RemoveChild h a (some b) = Except.error Fault.assertion ↔ h.parent b ≠ some a) ∧
    (∀ child, (∀ c ∈ child, c < h.length) →
      ∃ h2 r, AddChild h a child = Except.ok (h2, r)) ∧
    AddChild h a none = Except.ok (h, false) := by
  refine ⟨fun i => ⟨fun he => ?_, fun hi => ?_⟩, fun i => ⟨fun he => ?_, fun hi => ?_⟩,
    fun b => ⟨fun he hp => ?_, fun hp => RemoveChild_not_parent h a b hp⟩,
    fun child hv => ?_, rfl⟩
  · by_contra hlt
    obtain ⟨c, g1, _⟩ := GetChild_of_lt h a i hw hs (Nat.lt_of_not_le hlt)
    rw [g1] at he
    exact Except.noConfusion he
  · exact GetChild_ge h a i (Nat.not_lt_of_le hi)
  · by_contra hlt
    obtain ⟨c, g1, _⟩ := GetChild_of_lt h a i hw hs (Nat.lt_of_not_le hlt)
    obtain ⟨h2, e1, _⟩ := RemoveChildAt_ok h a i c hw g1
    rw [e1] at he
    exact Except.noConfusion he
  · exact RemoveChildAt_error h a i _ (GetChild_ge h a i (Nat.not_lt_of_le hi))
  · obtain ⟨h2, e1, _⟩ := RemoveChild_ok h a b hw hp ((Bounded.boundOK h a b hw hbd).1 a hp)
    rw [e1] at he
    exact Except.noConfusion he
  · cases child with
    | none => exact ⟨h, false, rfl⟩
    | some b =>
      by_cases hp : h.parent b = some a
      · refine ⟨h, true, ?_⟩
        rw [AddChild_attached h a b hp]
        simp [(Bounded.boundOK h a b hw hbd).1 a hp]
      · obtain ⟨h2, e1, _⟩ :=
          (AddChild_detached h a b hw (hv b rfl) hp).2 (Bounded.boundOK h a b hw hbd)
        exact ⟨h2, _, e1⟩

theorem C9_fatal_versus_recoverable_witness :
    (GetChild fullSlot 2 1 = Except.error Fault.assertion ↔ NumChildren fullSlot 2 ≤ 1) ∧
    (RemoveChildAt fullSlot 2 0 = Except.error Fault.assertion ↔ NumChildren fullSlot 2 ≤ 0) ∧
    (RemoveChild fullSlot 2 (some 1) = Except.error Fault.assertion ↔
      fullSlot.parent 1 ≠ some 2) ∧
    (∃ h2 r, AddChild fullSlot 2 (some 1) = Except.ok (h2, r)) ∧
    AddChild fullSlot 2 none = Except.ok (fullSlot, false) :=
  ⟨(C9_fatal_versus_recoverable fullSlot (by decide) (by decide) (by decide) 2).1 1,
    (C9_fatal_versus_recoverable fullSlot (by decide) (by decide) (by decide) 2).2.1 0,
    (C9_fatal_versus_recoverable fullSlot (by decide) (by decide) (by decide) 2).2.2.1 1,
    (C9_fatal_versus_recoverable fullSlot (by decide) (by decide) (by decide) 2).2.2.2.1
      (some 1) (by decide),
    (C9_fatal_versus_recoverable fullSlot (by decide) (by decide) (by decide) 2).2.2.2.2⟩

theorem Heap.setStore_self (h : Heap) (a : Nat) : h.setStore a (h.store a) = h := by
  unfold Heap.setStore Heap.store
  apply List.ext_getElem?
  intro n
  rw [List.getElem?_set]
  by_cases hn : a = n
  · subst hn
    by_cases hl : a < h.length
    · simp [hl, Heap.node, List.getD_eq_getElem?_getD, List.getElem?_eq_getElem hl]
    · simp [hl, List.getElem?_eq_none (Nat.le_of_not_lt hl)]
  · simp [hn]

theorem _ClearChildren_of_empty (h : Heap) (a : Nat) (he : children h a = []) :
    _ClearChildren h a = h := by
  unfold _ClearChildren
  unfold children at he
  cases hs : h.store a with
  | leaf => rfl
  | group cs =>
    rw [hs] at he
    simp only [Store.kids] at he
    subst he
    simp only [List.foldl_nil]
    rw [← hs]
    exact Heap.setStore_self h a
  | slot hc =>
    rw [hs] at he
    cases hc with
    | none => rfl
    | some c => simp [Store.kids] at he

/-- C10: `ClearChildren` on any object (leaf, group or slot) of any store returns
normally, leaves `NumChildren() == 0` and a null parent in every former child;
a second `ClearChildren` returns normally as well and leaves the store exactly
as the first one left it. -/
theorem C10_ClearChildren_idempotent (h : Heap) (a : Nat) :
    ∃ h2, ClearChildren h a = Except.ok h2 ∧ NumChildren h2 a = 0 ∧
      (∀ c ∈ children h a, h2.parent c = none) ∧
      ClearChildren h2 a = Except.ok h2 ∧ NumChildren h2 a = 0 := by
  obtain ⟨_, e2, e3, _⟩ := _ClearChildren_spec h a
  have hk : children (_ClearChildren h a) a = [] := by
    rw [e3]
    simp
  have hz : NumChildren (_ClearChildren h a) a = 0 := by
    rw [NumChildren_eq, hk]
    rfl
  refine ⟨_ClearChildren h a, ClearChildren_eq h a, hz, fun c hc => ?_, ?_, hz⟩
  · rw [e2]
    simp [hc]
  · rw [ClearChildren_eq, _ClearChildren_of_empty _ a hk]

/-! ## The ordered container -/

theorem children_of_group (h : Heap) (g : Nat) (cs : List Nat)
    (hst : h.store g = Store.group cs) : children h g = cs := by
  simp [children, hst, Store.kids]

theorem NoSelfParent.of_cleared (h h2 : Heap) (hs : NoSelfParent h)
    (hpar : ∀ n, h2.parent n = h.parent n ∨ h2.parent n = none) : NoSelfParent h2 := by
  intro n _ hp
  rcases hpar n with e | e
  · rw [e] at hp
    exact hs n (Heap.lt_of_parent h n n hp) hp
  · rw [e] at hp
    exact Option.noConfusion hp

/-- In a consistent store without self-parents `GetChild` returns the stored
handle at every index in range. -/
theorem GetChild_getElem? (h : Heap) (a i c : Nat) (hw : WF h) (hs : NoSelfParent h)
    (hc : (children h a)[i]? = some c) : GetChild h a i = Except.ok c := by
  have hi : i < NumChildren h a := by
    rw [NumChildren_eq]
    exact (List.getElem?_eq_some.1 hc).1
  obtain ⟨d, g1, g2, _⟩ := GetChild_of_lt h a i hw hs hi
  rw [hc] at g2
  rw [g1, Option.some.inj g2]

/-- C12: the ordered container appends.  In a consistent, bounded store without
self-parents, for a `ContainerGroup` `G` with children `cs` and a live object
`B` that is not among them, `G.AddChild(B)` returns true, `G.NumChildren()`
becomes `n + 1`, `G.ChildPosition(B) == n`, and `G.GetChild(i)` returns for
every `i < n` the node it returned before. -/
theorem C12_group_appends (h : Heap) (g b : Nat) (cs : List Nat) (hw : WF h)
    (hs : NoSelfParent h) (hbd : Bounded h) (hst : h.store g = Store.group cs)
    (hb : b < h.length) (hnot : b ∉ cs) :
    ∃ h2, AddChild h g (some b) = Except.ok (h2, true) ∧
      NumChildren h2 g = cs.length + 1 ∧ ChildPosition h2 g (some b) = cs.length ∧
      ∀ i c, cs[i]? = some c →
        GetChild h g i = Except.ok c ∧ GetChild h2 g i = Except.ok c := by
  have hk : children h g = cs := children_of_group h g cs hst
  obtain ⟨hc1, hc2⟩ := (WF_iff h).1 hw
  have hne : h.parent b ≠ some g := by
    intro e
    have := (hc1 b g).1 e
    rw [hk] at this
    exact hnot this
  have hacc : (h.store g).accepts = true := by simp [hst, Store.accepts]
  obtain ⟨h2, e1, _, e3, e4, _, e6⟩ :=
    (AddChild_detached h g b hw hb hne).2 (Bounded.boundOK h g b hw hbd)
  rw [hacc] at e1
  have hk2 : children h2 g = cs ++ [b] := by
    rw [e4]
    simp [hacc, hk]
  refine ⟨h2, e1, ?_, ?_, fun i c hic => ?_⟩
  · rw [NumChildren_eq, hk2]
    simp
  · rw [ChildPosition_some, hk2, indexOf_append_self cs b hnot]
    simp
  · have hmem : c ∈ cs := List.getElem?_mem hic
    have hpc : h.parent c = some g := (hc1 c g).2 (by rw [hk]; exact hmem)
    have hcb : c ≠ b := fun e => hnot (e ▸ hmem)
    have hilt : i < cs.length := (List.getElem?_eq_some.1 hic).1
    refine ⟨GetChild_getElem? h g i c hw hs (by rw [hk]; exact hic), ?_⟩
    rw [GetChild_ok_iff, hk2]
    refine ⟨?_, NoSelfParent.ne h hs g c hpc, ?_, ?_⟩
    · rw [List.getElem?_append_left hilt]
      exact hic
    · rw [List.indexOf_append_of_mem hmem]
      have hnd : cs.Nodup := by
        rw [← hk]
        exact hc2 g
      obtain ⟨_, hget⟩ := List.getElem?_eq_some.1 hic
      rw [← hget]
      exact List.indexOf_getElem hnd i hilt
    · rw [e3]
      simp [hcb, hpc]

theorem C12_group_appends_witness :
    AddChild twoGroups 0 (some 1) = Except.ok (twoGroupsNested, true) ∧
    NumChildren twoGroupsNested 0 = 2 ∧ ChildPosition twoGroupsNested 0 (some 1) = 1 ∧
    GetChild twoGroups 0 0 = Except.ok 2 ∧ GetChild twoGroupsNested 0 0 = Except.ok 2 := by
  obtain ⟨h2, e1, e2, e3, e4⟩ :=
    C12_group_appends twoGroups 0 1 [2] (by decide) (by decide) (by decide) rfl (by decide)
      (by decide)
  have e : AddChild twoGroups 0 (some 1) = Except.ok (twoGroupsNested, true) := rfl
  rw [e] at e1
  injection e1 with e1
  injection e1 with e1 _
  subst e1
  exact ⟨rfl, e2, e3, e4 0 2 rfl⟩

/-- C13: ordered removal shifts down.  In a consistent store without
self-parents, for a `ContainerGroup` `G` with children `cs` and `i` in range,
`G.RemoveChild(i)` returns normally and leaves the children `cs` without its
`i`-th entry, in the same order: `G.GetChild(j)` is the old `j`-th child for
`j < i` and the old `(j + 1)`-th child for `i <= j`. -/
theorem C13_group_removal_shifts (h : Heap) (g i : Nat) (cs : List Nat) (hw : WF h)
    (hs : NoSelfParent h) (hst : h.store g = Store.group cs) (hi : i < cs.length) :
    ∃ h2, RemoveChildAt h g i = Except.ok h2 ∧ children h2 g = cs.eraseIdx i ∧
      NumChildren h2 g + 1 = cs.length ∧
      (∀ j c, j < i → cs[j]? = some c → GetChild h2 g j = Except.ok c) ∧
      (∀ j c, i ≤ j → cs[j + 1]? = some c → GetChild h2 g j = Except.ok c) := by
  have hk : children h g = cs := children_of_group h g cs hst
  have hnd : cs.Nodup := by
    rw [← hk]
    exact ((WF_iff h).1 hw).2 g
  have hget : (children h g)[i]? = some cs[i] := by
    rw [hk]
    exact List.getElem?_eq_getElem hi
  have hg := GetChild_getElem? h g i cs[i] hw hs hget
  obtain ⟨h2, e1, e2, e3, e4, _⟩ := RemoveChildAt_ok h g i cs[i] hw hg
  have hw2 : WF h2 := RemoveChildAt_WF h h2 g i hw e1
  have hs2 : NoSelfParent h2 := by
    refine NoSelfParent.of_cleared h h2 hs (fun n => ?_)
    rw [e3]
    by_cases hn : n = cs[i] <;> simp [hn]
  have hk2 : children h2 g = cs.eraseIdx i := by
    rw [e4]
    simp only [if_true, hk]
    rw [← List.eraseIdx_indexOf_eq_erase, List.indexOf_getElem hnd i hi]
  refine ⟨h2, e1, hk2, ?_, fun j c hj hc => ?_, fun j c hj hc => ?_⟩
  · rw [NumChildren_eq, hk2, List.length_eraseIdx]
    simp only [hi, if_true]
    omega
  · apply GetChild_getElem? h2 g j c hw2 hs2
    rw [hk2, List.getElem?_eraseIdx_of_lt _ _ _ hj]
    exact hc
  · apply GetChild_getElem? h2 g j c hw2 hs2
    rw [hk2, List.getElem?_eraseIdx_of_ge _ _ _ hj]
    exact hc

theorem C13_group_removal_shifts_witness :
    RemoveChildAt threeKids 0 1 = Except.ok threeKidsCut ∧
    children threeKidsCut 0 = [1, 3] ∧ NumChildren threeKidsCut 0 + 1 = 3 ∧
    GetChild threeKidsCut 0 0 = Except.ok 1 ∧ GetChild threeKidsCut 0 1 = Except.ok 3 := by
  obtain ⟨h2, e1, e2, e3, e4, e5⟩ :=
    C13_group_removal_shifts threeKids 0 1 [1, 2, 3] (by decide) (by decide) rfl (by decide)
  have e : RemoveChildAt threeKids 0 1 = Except.ok threeKidsCut := rfl
  rw [e] at e1
  injection e1 with e1
  subst e1
  exact ⟨rfl, e2, e3, e4 0 1 (by decide) rfl, e5 1 3 (by decide) rfl⟩

/-! ## Relative geometry -/

section GeometryFacts

variable {α : Type} [LinearOrderedField α]

@[simp] theorem FPoint.add_x (a b : FPoint α) : (a + b).x = a.x + b.x := rfl

@[simp] theorem FPoint.add_y (a b : FPoint α) : (a + b).y = a.y + b.y := rfl

@[simp] theorem FPoint.sub_x (a b : FPoint α) : (a - b).x = a.x - b.x := rfl

@[simp] theorem FPoint.sub_y (a b : FPoint α) : (a - b).y = a.y - b.y := rfl

@[simp] theorem FPoint.mul_x (a b : FPoint α) : (a * b).x = a.x * b.x := rfl

@[simp] theorem FPoint.mul_y (a b : FPoint α) : (a * b).y = a.y * b.y := rfl

@[simp] theorem FPoint.smul_x (a : FPoint α) (f : α) : (a * f).x = a.x * f := rfl

@[simp] theorem FPoint.smul_y (a : FPoint α) (f : α) : (a * f).y = a.y * f := rfl

@[simp] theorem FPoint.sdiv_x (a : FPoint α) (f : α) : (a / f).x = a.x / f := rfl

@[simp] theorem FPoint.sdiv_y (a : FPoint α) (f : α) : (a / f).y = a.y / f := rfl

/-- C15: evaluation of relative values.  For every parent rectangle `P` and every
anchor `a` and offset `o`, `GUIPosition(a,o).Get(P)` is `P.pos + P.size*a + o`
and `GUISize(a,o).Get(P)` is `P.size*a + o`, with componentwise products; the
size does not depend on `P.pos`; and `GUIRect(p,s).Get(P)` is the rectangle
with origin `p.Get(P)` and size `s.Get(P)`. -/
theorem C15_Get_formulas (P : FRect α) (a o : FPoint α) (p : GUIPosition α) (s : GUISize α) :
    (GUIPosition.mk a o).Get P = P.pos + P.size * a + o ∧
    (GUIPosition.mk a o).Get P =
      ⟨P.pos.x + P.size.x * a.x + o.x, P.pos.y + P.size.y * a.y + o.y⟩ ∧
    (GUISize.mk a o).Get P = P.size * a + o ∧
    (GUISize.mk a o).Get P = ⟨P.size.x * a.x + o.x, P.size.y * a.y + o.y⟩ ∧
    (∀ q : FPoint α, (GUISize.mk a o).Get ⟨q, P.size⟩ = (GUISize.mk a o).Get P) ∧
    ((GUIRect.mk p s).Get P).pos = p.Get P ∧ ((GUIRect.mk p s).Get P).size = s.Get P :=
  ⟨rfl, rfl, rfl, rfl, fun _ => rfl, rfl, rfl⟩

/-- C16: for every parent rectangle `P`, the `GUIPosition` with anchor (0,0) and
offset (0,0) evaluates to the origin of `P`, the one with anchor (1,1) and
offset (0,0) to origin plus size, and the root shape of `main.cpp` (position
(0,0)/(0,0), size (1,1)/(0,0)) evaluates to `P` itself. -/
theorem C16_corner_anchors (P : FRect α) :
    (GUIPosition.mk ⟨0, 0⟩ ⟨0, 0⟩).Get P = P.pos ∧
    (GUIPosition.mk ⟨1, 1⟩ ⟨0, 0⟩).Get P = P.pos + P.size ∧
    (rootShape : GUIRect α).Get P = P := by
  refine ⟨?_, ?_, ?_⟩
  · ext <;> simp [GUIPosition.Get]
  · ext <;> simp [GUIPosition.Get]
  · ext <;> simp [rootShape, GUIRect.ofPoints, GUIRect.Get, GUIPosition.Get, GUISize.Get]

end GeometryFacts

/-! ## Interpolation -/

section LerpFacts

variable {α : Type} [LinearOrderedField α]

theorem clamp_mem (v : α) : 0 ≤ clamp v 0 1 ∧ clamp v 0 1 ≤ 1 := by
  unfold clamp
  split_ifs with h1 h2
  · exact ⟨le_refl 0, zero_le_one⟩
  · exact ⟨zero_le_one, le_refl 1⟩
  · exact ⟨not_lt.1 h1, not_lt.1 h2⟩

theorem clamp_of_mem (v : α) (h0 : 0 ≤ v) (h1 : v ≤ 1) : clamp v 0 1 = v := by
  unfold clamp
  rw [if_neg (not_lt.2 h0), if_neg (not_lt.2 h1)]

theorem clamp_of_ge (v : α) (h1 : 1 ≤ v) : clamp v 0 1 = 1 := by
  unfold clamp
  rw [if_neg (not_lt.2 (le_trans zero_le_one h1))]
  split_ifs with h
  · rfl
  · exact le_antisymm (not_lt.1 h) h1

theorem FPoint.dot_self_pos (d : FPoint α) (hd : d ≠ ⟨0, 0⟩) : 0 < FPoint.dot d d := by
  unfold FPoint.dot
  by_cases hx : d.x = 0
  · have hy : d.y ≠ 0 := by
      intro hy
      apply hd
      ext
      · exact hx
      · exact hy
    have := mul_self_pos.2 hy
    have := mul_self_nonneg d.x
    linarith
  · have := mul_self_pos.2 hx
    have := mul_self_nonneg d.y
    linarith

theorem FPoint.sub_ne_zero (a b : FPoint α) (hab : a ≠ b) : b - a ≠ ⟨0, 0⟩ := by
  intro h
  apply hab
  have hx : (b - a).x = 0 := by rw [h]
  have hy : (b - a).y = 0 := by rw [h]
  simp only [FPoint.sub_x, FPoint.sub_y] at hx hy
  ext
  · linarith
  · linarith

/-- With a non-zero length whose square is the squared norm, the value that
`InverseLerpClamped` clamps is the scalar projection onto the segment. -/
theorem dot_div_len (len : α) (u d : FPoint α) (hlen : len * len = FPoint.dot d d)
    (hne : len ≠ 0) :
    FPoint.dot (u / len) (d / len) = FPoint.dot u d / FPoint.dot d d := by
  rw [← hlen]
  simp only [FPoint.dot, FPoint.sdiv_x, FPoint.sdiv_y]
  field_simp

theorem InverseLerpClamped_eq (mag : FPoint α → α) (v min max : FPoint α)
    (hne : min ≠ max)
    (hmag : mag (max - min) * mag (max - min) = FPoint.dot (max - min) (max - min)) :
    InverseLerpClamped mag v min max =
      clamp (FPoint.dot (v - min) (max - min) / FPoint.dot (max - min) (max - min)) 0 1 := by
  have hpos := FPoint.dot_self_pos (max - min) (FPoint.sub_ne_zero min max hne)
  have hlen : mag (max - min) ≠ 0 := by
    intro h0
    rw [h0, mul_zero] at hmag
    rw [← hmag] at hpos
    exact lt_irrefl 0 hpos
  unfold InverseLerpClamped
  simp only []
  rw [dot_div_len (mag (max - min)) (v - min) (max - min) hmag hlen]

/-- C18: for `min != max`, and with `mag` the Euclidean length (its square is the
dot product of the vector with itself), `InverseLerpClamped(v, min, max)` is
`clamp(((v - min) . (max - min)) / |max - min|^2, 0, 1)`; it is 0 at `min`, 1 at
`max`, always within [0,1], and does not change when `v` moves perpendicular
to the segment, whatever the direction of the segment. -/
theorem C18_InverseLerpClamped_projection (mag : FPoint α → α) (v min max : FPoint α)
    (hne : min ≠ max)
    (hmag : mag (max - min) * mag (max - min) = FPoint.dot (max - min) (max - min)) :
    InverseLerpClamped mag v min max =
      clamp (FPoint.dot (v - min) (max - min) / FPoint.dot (max - min) (max - min)) 0 1 ∧
    InverseLerpClamped mag min min max = 0 ∧
    InverseLerpClamped mag max min max = 1 ∧
    0 ≤ InverseLerpClamped mag v min max ∧ InverseLerpClamped mag v min max ≤ 1 ∧
    ∀ w : FPoint α, FPoint.dot w (max - min) = 0 →
      InverseLerpClamped mag (v + w) min max = InverseLerpClamped mag v min max := by
  have hpos := FPoint.dot_self_pos (max - min) (FPoint.sub_ne_zero min max hne)
  refine ⟨InverseLerpClamped_eq mag v min max hne hmag, ?_, ?_, ?_, ?_, fun w hw => ?_⟩
  · rw [InverseLerpClamped_eq mag min min max hne hmag]
    have : FPoint.dot (min - min) (max - min) = 0 := by simp [FPoint.dot]
    rw [this, zero_div]
    exact clamp_of_mem 0 (le_refl 0) zero_le_one
  · rw [InverseLerpClamped_eq mag max min max hne hmag, div_self (ne_of_gt hpos)]
    exact clamp_of_mem 1 zero_le_one (le_refl 1)
  · rw [InverseLerpClamped_eq mag v min max hne hmag]
    exact (clamp_mem _).1
  · rw [InverseLerpClamped_eq mag v min max hne hmag]
    exact (clamp_mem _).2
  · rw [InverseLerpClamped_eq mag (v + w) min max hne hmag,
      InverseLerpClamped_eq mag v min max hne hmag]
    have : FPoint.dot (v + w - min) (max - min) = FPoint.dot (v - min) (max - min) := by
      simp only [FPoint.dot, FPoint.sub_x, FPoint.sub_y, FPoint.add_x, FPoint.add_y] at hw ⊢
      linarith
    rw [this]

theorem C18_InverseLerpClamped_projection_witness :
    InverseLerpClamped (fun _ => (5 : ℚ)) ⟨4, 0⟩ ⟨0, 0⟩ ⟨3, 4⟩ =
      clamp (FPoint.dot ((⟨4, 0⟩ : FPoint ℚ) - ⟨0, 0⟩) (⟨3, 4⟩ - ⟨0, 0⟩) /
        FPoint.dot ((⟨3, 4⟩ : FPoint ℚ) - ⟨0, 0⟩) (⟨3, 4⟩ - ⟨0, 0⟩)) 0 1 ∧
    InverseLerpClamped (fun _ => (5 : ℚ)) ⟨0, 0⟩ ⟨0, 0⟩ ⟨3, 4⟩ = 0 ∧
    InverseLerpClamped (fun _ => (5 : ℚ)) ⟨3, 4⟩ ⟨0, 0⟩ ⟨3, 4⟩ = 1 ∧
    0 ≤ InverseLerpClamped (fun _ => (5 : ℚ)) ⟨4, 0⟩ ⟨0, 0⟩ ⟨3, 4⟩ ∧
    InverseLerpClamped (fun _ => (5 : ℚ)) ⟨4, 0⟩ ⟨0, 0⟩ ⟨3, 4⟩ ≤ 1 ∧
    InverseLerpClamped (fun _ => (5 : ℚ)) (⟨4, 0⟩ + ⟨-4, 3⟩) ⟨0, 0⟩ ⟨3, 4⟩ =
      InverseLerpClamped (fun _ => (5 : ℚ)) ⟨4, 0⟩ ⟨0, 0⟩ ⟨3, 4⟩ := by
  obtain ⟨e1, e2, e3, e4, e5, e6⟩ :=
    C18_InverseLerpClamped_projection (fun _ => (5 : ℚ)) ⟨4, 0⟩ ⟨0, 0⟩ ⟨3, 4⟩
      (by decide) (by norm_num [FPoint.dot])
  exact ⟨e1, e2, e3, e4, e5, e6 ⟨-4, 3⟩ (by norm_num [FPoint.dot])⟩

end LerpFacts



/-! ## Sliders -/

theorem Slider.passToHandle_eq {α V : Type} (s : Slider α V) :
    s.passToHandle =
      { s with handle_received :=
        if s.has_handle then some ⟨s._cur_position, s._shape.size⟩ else s.handle_received } := by
  unfold Slider.passToHandle
  split <;> rfl

section SliderFacts

variable {α : Type} [LinearOrderedField α] {V : Type}

theorem Slider.SetFromNorm_fields (lerp : α → V → V → V) (s : Slider α V) (t : α) :
    (s.SetFromNorm lerp t).cur_value = lerp t s.min_value s.max_value ∧
    (s.SetFromNorm lerp t).cur_position = LerpPosition t s.min_position s.max_position ∧
    (s.SetFromNorm lerp t).min_value = s.min_value ∧
    (s.SetFromNorm lerp t).max_value = s.max_value ∧
    (s.SetFromNorm lerp t).is_clicked = s.is_clicked ∧
    (s.SetFromNorm lerp t).motion_registered = s.motion_registered := by
  simp [Slider.SetFromNorm, Slider.passToHandle_eq]

theorem Lerp_mem (t lo hi : α) (h0 : 0 ≤ t) (h1 : t ≤ 1) (hle : lo ≤ hi) :
    lo ≤ Lerp t lo hi ∧ Lerp t lo hi ≤ hi := by
  unfold Lerp
  have hd : 0 ≤ hi - lo := sub_nonneg.2 hle
  constructor
  · have := mul_nonneg hd h0
    linarith
  · have := mul_le_mul_of_nonneg_left h1 hd
    linarith

theorem wrapInt_of_mem (z : ℤ) (h0 : -2 ^ 31 ≤ z) (h1 : z < 2 ^ 31) : wrapInt z = z := by
  unfold wrapInt
  rw [Int.emod_eq_of_lt (by omega) (by omega)]
  omega

theorem stdRound_intCast_le [FloorRing α] (x : α) (lo hi : ℤ) (h0 : (lo : α) ≤ x)
    (h1 : x ≤ (hi : α)) : lo ≤ stdRound x ∧ stdRound x ≤ hi := by
  unfold stdRound
  split_ifs with hx
  · constructor
    · apply Int.le_floor.2
      linarith
    · have : ⌊x + 1 / 2⌋ < hi + 1 := by
        apply Int.floor_lt.2
        push_cast
        linarith
      omega
  · constructor
    · have : lo - 1 < ⌈x - 1 / 2⌉ := by
        apply Int.lt_ceil.2
        push_cast
        linarith
      omega
    · apply Int.ceil_le.2
      linarith

/-- The mapping law of `FloatSlider::SetFromNorm`, in exact arithmetic. -/
theorem FloatSlider_SetFromNorm_law (s : Slider α α) (t : α) :
    (FloatSlider.SetFromNorm s t).cur_value = s.min_value + (s.max_value - s.min_value) * t ∧
    (FloatSlider.SetFromNorm s t).cur_position =
      s.min_position + (s.max_position - s.min_position) * t ∧
    (FloatSlider.SetFromNorm s t).cur_position.anchor =
      s.min_position.anchor + (s.max_position.anchor - s.min_position.anchor) * t ∧
    (FloatSlider.SetFromNorm s t).cur_position.offset =
      s.min_position.offset + (s.max_position.offset - s.min_position.offset) * t ∧
    (0 ≤ t → t ≤ 1 → s.min_value ≤ s.max_value →
      s.min_value ≤ (FloatSlider.SetFromNorm s t).cur_value ∧
      (FloatSlider.SetFromNorm s t).cur_value ≤ s.max_value) := by
  obtain ⟨e1, e2, _⟩ := Slider.SetFromNorm_fields Lerp s t
  unfold FloatSlider.SetFromNorm
  refine ⟨e1, e2, by rw [e2]; rfl, by rw [e2]; rfl, fun h0 h1 hle => ?_⟩
  rw [e1]
  exact Lerp_mem t _ _ h0 h1 hle

/-- The mapping law of `IntSlider::SetFromNorm` when the range fits `int`:
for `t` in [0,1] the value is the interpolant rounded to the nearest integer and
lies between `min_value` and `max_value`. -/
theorem IntSlider_SetFromNorm_law [FloorRing α] (s : Slider α ℤ) (t : α)
    (hlo : -2 ^ 31 ≤ s.min_value) (hhi : s.max_value < 2 ^ 31)
    (hle : s.min_value ≤ s.max_value) (hfit : s.max_value - s.min_value < 2 ^ 31)
    (h0 : 0 ≤ t) (h1 : t ≤ 1) :
    (IntSlider.SetFromNorm s t).cur_value =
      stdRound ((s.min_value : α) + ((s.max_value : α) - (s.min_value : α)) * t) ∧
    s.min_value ≤ (IntSlider.SetFromNorm s t).cur_value ∧
    (IntSlider.SetFromNorm s t).cur_value ≤ s.max_value := by
  obtain ⟨e1, _⟩ := Slider.SetFromNorm_fields (LerpInt : α → ℤ → ℤ → ℤ) s t
  unfold IntSlider.SetFromNorm
  rw [e1]
  unfold LerpInt
  rw [wrapInt_of_mem (s.max_value - s.min_value) (by omega) hfit]
  have hcast : (((s.max_value - s.min_value : ℤ)) : α) = (s.max_value : α) - (s.min_value : α) := by
    push_cast
    rfl
  rw [hcast]
  have hle2 : (s.min_value : α) ≤ (s.max_value : α) := Int.cast_le.2 hle
  have hmem := Lerp_mem t (s.min_value : α) (s.max_value : α) h0 h1 hle2
  unfold Lerp at hmem
  obtain ⟨r1, r2⟩ := stdRound_intCast_le _ s.min_value s.max_value hmem.1 hmem.2
  rw [wrapInt_of_mem _ (by omega) (by omega)]
  exact ⟨rfl, r1, r2⟩

/-- Every drag and every warp hands `SetFromNorm` a parameter in [0,1]. -/
theorem InverseLerpClamped_mem (mag : FPoint α → α) (v min max : FPoint α) :
    0 ≤ InverseLerpClamped mag v min max ∧ InverseLerpClamped mag v min max ≤ 1 := by
  unfold InverseLerpClamped
  exact clamp_mem _

/-- C17 (the code departs from the claim for an `IntSlider` whose range does not
fit `int`): with `min_value = -1073741824`, `max_value = 1610612736` and
`t = 1/2`, the interpolant rounded to the nearest integer is `268435456`,
but `IntSlider::SetFromNorm` takes `max - min` in `int`, which overflows, and
sets `cur_value` to `-1879048192`, below `min_value`. -/
theorem C17_IntSlider_range_overflow :
    (0 : ℚ) ≤ 1 / 2 ∧ (1 / 2 : ℚ) ≤ 1 ∧
    wideIntSlider.min_value ≤ wideIntSlider.max_value ∧
    stdRound ((wideIntSlider.min_value : ℚ) +
      ((wideIntSlider.max_value : ℚ) - (wideIntSlider.min_value : ℚ)) * (1 / 2)) = 268435456 ∧
    (IntSlider.SetFromNorm wideIntSlider (1 / 2)).cur_value = -1879048192 ∧
    ¬ wideIntSlider.min_value ≤ (IntSlider.SetFromNorm wideIntSlider (1 / 2)).cur_value := by
  have e : (IntSlider.SetFromNorm wideIntSlider (1 / 2)).cur_value = -1879048192 := by
    unfold IntSlider.SetFromNorm
    rw [(Slider.SetFromNorm_fields (LerpInt : ℚ → ℤ → ℤ → ℤ) wideIntSlider (1 / 2)).1]
    have hc : ⌈(-(3758096385 / 2) : ℚ)⌉ = -1879048192 := by
      rw [Int.ceil_eq_iff]
      norm_num
    simp only [LerpInt, wideIntSlider, wrapInt, stdRound]
    norm_num [hc]
  refine ⟨by norm_num, by norm_num, by decide, ?_, e, ?_⟩
  · have hf : ⌊(268435456 : ℚ) + 1 / 2⌋ = 268435456 := by
      rw [Int.floor_eq_iff]
      norm_num
    simp only [wideIntSlider, stdRound]
    norm_num [hf]
  · rw [e]
    decide

end SliderFacts

section SliderEvents

variable {α : Type} [LinearOrderedField α] {V : Type}

/-- C20: click-warp policy of `FloatSlider::Clicker::Notify` and
`IntSlider::Clicker::Notify` (the instances of `Slider.Notify`).  For a slider
that is not clicked, a button-down of the slider's button outside the handle
rectangle (a) with `click_warp` disabled leaves the whole slider unchanged,
(b) with `click_warp` enabled and the click outside `_slider_area` leaves it
unchanged as well, and (c) with `click_warp` enabled and the click inside
`_slider_area` sets `cur_value` and `cur_position` as `SetFromNorm(t)` does,
with `t = InverseLerpClamped(click, _min_position, _max_position)` in [0,1],
sets `is_clicked` and registers the dragger for pointer motion. -/
theorem C20_click_warp_policy (mag : FPoint α → α) (lerp : α → V → V → V)
    (release : Slider α V → Slider α V) (s : Slider α V) (e : ButtonEvent)
    (hidle : s.is_clicked = false) (hb : e.button = s.button) (hdown : e.released = false)
    (hout : (s._handle_shape + s._cur_position).contains (pixel e.x e.y) = false) :
    (s.click_warp = false → s.Notify mag lerp release e = s) ∧
    (s.click_warp = true → s._slider_area.contains (pixel e.x e.y) = false →
      s.Notify mag lerp release e = s) ∧
    (s.click_warp = true → s._slider_area.contains (pixel e.x e.y) = true →
      (s.Notify mag lerp release e).cur_value =
        (s.SetFromNorm lerp
          (InverseLerpClamped mag (pixel e.x e.y) s._min_position s._max_position)).cur_value ∧
      (s.Notify mag lerp release e).cur_value =
        lerp (InverseLerpClamped mag (pixel e.x e.y) s._min_position s._max_position)
          s.min_value s.max_value ∧
      (s.Notify mag lerp release e).cur_position =
        LerpPosition (InverseLerpClamped mag (pixel e.x e.y) s._min_position s._max_position)
          s.min_position s.max_position ∧
      (s.Notify mag lerp release e).is_clicked = true ∧
      (s.Notify mag lerp release e).motion_registered = true ∧
      0 ≤ InverseLerpClamped mag (pixel e.x e.y) s._min_position s._max_position ∧
      InverseLerpClamped mag (pixel e.x e.y) s._min_position s._max_position ≤ 1) := by
  refine ⟨fun hw => ?_, fun hw harea => ?_, fun hw harea => ?_⟩
  · cases s
    simp only at hidle hb hout hw
    subst hidle hw
    simp [Slider.Notify, hb, hdown, hout]
  · cases s
    simp only at hidle hb hout hw harea
    subst hidle hw
    simp [Slider.Notify, hb, hdown, hout, harea]
  · have hmem := InverseLerpClamped_mem mag (pixel e.x e.y) s._min_position s._max_position
    simp [Slider.Notify, hb, hdown, hout, hw, harea, Slider.OnClick, Slider.SetFromNorm,
      Slider.passToHandle_eq, hmem.1, hmem.2]

end SliderEvents
section SliderDrag

variable {α : Type} [LinearOrderedField α] {V : Type}

theorem Slider.SetParentShape_fields (s : Slider α V) (P : FRect α) :
    (s.SetParentShape P)._shape = s.shape.Get P ∧
    (s.SetParentShape P)._min_position = s.min_position.Get (s.shape.Get P) ∧
    (s.SetParentShape P)._max_position = s.max_position.Get (s.shape.Get P) ∧
    (s.SetParentShape P)._cur_position = s.cur_position.Get (s.shape.Get P) ∧
    (s.SetParentShape P)._handle_shape = s.handle_shape.Get ⟨⟨0, 0⟩, (s.shape.Get P).size⟩ ∧
    (s.SetParentShape P)._slider_area =
      ⟨(s.handle_shape.Get ⟨⟨0, 0⟩, (s.shape.Get P).size⟩).pos +
          s.min_position.Get (s.shape.Get P),
        (s.handle_shape.Get ⟨⟨0, 0⟩, (s.shape.Get P).size⟩).size +
          (s.max_position.Get (s.shape.Get P) - s.min_position.Get (s.shape.Get P))⟩ ∧
    (s.SetParentShape P).min_value = s.min_value ∧
    (s.SetParentShape P).max_value = s.max_value ∧
    (s.SetParentShape P).min_position = s.min_position ∧
    (s.SetParentShape P).max_position = s.max_position ∧
    (s.SetParentShape P).handle_shape = s.handle_shape ∧
    (s.SetParentShape P).button = s.button ∧
    (s.SetParentShape P).click_warp = s.click_warp := by
  simp [Slider.SetParentShape, Slider.passToHandle_eq]

theorem FRect.contains_iff (r : FRect α) (p : FPoint α) :
    r.contains p = true ↔
      r.pos.x ≤ p.x ∧ p.x < r.pos.x + r.size.x ∧ r.pos.y ≤ p.y ∧ p.y < r.pos.y + r.size.y := by
  simp [FRect.contains]

theorem FRect.size_pos_of_contains (r : FRect α) (p : FPoint α) (h : r.contains p = true) :
    0 < r.size.x ∧ 0 < r.size.y := by
  obtain ⟨h1, h2, h3, h4⟩ := (FRect.contains_iff r p).1 h
  constructor <;> linarith

theorem FRect.norm_roundtrip (r : FRect α) (c p : FPoint α) (hx : r.size.x ≠ 0)
    (hy : r.size.y ≠ 0) : r.normToPoint ((r + c).pointToNorm p) = p - c := by
  have e1 : (r + c).pos = r.pos + c := rfl
  have e2 : (r + c).size = r.size := rfl
  unfold FRect.normToPoint FRect.pointToNorm
  rw [e1, e2]
  ext
  · simp only [FPoint.add_x, FPoint.mul_x, FPoint.sub_x]
    field_simp
    ring
  · simp only [FPoint.add_y, FPoint.mul_y, FPoint.sub_y]
    field_simp
    ring

/-- A drag that starts with a press on the handle: the press records where the
handle was grabbed, and a following pointer motion moves the handle to the
pointer minus the grab offset `click - _cur_position`. -/
theorem Slider.press_then_motion (mag : FPoint α → α) (lerp : α → V → V → V)
    (release : Slider α V → Slider α V) (s : Slider α V) (press : ButtonEvent) (x y : ℤ)
    (hb : press.button = s.button) (hdown : press.released = false)
    (hgrab : (s._handle_shape + s._cur_position).contains (pixel press.x press.y) = true) :
    (s.Notify mag lerp release press).is_clicked = true ∧
    (s.Notify mag lerp release press).motion_registered = true ∧
    (s.Notify mag lerp release press).min_value = s.min_value ∧
    (s.Notify mag lerp release press).max_value = s.max_value ∧
    ((s.Notify mag lerp release press).Motion mag lerp x y) =
      (s.Notify mag lerp release press).SetFromNorm lerp
        (InverseLerpClamped mag
          (pixel x y - (pixel press.x press.y - s._cur_position))
          s._min_position s._max_position) := by
  obtain ⟨hsx, hsy⟩ := FRect.size_pos_of_contains _ _ hgrab
  have e2 : (s._handle_shape + s._cur_position).size = s._handle_shape.size := rfl
  rw [e2] at hsx hsy
  have hrt := FRect.norm_roundtrip s._handle_shape s._cur_position (pixel press.x press.y)
    (ne_of_gt hsx) (ne_of_gt hsy)
  have hn : s.Notify mag lerp release press =
      { s with
        is_clicked := true
        click_relative := (s._handle_shape + s._cur_position).pointToNorm (pixel press.x press.y)
        motion_registered := true } := by
    simp [Slider.Notify, hb, hdown, hgrab, Slider.OnClick]
  rw [hn]
  refine ⟨rfl, rfl, rfl, rfl, ?_⟩
  simp only [Slider.Motion, Slider.SetFromPosition, if_true]
  rw [hrt]

end SliderDrag
section SliderDragToMax

variable {α : Type} [LinearOrderedField α]

/-- The value a `FloatSlider` with values 0 to 1 and a horizontal track over the
whole width takes when the handle is pressed at `press` and the pointer then
moves to the pixel of the maximum position: one minus the grab offset along
the track as a fraction of the width, clamped to [0,1]. -/
theorem FloatSlider.drag_to_max (mag : FPoint α → α) (s0 : Slider α α) (P : FRect α)
    (press : ButtonEvent) (x y : ℤ)
    (hmin : s0.min_value = 0) (hmax : s0.max_value = 1)
    (hminp : s0.min_position = ⟨⟨0, 1 / 2⟩, ⟨0, 0⟩⟩)
    (hmaxp : s0.max_position = ⟨⟨1, 1 / 2⟩, ⟨0, 0⟩⟩)
    (hw : (s0.shape.Get P).size.x ≠ 0)
    (hmag : mag ((s0.SetParentShape P)._max_position - (s0.SetParentShape P)._min_position) *
        mag ((s0.SetParentShape P)._max_position - (s0.SetParentShape P)._min_position) =
      FPoint.dot ((s0.SetParentShape P)._max_position - (s0.SetParentShape P)._min_position)
        ((s0.SetParentShape P)._max_position - (s0.SetParentShape P)._min_position))
    (hb : press.button = s0.button) (hdown : press.released = false)
    (hgrab : ((s0.SetParentShape P)._handle_shape + (s0.SetParentShape P)._cur_position).contains
      (pixel press.x press.y) = true)
    (hpx : pixel x y = (s0.SetParentShape P)._max_position) :
    (FloatSlider.Motion mag (FloatSlider.Notify mag (s0.SetParentShape P) press) x y).cur_value =
      clamp (1 - ((press.x : α) - (s0.SetParentShape P)._cur_position.x) /
        (s0.shape.Get P).size.x) 0 1 ∧
    FloatSlider.GetValueNorm
        (FloatSlider.Motion mag (FloatSlider.Notify mag (s0.SetParentShape P) press) x y) =
      clamp (1 - ((press.x : α) - (s0.SetParentShape P)._cur_position.x) /
        (s0.shape.Get P).size.x) 0 1 := by
  obtain ⟨_, f2, f3, _, _, _, f7, f8, _, _, _, f12, _⟩ := Slider.SetParentShape_fields s0 P
  obtain ⟨_, _, p3, p4, p5⟩ :=
    Slider.press_then_motion mag Lerp FloatSlider.OnRelease (s0.SetParentShape P) press x y
      (by rw [f12]; exact hb) hdown hgrab
  have hminx : (s0.SetParentShape P)._min_position =
      ⟨(s0.shape.Get P).pos.x, (s0.shape.Get P).pos.y + (s0.shape.Get P).size.y * (1 / 2)⟩ := by
    rw [f2, hminp]
    ext <;> simp [GUIPosition.Get]
  have hmaxx : (s0.SetParentShape P)._max_position =
      ⟨(s0.shape.Get P).pos.x + (s0.shape.Get P).size.x,
        (s0.shape.Get P).pos.y + (s0.shape.Get P).size.y * (1 / 2)⟩ := by
    rw [f3, hmaxp]
    ext <;> simp [GUIPosition.Get]
  have hne : (s0.SetParentShape P)._min_position ≠ (s0.SetParentShape P)._max_position := by
    rw [hminx, hmaxx]
    intro h
    have := congrArg FPoint.x h
    simp only at this
    apply hw
    linarith
  have hval : ∀ t : α,
      ((FloatSlider.Notify mag (s0.SetParentShape P) press).SetFromNorm Lerp t).cur_value = t ∧
      ((FloatSlider.Notify mag (s0.SetParentShape P) press).SetFromNorm Lerp t).min_value = 0 ∧
      ((FloatSlider.Notify mag (s0.SetParentShape P) press).SetFromNorm Lerp t).max_value = 1 := by
    intro t
    obtain ⟨g1, _, g3, g4, _⟩ :=
      Slider.SetFromNorm_fields Lerp (FloatSlider.Notify mag (s0.SetParentShape P) press) t
    unfold FloatSlider.Notify at g1 g3 g4 ⊢
    rw [g1, g3, g4, p3, p4, f7, f8, hmin, hmax]
    simp [Lerp]
  have ht : InverseLerpClamped mag
      (pixel x y - (pixel press.x press.y - (s0.SetParentShape P)._cur_position))
      (s0.SetParentShape P)._min_position (s0.SetParentShape P)._max_position =
      clamp (1 - ((press.x : α) - (s0.SetParentShape P)._cur_position.x) /
        (s0.shape.Get P).size.x) 0 1 := by
    rw [InverseLerpClamped_eq mag _ _ _ hne hmag, hpx, hmaxx, hminx]
    congr 1
    simp only [FPoint.dot, FPoint.sub_x, FPoint.sub_y, pixel]
    field_simp
    ring
  unfold FloatSlider.Motion FloatSlider.GetValueNorm
  unfold FloatSlider.Notify
  rw [p5, ht]
  obtain ⟨v1, v2, v3⟩ := hval (clamp (1 - ((press.x : α) - (s0.SetParentShape P)._cur_position.x) /
        (s0.shape.Get P).size.x) 0 1)
  unfold FloatSlider.Notify at v1 v2 v3
  rw [v1, v2, v3]
  simp

end SliderDragToMax
theorem demoSliderShaped_cache :
    demoSliderShaped._min_position = ⟨0, 10⟩ ∧ demoSliderShaped._max_position = ⟨100, 10⟩ ∧
    demoSliderShaped._cur_position = ⟨50, 10⟩ ∧
    demoSliderShaped._handle_shape = ⟨⟨-9, -9⟩, ⟨18, 18⟩⟩ ∧
    demoSliderShaped._slider_area = ⟨⟨-9, 1⟩, ⟨118, 18⟩⟩ := by
  obtain ⟨_, f2, f3, f4, f5, f6, _⟩ := Slider.SetParentShape_fields demoSlider demoParent
  unfold demoSliderShaped
  rw [f2, f3, f4, f5, f6]
  refine ⟨?_, ?_, ?_, ?_, ?_⟩ <;>
    norm_num [demoSlider, demoParent, GUIRect.Get, GUIPosition.Get, GUISize.Get, FPoint.ext_iff,
      FRect.ext_iff]

theorem demoSliderShaped_hits :
    (demoSliderShaped._handle_shape + demoSliderShaped._cur_position).contains (pixel 45 10) = true ∧
    (demoSliderShaped._handle_shape + demoSliderShaped._cur_position).contains (pixel 55 10) = true ∧
    (demoSliderShaped._handle_shape + demoSliderShaped._cur_position).contains (pixel 80 10) = false ∧
    (demoSliderShaped._handle_shape + demoSliderShaped._cur_position).contains (pixel 80 50) = false ∧
    demoSliderShaped._slider_area.contains (pixel 80 10) = true ∧
    demoSliderShaped._slider_area.contains (pixel 80 50) = false := by
  obtain ⟨_, _, c3, c4, c5⟩ := demoSliderShaped_cache
  rw [c3, c4, c5]
  have e : ((⟨⟨-9, -9⟩, ⟨18, 18⟩⟩ : FRect ℚ) + (⟨50, 10⟩ : FPoint ℚ)) = ⟨⟨41, 1⟩, ⟨18, 18⟩⟩ := by
    show (⟨⟨-9, -9⟩ + ⟨50, 10⟩, ⟨18, 18⟩⟩ : FRect ℚ) = _
    norm_num [FPoint.ext_iff, FRect.ext_iff]
  rw [e]
  refine ⟨?_, ?_, ?_, ?_, ?_, ?_⟩ <;> norm_num [FRect.contains, pixel]

theorem demoSliderShaped_mag :
    horizontalMag (demoSliderShaped._max_position - demoSliderShaped._min_position) *
        horizontalMag (demoSliderShaped._max_position - demoSliderShaped._min_position) =
      FPoint.dot (demoSliderShaped._max_position - demoSliderShaped._min_position)
        (demoSliderShaped._max_position - demoSliderShaped._min_position) := by
  obtain ⟨c1, c2, _⟩ := demoSliderShaped_cache
  rw [c1, c2]
  norm_num [horizontalMag, FPoint.dot]

section SliderClaims

variable {α : Type} [LinearOrderedField α]

/-- C19 as stated fails: the slider of the spec's test, laid out in a parent 100
wide, with the handle of `main.cpp` (18 wide, centred on the position).  A
press at pixel (55,10) is on the handle, 5 pixels right of its reference
point; the pointer then moves to the pixel (100,10) of the maximum position,
and `cur_value` and `GetValueNorm` become 19/20, not 1. -/
theorem C19_counterexample_grab_offset :
    demoSlider.min_value = 0 ∧ demoSlider.max_value = 1 ∧ demoSlider.cur_value = 1 / 2 ∧
    demoSlider.min_position = ⟨⟨0, 1 / 2⟩, ⟨0, 0⟩⟩ ∧
    demoSlider.max_position = ⟨⟨1, 1 / 2⟩, ⟨0, 0⟩⟩ ∧
    ((demoSlider.SetParentShape demoParent)._handle_shape +
      (demoSlider.SetParentShape demoParent)._cur_position).contains (pixel 55 10) = true ∧
    pixel 100 10 = (demoSlider.SetParentShape demoParent)._max_position ∧
    (FloatSlider.Motion horizontalMag
      (FloatSlider.Notify horizontalMag (demoSlider.SetParentShape demoParent)
        ⟨1, false, 55, 10⟩) 100 10).cur_value = 19 / 20 ∧
    FloatSlider.GetValueNorm (FloatSlider.Motion horizontalMag
      (FloatSlider.Notify horizontalMag (demoSlider.SetParentShape demoParent)
        ⟨1, false, 55, 10⟩) 100 10) = 19 / 20 := by
  obtain ⟨_, c2, c3, _⟩ := demoSliderShaped_cache
  obtain ⟨_, h2, _⟩ := demoSliderShaped_hits
  have hpx : (pixel 100 10 : FPoint ℚ) = demoSliderShaped._max_position := by
    rw [c2]
    norm_num [pixel]
  have hw : (demoSlider.shape.Get demoParent).size.x ≠ 0 := by
    norm_num [demoSlider, demoParent, GUIRect.Get, GUISize.Get]
  obtain ⟨r1, r2⟩ := FloatSlider.drag_to_max horizontalMag demoSlider demoParent
    ⟨1, false, 55, 10⟩ 100 10 rfl rfl rfl rfl hw demoSliderShaped_mag rfl rfl h2 hpx
  have hc : clamp (1 - (((55 : ℤ) : ℚ) - (demoSlider.SetParentShape demoParent)._cur_position.x) /
      (demoSlider.shape.Get demoParent).size.x) 0 1 = 19 / 20 := by
    have c3b : (demoSlider.SetParentShape demoParent)._cur_position = ⟨50, 10⟩ := c3
    rw [c3b]
    norm_num [clamp, demoSlider, demoParent, GUIRect.Get, GUISize.Get]
  rw [hc] at r1 r2
  exact ⟨rfl, rfl, rfl, rfl, rfl, h2, hpx, r1, r2⟩

/-- C19 (amended): for a `FloatSlider` with `min_value = 0`, `max_value = 1`,
`min_position` anchor (0,0.5) offset (0,0) and `max_position` anchor (1,0.5)
offset (0,0), after `SetParentShape` with a shape of non-zero width and a
press of the slider's button on the handle, a pointer motion to exactly the
pixel of the maximum position sets `cur_value` and `GetValueNorm` to
`clamp(1 - g / width, 0, 1)`, where `g = click.x - _cur_position.x` is the
grab offset along the track; this is 1 for every grab point that is not past
the reference point of the handle towards the maximum (`g * width <= 0`).
Arithmetic is exact and `mag` is the Euclidean length on the track. -/
theorem C19_drag_to_max_position (mag : FPoint α → α) (s0 : Slider α α) (P : FRect α)
    (press : ButtonEvent) (x y : ℤ)
    (hmin : s0.min_value = 0) (hmax : s0.max_value = 1)
    (hminp : s0.min_position = ⟨⟨0, 1 / 2⟩, ⟨0, 0⟩⟩)
    (hmaxp : s0.max_position = ⟨⟨1, 1 / 2⟩, ⟨0, 0⟩⟩)
    (hw : (s0.shape.Get P).size.x ≠ 0)
    (hmag : mag ((s0.SetParentShape P)._max_position - (s0.SetParentShape P)._min_position) *
        mag ((s0.SetParentShape P)._max_position - (s0.SetParentShape P)._min_position) =
      FPoint.dot ((s0.SetParentShape P)._max_position - (s0.SetParentShape P)._min_position)
        ((s0.SetParentShape P)._max_position - (s0.SetParentShape P)._min_position))
    (hb : press.button = s0.button) (hdown : press.released = false)
    (hgrab : ((s0.SetParentShape P)._handle_shape + (s0.SetParentShape P)._cur_position).contains
      (pixel press.x press.y) = true)
    (hpx : pixel x y = (s0.SetParentShape P)._max_position) :
    (FloatSlider.Motion mag (FloatSlider.Notify mag (s0.SetParentShape P) press) x y).cur_value =
      clamp (1 - ((press.x : α) - (s0.SetParentShape P)._cur_position.x) /
        (s0.shape.Get P).size.x) 0 1 ∧
    FloatSlider.GetValueNorm
        (FloatSlider.Motion mag (FloatSlider.Notify mag (s0.SetParentShape P) press) x y) =
      clamp (1 - ((press.x : α) - (s0.SetParentShape P)._cur_position.x) /
        (s0.shape.Get P).size.x) 0 1 ∧
    ((((press.x : α) - (s0.SetParentShape P)._cur_position.x) * (s0.shape.Get P).size.x ≤ 0) →
      (FloatSlider.Motion mag (FloatSlider.Notify mag (s0.SetParentShape P) press) x y).cur_value
        = 1 ∧
      FloatSlider.GetValueNorm
        (FloatSlider.Motion mag (FloatSlider.Notify mag (s0.SetParentShape P) press) x y) = 1) := by
  obtain ⟨r1, r2⟩ := FloatSlider.drag_to_max mag s0 P press x y hmin hmax hminp hmaxp hw hmag
    hb hdown hgrab hpx
  refine ⟨r1, r2, fun hg => ?_⟩
  have hq : ((press.x : α) - (s0.SetParentShape P)._cur_position.x) /
      (s0.shape.Get P).size.x ≤ 0 := by
    have hsq : 0 < (s0.shape.Get P).size.x * (s0.shape.Get P).size.x := mul_self_pos.2 hw
    have e : ((press.x : α) - (s0.SetParentShape P)._cur_position.x) / (s0.shape.Get P).size.x =
        (((press.x : α) - (s0.SetParentShape P)._cur_position.x) * (s0.shape.Get P).size.x) /
          ((s0.shape.Get P).size.x * (s0.shape.Get P).size.x) := by
      field_simp
      ring
    rw [e]
    exact div_nonpos_of_nonpos_of_nonneg hg (le_of_lt hsq)
  have hone : clamp (1 - ((press.x : α) - (s0.SetParentShape P)._cur_position.x) /
      (s0.shape.Get P).size.x) 0 1 = 1 := clamp_of_ge _ (by linarith)
  rw [r1, r2, hone]
  exact ⟨rfl, rfl⟩

theorem C19_drag_to_max_position_witness :
    (FloatSlider.Motion horizontalMag
      (FloatSlider.Notify horizontalMag (demoSlider.SetParentShape demoParent)
        ⟨1, false, 45, 10⟩) 100 10).cur_value = 1 ∧
    FloatSlider.GetValueNorm (FloatSlider.Motion horizontalMag
      (FloatSlider.Notify horizontalMag (demoSlider.SetParentShape demoParent)
        ⟨1, false, 45, 10⟩) 100 10) = 1 :=
  (C19_drag_to_max_position horizontalMag demoSlider demoParent ⟨1, false, 45, 10⟩ 100 10
    rfl rfl rfl rfl
    (by norm_num [demoSlider, demoParent, GUIRect.Get, GUISize.Get])
    demoSliderShaped_mag rfl rfl demoSliderShaped_hits.1
    (by
      have c2 : (demoSlider.SetParentShape demoParent)._max_position = ⟨100, 10⟩ :=
        demoSliderShaped_cache.2.1
      rw [c2]
      norm_num [pixel])).2.2
    (by
      have c3 : (demoSlider.SetParentShape demoParent)._cur_position = ⟨50, 10⟩ :=
        demoSliderShaped_cache.2.2.1
      rw [c3]
      norm_num [demoSlider, demoParent, GUIRect.Get, GUISize.Get])

end SliderClaims
theorem C20_click_warp_policy_witness :
    FloatSlider.Notify horizontalMag demoSliderNoWarp ⟨1, false, 80, 10⟩ = demoSliderNoWarp ∧
    FloatSlider.Notify horizontalMag demoSliderShaped ⟨1, false, 80, 50⟩ = demoSliderShaped ∧
    (FloatSlider.Notify horizontalMag demoSliderShaped ⟨1, false, 80, 10⟩).cur_value =
      Lerp (InverseLerpClamped horizontalMag (pixel 80 10) demoSliderShaped._min_position
        demoSliderShaped._max_position) demoSliderShaped.min_value demoSliderShaped.max_value ∧
    (FloatSlider.Notify horizontalMag demoSliderShaped ⟨1, false, 80, 10⟩).is_clicked = true ∧
    (FloatSlider.Notify horizontalMag demoSliderShaped ⟨1, false, 80, 10⟩).motion_registered =
      true :=
  ⟨(C20_click_warp_policy horizontalMag Lerp FloatSlider.OnRelease demoSliderNoWarp
      ⟨1, false, 80, 10⟩ rfl rfl rfl demoSliderShaped_hits.2.2.1).1 rfl,
    (C20_click_warp_policy horizontalMag Lerp FloatSlider.OnRelease demoSliderShaped
      ⟨1, false, 80, 50⟩ rfl rfl rfl demoSliderShaped_hits.2.2.2.1).2.1 rfl
      demoSliderShaped_hits.2.2.2.2.2,
    ((C20_click_warp_policy horizontalMag Lerp FloatSlider.OnRelease demoSliderShaped
      ⟨1, false, 80, 10⟩ rfl rfl rfl demoSliderShaped_hits.2.2.1).2.2 rfl
      demoSliderShaped_hits.2.2.2.2.1).2.1,
    ((C20_click_warp_policy horizontalMag Lerp FloatSlider.OnRelease demoSliderShaped
      ⟨1, false, 80, 10⟩ rfl rfl rfl demoSliderShaped_hits.2.2.1).2.2 rfl
      demoSliderShaped_hits.2.2.2.2.1).2.2.2.1,
    ((C20_click_warp_policy horizontalMag Lerp FloatSlider.OnRelease demoSliderShaped
      ⟨1, false, 80, 10⟩ rfl rfl rfl demoSliderShaped_hits.2.2.1).2.2 rfl
      demoSliderShaped_hits.2.2.2.2.1).2.2.2.2.1⟩

/-! ## Subtrees -/

theorem climb_of_pruned (par par2 : Nat → Option Nat)
    (h1 : ∀ n, par2 n = par n ∨ par2 n = none) (m x y : Nat)
    (hc : climb par2 m x = some y) : climb par m x = some y := by
  induction m generalizing x with
  | zero => simpa [climb] using hc
  | succ m ih =>
    obtain ⟨z, hz, hzy⟩ := climb_succ_some par2 m x y hc
    have hpx : par x = some z := by
      rcases h1 x with e | e
      · rw [← e]
        exact hz
      · rw [e] at hz
        exact Option.noConfusion hz
    simp only [climb, hpx]
    exact ih z hzy

theorem climb_one (par : Nat → Option Nat) (n : Nat) : climb par 1 n = par n := by
  simp only [climb]
  cases par n <;> rfl

theorem climb_succ_last (par : Nat → Option Nat) (k n r : Nat)
    (hc : climb par (k + 1) n = some r) : ∃ m, climb par k n = some m ∧ par m = some r := by
  rw [climb_add] at hc
  cases hk : climb par k n with
  | none =>
    rw [hk] at hc
    exact Option.noConfusion hc
  | some m =>
    rw [hk] at hc
    refine ⟨m, rfl, ?_⟩
    rw [← climb_one par m]
    exact hc

theorem climb_extend (par : Nat → Option Nat) (k n m r : Nat)
    (hk : climb par k n = some m) (hm : par m = some r) : climb par (k + 1) n = some r := by
  rw [climb_add, hk]
  show climb par 1 m = some r
  rw [climb_one]
  exact hm

/-- A chain that starts outside a set closed under taking children stays outside
it, so it survives any change of the parent map inside the set. -/
theorem climb_persist (par par2 : Nat → Option Nat) (S : Nat → Prop)
    (hclosed : ∀ n m, par n = some m → S m → S n)
    (hsame : ∀ n, ¬ S n → par2 n = par n) (k n r : Nat) (hn : ¬ S n)
    (hc : climb par k n = some r) : climb par2 k n = some r := by
  induction k generalizing n with
  | zero => simpa [climb] using hc
  | succ k ih =>
    obtain ⟨z, hz, hzr⟩ := climb_succ_some par k n r hc
    have hzS : ¬ S z := fun hs => hn (hclosed n z hz hs)
    have := ih z hzS hzr
    simp only [climb, hsame n hn, hz]
    exact this

theorem climb_prefix (par : Nat → Option Nat) (i j n x : Nat) (hij : i ≤ j)
    (hc : climb par j n = some x) : ∃ y, climb par i n = some y := by
  cases hi : climb par i n with
  | some y => exact ⟨y, rfl⟩
  | none =>
    have := climb_none_add par i (j - i) n hi
    rw [Nat.add_sub_cancel' hij, hc] at this
    exact Option.noConfusion this

theorem WF.parent_lt (h : Heap) (hw : WF h) (n p : Nat) (hp : h.parent n = some p) :
    p < h.length :=
  lt_of_mem_children h n p ((((WF_iff h).1 hw).1 n p).1 hp)

theorem WF.climb_lt (h : Heap) (hw : WF h) (k n x : Nat) (hn : n < h.length)
    (hc : climb h.parent k n = some x) : x < h.length := by
  cases k with
  | zero =>
    simp only [climb] at hc
    rw [← Option.some.inj hc]
    exact hn
  | succ k =>
    obtain ⟨m, _, hm⟩ := climb_succ_last h.parent k n x hc
    exact WF.parent_lt h hw m x hm

/-- In a consistent store without cycles every parent chain reaches a root within
as many links as there are objects. -/
theorem NoCycle.chainsEnd (h : Heap) (hw : WF h) (hc : NoCycle h) : ChainsEnd h := by
  intro n hn
  by_contra hne
  obtain ⟨x, hx⟩ := Option.ne_none_iff_exists'.1 hne
  have hmaps : ∀ i ∈ Finset.range (h.length + 1),
      (climb h.parent i n).getD 0 ∈ Finset.range h.length := by
    intro i hi
    have hi2 : i ≤ h.length := Nat.lt_succ_iff.1 (Finset.mem_range.1 hi)
    obtain ⟨y, hy⟩ := climb_prefix h.parent i h.length n x hi2 hx
    rw [hy]
    exact Finset.mem_range.2 (WF.climb_lt h hw i n y hn hy)
  have hcard : (Finset.range h.length).card < (Finset.range (h.length + 1)).card := by
    simp
  obtain ⟨i, hi, j, hj, hij, hfij⟩ :=
    Finset.exists_ne_map_eq_of_card_lt_of_maps_to hcard hmaps
  have key : ∀ i j, i < j → j ≤ h.length →
      (climb h.parent i n).getD 0 = (climb h.parent j n).getD 0 → False := by
    intro i j hlt hj hf
    obtain ⟨y, hy⟩ := climb_prefix h.parent i h.length n x (le_trans (le_of_lt hlt) hj) hx
    obtain ⟨z, hz⟩ := climb_prefix h.parent j h.length n x hj hx
    rw [hy, hz] at hf
    simp only [Option.getD_some] at hf
    subst hf
    have e : j = i + ((j - i - 1) + 1) := by omega
    rw [e, climb_add, hy] at hz
    exact hc y (j - i - 1) hz
  have hi2 : i ≤ h.length := Nat.lt_succ_iff.1 (Finset.mem_range.1 hi)
  have hj2 : j ≤ h.length := Nat.lt_succ_iff.1 (Finset.mem_range.1 hj)
  rcases Nat.lt_or_gt_of_ne hij with hlt | hgt
  · exact key i j hlt hj2 hfij
  · exact key j i hgt hi2 hfij.symm

theorem ChainsEnd.heightLE (h : Heap) (hc : ChainsEnd h) (r : Nat) :
    HeightLE h r h.length := by
  intro n k hk
  by_contra hgt
  have hlt : h.length < k := Nat.lt_of_not_le hgt
  by_cases hn : n < h.length
  · have := climb_none_add h.parent h.length (k - h.length) n (hc n hn)
    rw [Nat.add_sub_cancel' (le_of_lt hlt), hk] at this
    exact Option.noConfusion this
  · have hk1 : k = (k - 1) + 1 := by omega
    rw [hk1] at hk
    obtain ⟨m, hm, _⟩ := climb_succ_some h.parent (k - 1) n r hk
    rw [Heap.parent_of_ge h n (Nat.le_of_not_lt hn)] at hm
    exact Option.noConfusion hm

/-! ## Teardown -/

theorem TornDown.pruned (h h2 : Heap) (r : Nat) (ht : TornDown h h2 r) :
    ∀ n, h2.parent n = h.parent n ∨ h2.parent n = none := by
  intro n
  by_cases hd : Descendant h r n
  · exact Or.inr (ht.2.2.1 n hd)
  · exact Or.inl (ht.2.2.2.1 n hd)

theorem TornDown.of_no_children (h : Heap) (r : Nat) (hw : WF h)
    (hk : children h r = []) : TornDown h h r := by
  refine ⟨rfl, hw, fun n hd => ?_, fun _ _ => rfl, fun _ _ => rfl⟩
  exfalso
  obtain ⟨k, hk2⟩ := hd
  obtain ⟨m, _, hm⟩ := climb_succ_last h.parent k n r hk2
  have := (((WF_iff h).1 hw).1 m r).1 hm
  rw [hk] at this
  exact List.not_mem_nil m this

/-- After a teardown the objects of the subtree have no children. -/
theorem TornDown.no_children (h h2 : Heap) (r p : Nat) (ht : TornDown h h2 r)
    (hp : InSubtree h r p) : children h2 p = [] := by
  obtain ⟨_, hw2, t3, t4, _⟩ := ht
  apply List.eq_nil_iff_forall_not_mem.2
  intro n hn
  have hpar : h2.parent n = some p := (((WF_iff h2).1 hw2).1 n p).2 hn
  have hnd : ¬ Descendant h r n := by
    intro hd
    rw [t3 n hd] at hpar
    exact Option.noConfusion hpar
  rw [t4 n hnd] at hpar
  obtain ⟨k, hk⟩ := hp
  apply hnd
  refine ⟨k, ?_⟩
  simp only [climb, hpar]
  exact hk

theorem deleteLoop_spec (recurse : Heap → Option Nat → Option (Except Fault Heap))
    (root H : Nat)
    (hrec : ∀ h c, WF h → NoCycle h → HeightLE h c H →
      ∃ h2, recurse h (some c) = some (Except.ok h2) ∧ TornDown h h2 c) :
    ∀ num h, WF h → NoCycle h → HeightLE h root (H + 1) → (children h root).length = num →
      ∃ h2, deleteLoop recurse root num h = some (Except.ok h2) ∧ TornDown h h2 root := by
  intro num
  induction num with
  | zero =>
    intro h hw _ _ hlen
    exact ⟨h, rfl, TornDown.of_no_children h root hw (List.length_eq_zero.1 hlen)⟩
  | succ num ih =>
    intro h hw hc hH hlen
    have hs : NoSelfParent h := NoCycle.noSelfParent h hc
    have hnum : num < (children h root).length := by omega
    have hget : (children h root)[num]? = some (children h root)[num] :=
      List.getElem?_eq_getElem hnum
    generalize (children h root)[num] = c at hget
    have hmem : c ∈ children h root := List.getElem?_mem hget
    have hg : GetChild h root num = Except.ok c := GetChild_getElem? h root num c hw hs hget
    have hpc : h.parent c = some root := ((GetChild_ok_iff h root num c).1 hg).2.2.2
    obtain ⟨h1, e1, e2, e3, e4, e5⟩ := RemoveChildAt_ok h root num c hw hg
    have hw1 : WF h1 := RemoveChildAt_WF h h1 root num hw e1
    have hc1 : NoCycle h1 := RemoveChildAt_noCycle h h1 root num hw hc e1
    have hn1 : NumChildren h1 root = num := by
      rw [NumChildren_eq, e4]
      simp only [if_true]
      rw [List.length_erase_of_mem hmem, hlen]
      rfl
    have hprune1 : ∀ n, h1.parent n = h.parent n ∨ h1.parent n = none := by
      intro n
      rw [e3]
      by_cases hn : n = c <;> simp [hn]
    have hH1 : HeightLE h1 c H := by
      intro n k hk
      have h2 := climb_of_pruned h.parent h1.parent hprune1 k n c hk
      have h3 := hH n (k + 1) (climb_extend h.parent k n c root h2 hpc)
      omega
    obtain ⟨h2, r1, t1, t2, t3, t4, t5⟩ := hrec h1 c hw1 hc1 hH1
    have hprune2 : ∀ n, h2.parent n = h1.parent n ∨ h2.parent n = none :=
      TornDown.pruned h1 h2 c ⟨t1, t2, t3, t4, t5⟩
    have hc2 : NoCycle h2 := noCycle_prune h1.parent h2.parent hc1 hprune2
    have hdown : ∀ k n r, climb h2.parent k n = some r → climb h.parent k n = some r := by
      intro k n r hk
      exact climb_of_pruned h.parent h1.parent hprune1 k n r
        (climb_of_pruned h1.parent h2.parent hprune2 k n r hk)
    have hH2 : HeightLE h2 root (H + 1) := fun n k hk => hH n k (hdown k n root hk)
    have hroot : ¬ InSubtree h1 c root := by
      rintro ⟨k, hk⟩
      have h2 := climb_of_pruned h.parent h1.parent hprune1 k root c hk
      exact hc root k (climb_extend h.parent k root c root h2 hpc)
    have hlen2 : (children h2 root).length = num := by
      have : children h2 root = children h1 root := by
        unfold children
        rw [t5 root hroot]
      rw [this, ← NumChildren_eq]
      exact hn1
    obtain ⟨h3, l1, u1, u2, u3, u4, u5⟩ := ih h2 t2 hc2 hH2 hlen2
    have hclosed : ∀ n m, h.parent n = some m → InSubtree h1 c m → InSubtree h1 c n := by
      rintro n m hnm ⟨k, hk⟩
      by_cases hn : n = c
      · exact ⟨0, by simp [climb, hn]⟩
      · have hp1 : h1.parent n = some m := by
          rw [e3]
          simp [hn, hnm]
        exact ⟨k + 1, by simp only [climb, hp1]; exact hk⟩
    have hin_c : InSubtree h1 c c := ⟨0, rfl⟩
    have hsame : ∀ n, ¬ InSubtree h1 c n → h2.parent n = h.parent n := by
      intro n hn
      have hnc : n ≠ c := fun e => hn (e ▸ hin_c)
      have hnd : ¬ Descendant h1 c n := fun ⟨k, hk⟩ => hn ⟨k + 1, hk⟩
      rw [t4 n hnd, e3]
      simp [hnc]
    refine ⟨h3, ?_, u1.trans (t1.trans e2), u2, fun n hd => ?_, fun n hd => ?_, fun p hp => ?_⟩
    · simp only [deleteLoop, hg, e1, hn1, r1, ne_eq, not_true_eq_false, if_false]
      exact l1
    · by_cases hd2 : Descendant h2 root n
      · exact u3 n hd2
      · rw [u4 n hd2]
        by_cases hS : InSubtree h1 c n
        · obtain ⟨k, hk⟩ := hS
          cases k with
          | zero =>
            simp only [climb] at hk
            have hnc : n = c := Option.some.inj hk
            have hnd : ¬ Descendant h1 c n := by
              rintro ⟨j, hj⟩
              rw [hnc] at hj
              exact hc1 c j hj
            rw [t4 n hnd, e3]
            simp [hnc]
          | succ k => exact t3 n ⟨k, hk⟩
        · exfalso
          obtain ⟨k, hk⟩ := hd
          exact hd2 ⟨k, climb_persist h.parent h2.parent (InSubtree h1 c) hclosed hsame
            (k + 1) n root hS hk⟩
    · have hd2 : ¬ Descendant h2 root n := fun ⟨k, hk⟩ => hd ⟨k, hdown (k + 1) n root hk⟩
      have hd1 : ¬ Descendant h1 c n := by
        rintro ⟨k, hk⟩
        have h2 := climb_of_pruned h.parent h1.parent hprune1 (k + 1) n c hk
        exact hd ⟨k + 1, climb_extend h.parent (k + 1) n c root h2 hpc⟩
      have hnc : n ≠ c := by
        intro e
        apply hd
        refine ⟨0, ?_⟩
        rw [climb_one, e]
        exact hpc
      rw [u4 n hd2, t4 n hd1, e3]
      simp [hnc]
    · have hp2 : ¬ InSubtree h2 root p := fun ⟨k, hk⟩ => hp ⟨k, hdown k p root hk⟩
      have hp1 : ¬ InSubtree h1 c p := by
        rintro ⟨k, hk⟩
        have h2 := climb_of_pruned h.parent h1.parent hprune1 k p c hk
        exact hp ⟨k + 1, climb_extend h.parent k p c root h2 hpc⟩
      have hpr : p ≠ root := fun e => hp ⟨0, by simp [climb, e]⟩
      rw [u5 p hp2, t5 p hp1, e5 p hpr]

theorem DeleteTree_spec (H : Nat) : ∀ h root, WF h → NoCycle h → HeightLE h root H →
    ∃ h2, DeleteTree (H + 1) h (some root) = some (Except.ok h2) ∧ TornDown h h2 root := by
  induction H with
  | zero =>
    intro h root hw _ hH
    have hk : children h root = [] := by
      apply List.eq_nil_iff_forall_not_mem.2
      intro c hc
      have hp : h.parent c = some root := (((WF_iff h).1 hw).1 c root).2 hc
      have := hH c 1 (by rw [climb_one]; exact hp)
      omega
    refine ⟨h, ?_, TornDown.of_no_children h root hw hk⟩
    have hz : NumChildren h root = 0 := by
      rw [NumChildren_eq, hk]
      rfl
    simp only [DeleteTree, hz, deleteLoop]
  | succ H ih =>
    intro h root hw hc hH
    have := deleteLoop_spec (DeleteTree (H + 1)) root H ih (NumChildren h root) h hw hc hH
      (NumChildren_eq h root).symm
    simpa only [DeleteTree] using this

theorem deleteLoop_mono (rec1 rec2 : Heap → Option Nat → Option (Except Fault Heap))
    (hmono : ∀ h r x, rec1 h r = some x → rec2 h r = some x) (root : Nat) :
    ∀ num h x, deleteLoop rec1 root num h = some x → deleteLoop rec2 root num h = some x := by
  intro num
  induction num with
  | zero =>
    intro h x hx
    simpa only [deleteLoop] using hx
  | succ num ih =>
    intro h x hx
    simp only [deleteLoop] at hx ⊢
    cases hg : GetChild h root num with
    | error e =>
      rw [hg] at hx
      exact hx
    | ok c =>
      rw [hg] at hx
      simp only at hx ⊢
      cases hr : RemoveChildAt h root num with
      | error e =>
        rw [hr] at hx
        exact hx
      | ok h1 =>
        rw [hr] at hx
        simp only at hx ⊢
        by_cases hn : NumChildren h1 root = num
        · simp only [hn, ne_eq, not_true_eq_false, if_false] at hx ⊢
          cases h1r : rec1 h1 (some c) with
          | none =>
            rw [h1r] at hx
            exact Option.noConfusion hx
          | some y =>
            rw [h1r] at hx
            rw [hmono h1 (some c) y h1r]
            cases y with
            | error e => exact hx
            | ok h2 => exact ih h2 x hx
        · simp only [hn, ne_eq, not_false_eq_true, if_true] at hx ⊢
          exact hx

theorem DeleteTree_succ (fuel : Nat) : ∀ h r x, DeleteTree fuel h r = some x →
    DeleteTree (fuel + 1) h r = some x := by
  induction fuel with
  | zero =>
    intro h r x hx
    cases r with
    | none => simpa only [DeleteTree] using hx
    | some root =>
      simp only [DeleteTree] at hx
      exact Option.noConfusion hx
  | succ fuel ih =>
    intro h r x hx
    cases r with
    | none => simpa only [DeleteTree] using hx
    | some root =>
      simp only [DeleteTree] at hx ⊢
      exact deleteLoop_mono (DeleteTree fuel) (DeleteTree (fuel + 1)) ih root _ h x hx

theorem DeleteTree_mono (f g : Nat) (hfg : f ≤ g) (h : Heap) (r : Option Nat)
    (x : Except Fault Heap) (hx : DeleteTree f h r = some x) : DeleteTree g h r = some x := by
  induction hfg with
  | refl => exact hx
  | step _ ih => exact DeleteTree_succ _ h r x ih

/-- C11: `DeleteTree` tears the subtree down.  In a consistent store without
cycles, `DeleteTree(root)` returns normally (for every recursion bound above
the number of objects, with the same final store); afterwards the root has no
children and every object that was a proper descendant of the root has no
children and a null parent.  `DeleteTree(nullptr)` returns the store as it
was. -/
theorem C11_DeleteTree_tears_down (h : Heap) (root : Nat) (hw : WF h) (hc : NoCycle h) :
    ∃ h2, (∀ fuel, h.length < fuel → DeleteTree fuel h (some root) = some (Except.ok h2)) ∧
      NumChildren h2 root = 0 ∧
      (∀ d, Descendant h root d → NumChildren h2 d = 0 ∧ h2.parent d = none) ∧
      ∀ fuel, DeleteTree fuel h none = some (Except.ok h) := by
  have hH : HeightLE h root h.length :=
    ChainsEnd.heightLE h (NoCycle.chainsEnd h hw hc) root
  obtain ⟨h2, e1, ht⟩ := DeleteTree_spec h.length h root hw hc hH
  refine ⟨h2, fun fuel hf => DeleteTree_mono (h.length + 1) fuel hf h _ _ e1, ?_,
    fun d hd => ⟨?_, ht.2.2.1 d hd⟩, fun fuel => ?_⟩
  · rw [NumChildren_eq, TornDown.no_children h h2 root root ht ⟨0, rfl⟩]
    rfl
  · obtain ⟨k, hk⟩ := hd
    rw [NumChildren_eq, TornDown.no_children h h2 root d ht ⟨k + 1, hk⟩]
    rfl
  · cases fuel <;> rfl

theorem C11_DeleteTree_tears_down_witness :
    DeleteTree 7 deepTree (some 0) = some (Except.ok deepTreeTorn) ∧
    NumChildren deepTreeTorn 0 = 0 ∧
    (NumChildren deepTreeTorn 3 = 0 ∧ deepTreeTorn.parent 3 = none) ∧
    (NumChildren deepTreeTorn 5 = 0 ∧ deepTreeTorn.parent 5 = none) ∧
    DeleteTree 0 deepTree none = some (Except.ok deepTree) := by
  obtain ⟨h2, e1, e2, e3, e4⟩ :=
    C11_DeleteTree_tears_down deepTree 0 (by decide) (ChainsEnd.noCycle deepTree (by decide))
  have e := e1 7 (by decide)
  have e0 : DeleteTree 7 deepTree (some 0) = some (Except.ok deepTreeTorn) := rfl
  rw [e0] at e
  injection e with e
  injection e with e
  subst e
  exact ⟨rfl, e2, e3 3 ⟨1, rfl⟩, e3 5 ⟨2, rfl⟩, e4 0⟩



/-! ## Shape propagation -/

theorem subtree_disjoint (h : Heap) (hc : NoCycle h) (n c c2 x : Nat)
    (hp : h.parent c = some n) (hp2 : h.parent c2 = some n) (hne : c ≠ c2)
    (hx : InSubtree h c x) : ¬ InSubtree h c2 x := by
  have key : ∀ a b ka kb, h.parent a = some n → h.parent b = some n →
      climb h.parent ka x = some a → climb h.parent kb x = some b → ka < kb → False := by
    intro a b ka kb ha hb hka hkb hlt
    have e : kb = ka + ((kb - ka - 1) + 1) := by omega
    rw [e, climb_add, hka] at hkb
    have hkb2 : climb h.parent (kb - ka - 1) n = some b := by
      have := hkb
      simp only [Option.some_bind, climb, ha] at this
      exact this
    exact hc n (kb - ka - 1) (climb_extend h.parent _ n b n hkb2 hb)
  obtain ⟨k, hk⟩ := hx
  rintro ⟨k2, hk2⟩
  rcases Nat.lt_trichotomy k k2 with hlt | heq | hgt
  · exact key c c2 k k2 hp hp2 hk hk2 hlt
  · subst heq
    rw [hk] at hk2
    exact hne (Option.some.inj hk2)
  · exact key c2 c k2 k hp2 hp hk2 hk hgt

theorem InSubtree.under_child (h : Heap) (n c x : Nat) (hp : h.parent c = some n)
    (hx : InSubtree h c x) : InSubtree h n x := by
  obtain ⟨k, hk⟩ := hx
  exact ⟨k + 1, climb_extend h.parent k x c n hk hp⟩

theorem WF.parent_of_group (h : Heap) (hw : WF h) (n c : Nat) (cs : List Nat)
    (hst : h.store n = Store.group cs) (hc : c ∈ cs) : h.parent c = some n := by
  apply (((WF_iff h).1 hw).1 c n).2
  rw [children_of_group h n cs hst]
  exact hc

theorem GroupPath.head_group (h : Heap) (n : Nat) (path : List Nat) (leaf : Nat)
    (hg : GroupPath h (n :: path) leaf) : ∃ cs, h.store n = Store.group cs := by
  cases path with
  | nil =>
    obtain ⟨cs, hcs, _⟩ := hg
    exact ⟨cs, hcs⟩
  | cons m rest =>
    obtain ⟨⟨cs, hcs, _⟩, _⟩ := hg
    exact ⟨cs, hcs⟩

theorem GroupPath.inSubtree (h : Heap) (hw : WF h) (path : List Nat) :
    ∀ n leaf, GroupPath h (n :: path) leaf → InSubtree h n leaf := by
  induction path with
  | nil =>
    rintro n leaf ⟨cs, hcs, hl⟩
    exact ⟨1, by rw [climb_one]; exact WF.parent_of_group h hw n leaf cs hcs hl⟩
  | cons m rest ih =>
    rintro n leaf ⟨⟨cs, hcs, hm⟩, hrest⟩
    exact InSubtree.under_child h n m leaf (WF.parent_of_group h hw n m cs hcs hm)
      (ih m leaf hrest)

theorem HeightLE.below_child (h : Heap) (n c H : Nat) (hp : h.parent c = some n)
    (hH : HeightLE h n H) : 0 < H ∧ HeightLE h c (H - 1) := by
  have h1 : 1 ≤ H := hH c 1 (by rw [climb_one]; exact hp)
  refine ⟨h1, fun x k hk => ?_⟩
  have := hH x (k + 1) (climb_extend h.parent k x c n hk hp)
  omega

section PropagationFacts

variable {α : Type} [LinearOrderedField α]

theorem propagate_children (L : Layout α) (h : Heap) (hw : WF h) (hc : NoCycle h)
    (fuel n : Nat) (R : FRect α) (s : GUIRect α) (P : FRect α) (hR : s.Get P = R)
    (hprop : Propagates L h fuel) :
    ∀ (l : List Nat) (cache : Nat → FRect α), l.Nodup → (∀ c ∈ l, h.parent c = some n) →
      (∀ c ∈ l, ∃ H, H < fuel ∧ HeightLE h c H) →
      ∃ cache2, (ContainerGroup.calls s l P).foldlM
          (fun c call => SetParentShape L h fuel c call.1 call.2) cache = some cache2 ∧
        (∀ x, (∀ c ∈ l, ¬ InSubtree h c x) → cache2 x = cache x) ∧
        (∀ c ∈ l, ∀ path leaf, GroupPath h (c :: path) leaf → h.store leaf = Store.leaf →
          cache2 leaf = (L.shape leaf).Get (L.resolve R (c :: path))) ∧
        (∀ c ∈ l, h.store c = Store.leaf → cache2 c = (L.shape c).Get R) := by
  intro l
  induction l with
  | nil =>
    intro cache _ _ _
    exact ⟨cache, rfl, fun _ _ => rfl, fun c hc => absurd hc (List.not_mem_nil c),
      fun c hc => absurd hc (List.not_mem_nil c)⟩
  | cons c l ih =>
    intro cache hnd hpar hht
    obtain ⟨hcl, hndl⟩ := List.nodup_cons.1 hnd
    have hpc : h.parent c = some n := hpar c (List.mem_cons_self c l)
    obtain ⟨cache1, s1, f1, v1, lf1⟩ := hprop c cache R (hht c (List.mem_cons_self c l))
    obtain ⟨cache2, s2, f2, v2, lf2⟩ := ih cache1 hndl
      (fun d hd => hpar d (List.mem_cons_of_mem c hd))
      (fun d hd => hht d (List.mem_cons_of_mem c hd))
    have hkeep : ∀ x, InSubtree h c x → cache2 x = cache1 x := by
      intro x hx
      apply f2 x
      intro d hd
      have hcd : c ≠ d := fun e => hcl (e ▸ hd)
      exact subtree_disjoint h hc n c d x hpc (hpar d (List.mem_cons_of_mem c hd)) hcd hx
    refine ⟨cache2, ?_, fun x hx => ?_, fun d hd path leaf hg hl => ?_, fun d hd hl => ?_⟩
    · simp only [ContainerGroup.calls, List.map_cons, List.foldlM_cons, hR, s1,
        Option.bind_eq_bind, Option.some_bind]
      simpa only [ContainerGroup.calls, hR] using s2
    · rw [f2 x (fun d hd => hx d (List.mem_cons_of_mem c hd)),
        f1 x (hx c (List.mem_cons_self c l))]
    · rcases List.mem_cons.1 hd with e | hd2
      · subst e
        rw [hkeep leaf (GroupPath.inSubtree h hw path d leaf hg)]
        exact v1 path leaf hg hl
      · exact v2 d hd2 path leaf hg hl
    · rcases List.mem_cons.1 hd with e | hd2
      · subst e
        rw [hkeep d ⟨0, rfl⟩]
        exact lf1 hl
      · exact lf2 d hd2 hl

theorem propagates (L : Layout α) (h : Heap) (hw : WF h) (hc : NoCycle h) :
    ∀ fuel, Propagates L h fuel := by
  intro fuel
  induction fuel with
  | zero =>
    rintro m cache P ⟨H, hH, _⟩
    exact absurd hH (Nat.not_lt_zero H)
  | succ fuel ih =>
    rintro m cache P ⟨H, hH, hle⟩
    have hself : InSubtree h m m := ⟨0, rfl⟩
    cases hst : h.store m with
    | leaf =>
      refine ⟨Function.update cache m ((L.shape m).Get P), by simp only [SetParentShape, hst],
        fun x hx => ?_, fun path leaf hg _ => ?_, fun _ => by simp⟩
      · have hxm : x ≠ m := fun e => hx (e ▸ hself)
        simp [Function.update, hxm]
      · obtain ⟨cs, hcs⟩ := GroupPath.head_group h m path leaf hg
        rw [hst] at hcs
        exact Store.noConfusion hcs
    | group cs =>
      have hk : children h m = cs := children_of_group h m cs hst
      have hnd : cs.Nodup := by
        rw [← hk]
        exact ((WF_iff h).1 hw).2 m
      have hpar : ∀ c ∈ cs, h.parent c = some m := fun c hc2 =>
        WF.parent_of_group h hw m c cs hst hc2
      have hht : ∀ c ∈ cs, ∃ H2, H2 < fuel ∧ HeightLE h c H2 := by
        intro c hc2
        obtain ⟨h1, h2⟩ := HeightLE.below_child h m c H (hpar c hc2) hle
        exact ⟨H - 1, by omega, h2⟩
      obtain ⟨cache2, s2, f2, v2, lf2⟩ := propagate_children L h hw hc fuel m
        ((L.shape m).Get P) (L.shape m) P rfl ih cs cache hnd hpar hht
      refine ⟨cache2, by simp only [SetParentShape, hst]; exact s2, fun x hx => ?_,
        fun path leaf hg hl => ?_, fun hl => ?_⟩
      · exact f2 x (fun c hc2 hin => hx (InSubtree.under_child h m c x (hpar c hc2) hin))
      · cases path with
        | nil =>
          obtain ⟨cs2, hcs2, hmem⟩ := hg
          rw [hst] at hcs2
          injection hcs2 with hcs2
          subst hcs2
          exact lf2 leaf hmem hl
        | cons m2 rest =>
          obtain ⟨⟨cs2, hcs2, hmem⟩, hrest⟩ := hg
          rw [hst] at hcs2
          injection hcs2 with hcs2
          subst hcs2
          exact v2 m2 hmem rest leaf hrest hl
      · exact Store.noConfusion hl
    | slot hc2 =>
      cases hc2 with
      | none =>
        refine ⟨Function.update cache m ((L.shape m).Get P),
          by simp only [SetParentShape, hst], fun x hx => ?_, fun path leaf hg _ => ?_,
          fun hl => ?_⟩
        · have hxm : x ≠ m := fun e => hx (e ▸ hself)
          simp [Function.update, hxm]
        · obtain ⟨cs, hcs⟩ := GroupPath.head_group h m path leaf hg
          rw [hst] at hcs
          exact Store.noConfusion hcs
        · exact Store.noConfusion hl
      | some c =>
        have hpc : h.parent c = some m := by
          apply (((WF_iff h).1 hw).1 c m).2
          simp [children, hst, Store.kids]
        obtain ⟨h1, h2⟩ := HeightLE.below_child h m c H hpc hle
        obtain ⟨cache2, s2, f2, _, _⟩ := ih c
          (Function.update cache m ((L.shape m).Get P))
          ⟨(L.cur_position m).Get ((L.shape m).Get P), ((L.shape m).Get P).size⟩
          ⟨H - 1, by omega, h2⟩
        refine ⟨cache2, by simp only [SetParentShape, hst]; exact s2, fun x hx => ?_,
          fun path leaf hg _ => ?_, fun hl => ?_⟩
        · have hxm : x ≠ m := fun e => hx (e ▸ hself)
          rw [f2 x (fun hin => hx (InSubtree.under_child h m c x hpc hin))]
          simp [Function.update, hxm]
        · obtain ⟨cs, hcs⟩ := GroupPath.head_group h m path leaf hg
          rw [hst] at hcs
          exact Store.noConfusion hcs
        · exact Store.noConfusion hl

end PropagationFacts
theorem IContainer.callsLoop_eq {α : Type} (h : Heap) (hw : WF h) (hs : NoSelfParent h) (n : Nat)
    (R : FRect α) :
    ∀ num, num ≤ (children h n).length →
      IContainer.callsLoop h n R num =
        Except.ok ((((children h n).take num).reverse).map (fun c => (c, R))) := by
  intro num
  induction num with
  | zero => intro _; rfl
  | succ num ih =>
    intro hle
    have hlt : num < (children h n).length := hle
    have hg : GetChild h n num = Except.ok ((children h n)[num]) :=
      GetChild_getElem? h n num _ hw hs (List.getElem?_eq_getElem hlt)
    have ht : (children h n).take (num + 1) = (children h n).take num ++ [(children h n)[num]] := by
      rw [List.take_succ, List.getElem?_eq_getElem hlt]
      rfl
    rw [ht]
    simp only [IContainer.callsLoop, hg, ih (Nat.le_of_lt hlt), List.reverse_append,
      List.reverse_cons, List.reverse_nil, List.nil_append, List.singleton_append,
      List.map_cons]

section PropagationClaims

variable {α : Type} [LinearOrderedField α]

theorem IContainer.calls_eq (h : Heap) (hw : WF h) (hs : NoSelfParent h) (n : Nat)
    (s : GUIRect α) (P : FRect α) :
    IContainer.calls s h n P =
      Except.ok (((children h n).reverse).map (fun c => (c, s.Get P))) := by
  unfold IContainer.calls
  rw [IContainer.callsLoop_eq h hw hs n (s.Get P) (NumChildren h n)
    (le_of_eq (NumChildren_eq h n)), NumChildren_eq, List.take_length]

/-- C14. Shape propagation.  In a well-formed store without parent cycles: the
body of `ContainerGroup::SetParentShape(P)` calls `SetParentShape(shape.Get(P))`
on the children of the group, in order, and the body of the base
`IContainer::SetParentShape(P)` does so in reverse order without tripping an
assertion; the children are pairwise distinct, so each child is called exactly
once.  Consequently `root.SetParentShape(P)` returns, and a rectangle `leaf`
reached through the groups `root :: path` caches
`leaf.shape.Get(n_k.shape.Get(... root.shape.Get(P) ...))`. -/
theorem C14_shape_propagation (L : Layout α) (h : Heap) (hw : WF h) (hn : NoCycle h) :
    (∀ N cs P, h.store N = Store.group cs →
      (ContainerGroup.calls (L.shape N) cs P).map Prod.fst = children h N ∧
      (children h N).Nodup ∧
      ∀ call ∈ ContainerGroup.calls (L.shape N) cs P, call.2 = (L.shape N).Get P) ∧
    (∀ N P, ∃ calls, IContainer.calls (L.shape N) h N P = Except.ok calls ∧
      calls.map Prod.fst = (children h N).reverse ∧ (children h N).Nodup ∧
      ∀ call ∈ calls, call.2 = (L.shape N).Get P) ∧
    (∀ fuel cache root P path leaf, h.length < fuel → GroupPath h (root :: path) leaf →
      h.store leaf = Store.leaf →
      ∃ cache2, SetParentShape L h fuel cache root P = some cache2 ∧
        cache2 leaf = (L.shape leaf).Get (L.resolve P (root :: path))) := by
  have hnd : ∀ N, (children h N).Nodup := ((WF_iff h).1 hw).2
  refine ⟨fun N cs P hst => ⟨?_, hnd N, ?_⟩, fun N P => ?_, ?_⟩
  · rw [children_of_group h N cs hst]
    simp [ContainerGroup.calls, Function.comp_def]
  · intro call hcall
    obtain ⟨c, _, rfl⟩ := List.mem_map.1 hcall
    rfl
  · refine ⟨_, IContainer.calls_eq h hw (NoCycle.noSelfParent h hn) N (L.shape N) P, ?_,
      hnd N, ?_⟩
    · simp [Function.comp_def]
    · intro call hcall
      obtain ⟨c, _, rfl⟩ := List.mem_map.1 hcall
      rfl
  · intro fuel cache root P path leaf hf hg hl
    obtain ⟨cache2, s2, _, v2, _⟩ := propagates L h hw hn fuel root cache P
      ⟨h.length, hf, ChainsEnd.heightLE h (NoCycle.chainsEnd h hw hn) root⟩
    exact ⟨cache2, s2, v2 path leaf hg hl⟩

end PropagationClaims

theorem C14_shape_propagation_witness :
    ContainerGroup.calls (groupLayout.shape 0) [1, 2] demoParent =
      [(1, ⟨⟨0, 0⟩, ⟨100, 20⟩⟩), (2, ⟨⟨0, 0⟩, ⟨100, 20⟩⟩)] ∧
    ∃ cache2, SetParentShape groupLayout groupTree 5 blankCache 0 demoParent = some cache2 ∧
      cache2 3 = ⟨⟨55, 5⟩, ⟨40, 10⟩⟩ := by
  have key := C14_shape_propagation groupLayout groupTree (by decide)
    (ChainsEnd.noCycle groupTree (by decide))
  refine ⟨?_, ?_⟩
  · norm_num [ContainerGroup.calls, groupLayout, rootShape, GUIRect.ofPoints, demoParent,
      GUIRect.Get, GUIPosition.Get, GUISize.Get, FPoint.ext_iff, FRect.ext_iff]
  · obtain ⟨cache2, s2, v2⟩ := key.2.2 5 blankCache 0 demoParent [1] 3 (by decide)
      ⟨⟨[1, 2], rfl, by decide⟩, ⟨[3], rfl, by decide⟩⟩ rfl
    refine ⟨cache2, s2, ?_⟩
    rw [v2]
    norm_num [Layout.resolve, groupLayout, rootShape, GUIRect.ofPoints, demoParent,
      GUIRect.Get, GUIPosition.Get, GUISize.Get, FPoint.ext_iff, FRect.ext_iff]



/-! ## Toggle -/

theorem Toggle.passToHandle_def {α : Type} (s : Toggle α) :
    s.passToHandle = { s with
      handle_received :=
        if s.has_handle then some ⟨s._cur_position, s._shape.size⟩ else s.handle_received } := by
  unfold Toggle.passToHandle
  split_ifs <;> rfl

theorem sub64_of_le (a b : Nat) (hab : b ≤ a) (ha : a < 2 ^ 64) : sub64 a b = a - b := by
  unfold sub64
  have hb : b % 2 ^ 64 = b := Nat.mod_eq_of_lt (lt_of_le_of_lt hab ha)
  rw [hb]
  have e : a + 2 ^ 64 - b = (a - b) + 2 ^ 64 := by omega
  rw [e, Nat.add_mod_right]
  exact Nat.mod_eq_of_lt (lt_of_le_of_lt (Nat.sub_le a b) ha)

/-- The counter after the animated branch, when it starts within
`[0, scroll_time]`: it moves by `dT` towards the end of the current state and
stops there. -/
theorem Toggle.advance_eq {α : Type} (s : Toggle α) (dT : Nat) (h64 : s.scroll_time < 2 ^ 64)
    (ht : s._t ≤ s.scroll_time) :
    s.advance dT = (if s.state then min (s._t + dT) s.scroll_time else s._t - dT) := by
  unfold Toggle.advance
  rw [sub64_of_le s.scroll_time s._t ht h64]
  cases hs : s.state with
  | true =>
    simp only [if_true]
    split_ifs with h1
    · have hlt : s._t + dT < 2 ^ 64 := by omega
      unfold add64
      rw [Nat.mod_eq_of_lt hlt]
      omega
    · omega
  | false =>
    simp only [Bool.false_eq_true, if_false]
    split_ifs with h1
    · exact sub64_of_le s._t dT (le_of_lt h1) (lt_of_le_of_lt ht h64)
    · omega

section ToggleFacts

variable {α : Type} [LinearOrderedField α]

theorem Toggle.SetParentShape_cache (s : Toggle α) (P : FRect α) :
    (s.SetParentShape P)._shape = s.shape.Get P ∧
    (s.SetParentShape P)._off_position = s.off_position.Get (s.shape.Get P) ∧
    (s.SetParentShape P)._on_position = s.on_position.Get (s.shape.Get P) ∧
    (s.SetParentShape P)._cur_position = s.cur_position.Get (s.shape.Get P) ∧
    (s.SetParentShape P)._click_area = s.click_area.Get (s.shape.Get P) ∧
    (s.SetParentShape P).shape = s.shape ∧
    (s.SetParentShape P).off_position = s.off_position ∧
    (s.SetParentShape P).on_position = s.on_position ∧
    (s.SetParentShape P).cur_position = s.cur_position ∧
    (s.SetParentShape P).state = s.state ∧
    (s.SetParentShape P).scroll_time = s.scroll_time ∧
    (s.SetParentShape P)._t = s._t := by
  simp [Toggle.SetParentShape, Toggle.passToHandle_def]

/-- The new position of `Toggle::Update`, relative and absolute. -/
theorem Toggle.Update_position (s : Toggle α) (dT : Nat) :
    (s.Update dT).cur_position =
      (if s.scroll_time = 0 then (if s.state then s.on_position else s.off_position)
       else LerpClampedPosition (((s.advance dT : Nat) : α) / (s.scroll_time : α))
        s.off_position s.on_position) ∧
    (s.Update dT)._cur_position =
      (if s.scroll_time = 0 then (if s.state then s._on_position else s._off_position)
       else LerpClampedPoint (((s.advance dT : Nat) : α) / (s.scroll_time : α))
        s._off_position s._on_position) ∧
    (s.Update dT).handle_received =
      (if s.has_handle then some ⟨(s.Update dT)._cur_position, s._shape.size⟩
       else s.handle_received) := by
  simp only [Toggle.Update, Toggle.passToHandle_def]
  split_ifs <;> simp

/-- The members that `Toggle::Update` leaves alone, and the new counter. -/
theorem Toggle.Update_frame (s : Toggle α) (dT : Nat) :
    (s.Update dT)._t = (if s.scroll_time = 0 then 0 else s.advance dT) ∧
    (s.Update dT).scroll_time = s.scroll_time ∧
    (s.Update dT).state = s.state ∧
    (s.Update dT).shape = s.shape ∧
    (s.Update dT).off_position = s.off_position ∧
    (s.Update dT).on_position = s.on_position ∧
    (s.Update dT)._shape = s._shape ∧
    (s.Update dT)._off_position = s._off_position ∧
    (s.Update dT)._on_position = s._on_position ∧
    (s.Update dT)._click_area = s._click_area ∧
    (s.Update dT).has_handle = s.has_handle ∧
    (s.Update dT).button = s.button := by
  simp only [Toggle.Update, Toggle.passToHandle_def]
  split_ifs <;> simp

/-- The clamp invariant of `Toggle::Update`. -/
theorem Toggle.Update_le (s : Toggle α) (dT : Nat) (h64 : s.scroll_time < 2 ^ 64)
    (ht : s._t ≤ s.scroll_time) : (s.Update dT)._t ≤ s.scroll_time := by
  rw [(Toggle.Update_frame s dT).1]
  split_ifs with hz
  · exact Nat.zero_le _
  · rw [Toggle.advance_eq s dT h64 ht]
    split_ifs <;> omega

theorem Toggle.step_frame (s : Toggle α) (st : ToggleStep) :
    (s.step st).scroll_time = s.scroll_time ∧ (s.step st).shape = s.shape ∧
    (s.step st).off_position = s.off_position ∧ (s.step st).on_position = s.on_position ∧
    (s.step st)._shape = s._shape ∧ (s.step st)._off_position = s._off_position ∧
    (s.step st)._on_position = s._on_position ∧ (s.step st)._click_area = s._click_area := by
  cases st with
  | flip => simp [Toggle.step]
  | update dT =>
    obtain ⟨_, e2, _, e4, e5, e6, e7, e8, e9, e10, _⟩ := Toggle.Update_frame s dT
    exact ⟨e2, e4, e5, e6, e7, e8, e9, e10⟩

theorem Toggle.run_append (s : Toggle α) (l : List ToggleStep) (st : ToggleStep) :
    s.run (l ++ [st]) = (s.run l).step st := by
  simp [Toggle.run, List.foldl_append]

theorem Toggle.run_frame (s : Toggle α) (steps : List ToggleStep) :
    (s.run steps).scroll_time = s.scroll_time ∧ (s.run steps).shape = s.shape ∧
    (s.run steps).off_position = s.off_position ∧ (s.run steps).on_position = s.on_position ∧
    (s.run steps)._shape = s._shape ∧ (s.run steps)._off_position = s._off_position ∧
    (s.run steps)._on_position = s._on_position ∧ (s.run steps)._click_area = s._click_area := by
  induction steps using List.reverseRecOn with
  | nil => exact ⟨rfl, rfl, rfl, rfl, rfl, rfl, rfl, rfl⟩
  | append_singleton l st ih =>
    rw [Toggle.run_append]
    obtain ⟨a1, a2, a3, a4, a5, a6, a7, a8⟩ := Toggle.step_frame (s.run l) st
    obtain ⟨b1, b2, b3, b4, b5, b6, b7, b8⟩ := ih
    exact ⟨a1.trans b1, a2.trans b2, a3.trans b3, a4.trans b4, a5.trans b5, a6.trans b6,
      a7.trans b7, a8.trans b8⟩

theorem Toggle.run_le (s : Toggle α) (steps : List ToggleStep) (h64 : s.scroll_time < 2 ^ 64)
    (ht : s._t ≤ s.scroll_time) : (s.run steps)._t ≤ s.scroll_time := by
  induction steps using List.reverseRecOn with
  | nil => exact ht
  | append_singleton l st ih =>
    rw [Toggle.run_append]
    have hsc := (Toggle.run_frame s l).1
    cases st with
    | flip => exact ih
    | update dT =>
      have := Toggle.Update_le (s.run l) dT (by rw [hsc]; exact h64) (by rw [hsc]; exact ih)
      rw [hsc] at this
      exact this

end ToggleFacts

section ToggleClaims

variable {α : Type} [LinearOrderedField α]

theorem Toggle.SetParentShape_fresh (s : Toggle α) (P : FRect α) :
    (s.SetParentShape P).Fresh ∧
    (s.SetParentShape P)._cur_position =
      (s.SetParentShape P).cur_position.Get (s.SetParentShape P)._shape := by
  obtain ⟨e1, e2, e3, e4, _, _, e7, e8, e9, _⟩ := Toggle.SetParentShape_cache s P
  refine ⟨⟨?_, ?_⟩, ?_⟩
  · rw [e2, e7, e1]
  · rw [e3, e8, e1]
  · rw [e4, e9, e1]

/-- C21: a toggle with `scroll_time == 0`.  One `Update(dT)`, for every `dT` and
whatever `cur_position` and `_cur_position` were, sets `cur_position` to
`on_position` and the cached `_cur_position` to the cached `_on_position` when
`state` is true, and to `off_position` and `_off_position` when it is false;
with the cache as `SetParentShape` left it, that is the evaluated position
`on_position.Get(_shape)` (resp. `off_position.Get(_shape)`).  A handle child
receives the rectangle `(_cur_position, _shape.size)`, and the counter is 0. -/
theorem C21_zero_duration_snaps (s : Toggle α) (dT : Nat) (hz : s.scroll_time = 0) :
    (s.state = true →
      (s.Update dT).cur_position = s.on_position ∧
      (s.Update dT)._cur_position = s._on_position ∧
      (s.Fresh → (s.Update dT)._cur_position = s.on_position.Get s._shape)) ∧
    (s.state = false →
      (s.Update dT).cur_position = s.off_position ∧
      (s.Update dT)._cur_position = s._off_position ∧
      (s.Fresh → (s.Update dT)._cur_position = s.off_position.Get s._shape)) ∧
    (s.has_handle = true →
      (s.Update dT).handle_received = some ⟨(s.Update dT)._cur_position, s._shape.size⟩) ∧
    (s.Update dT)._t = 0 := by
  obtain ⟨p1, p2, p3⟩ := Toggle.Update_position s dT
  rw [if_pos hz] at p1 p2
  refine ⟨fun hs => ?_, fun hs => ?_, fun hh => ?_, ?_⟩
  · rw [hs] at p1 p2
    exact ⟨p1, p2, fun hf => p2.trans hf.2⟩
  · rw [hs] at p1 p2
    exact ⟨p1, p2, fun hf => p2.trans hf.1⟩
  · rw [p3, if_pos hh]
  · rw [(Toggle.Update_frame s dT).1, if_pos hz]

theorem C21_zero_duration_snaps_witness :
    (snapToggleOn.Update 16).cur_position = ⟨⟨3 / 4, 1 / 2⟩, ⟨0, 0⟩⟩ ∧
    (snapToggleOn.Update 16)._cur_position = ⟨75, 10⟩ ∧
    (snapToggleOn.Update 16).handle_received = some ⟨⟨75, 10⟩, ⟨100, 20⟩⟩ := by
  obtain ⟨h1, _, h3, _⟩ := C21_zero_duration_snaps snapToggleOn 16 rfl
  obtain ⟨a1, a2, _⟩ := h1 rfl
  have e : snapToggleOn._on_position = ⟨75, 10⟩ := by
    have := (Toggle.SetParentShape_cache snapToggle demoParent).2.2.1
    show (snapToggle.SetParentShape demoParent)._on_position = _
    rw [this]
    norm_num [snapToggle, demoToggle, demoParent, GUIRect.ofPoints, GUIRect.Get,
      GUIPosition.Get, GUISize.Get, FPoint.ext_iff]
  have e2 : snapToggleOn._shape.size = ⟨100, 20⟩ := by
    have := (Toggle.SetParentShape_cache snapToggle demoParent).1
    show (snapToggle.SetParentShape demoParent)._shape.size = _
    rw [this]
    norm_num [snapToggle, demoToggle, demoParent, GUIRect.ofPoints, GUIRect.Get,
      GUIPosition.Get, GUISize.Get, FPoint.ext_iff]
  refine ⟨a1, a2.trans e, ?_⟩
  rw [h3 rfl, a2, e, e2]

end ToggleClaims

section ToggleAnimation

variable {α : Type} [LinearOrderedField α]

@[simp] theorem GUIPosition.add_anchor (a b : GUIPosition α) :
    (a + b).anchor = a.anchor + b.anchor := rfl

@[simp] theorem GUIPosition.add_offset (a b : GUIPosition α) :
    (a + b).offset = a.offset + b.offset := rfl

@[simp] theorem GUIPosition.sub_anchor (a b : GUIPosition α) :
    (a - b).anchor = a.anchor - b.anchor := rfl

@[simp] theorem GUIPosition.sub_offset (a b : GUIPosition α) :
    (a - b).offset = a.offset - b.offset := rfl

@[simp] theorem GUIPosition.smul_anchor (a : GUIPosition α) (f : α) :
    (a * f).anchor = a.anchor * f := rfl

@[simp] theorem GUIPosition.smul_offset (a : GUIPosition α) (f : α) :
    (a * f).offset = a.offset * f := rfl

theorem Toggle.animate_append (s : Toggle α) (l : List Nat) (d : Nat) :
    s.animate (l ++ [d]) = (s.animate l).Update d := by
  simp [Toggle.animate, List.foldl_append]

/-- A run of updates on a toggle that is held on: the counter is the elapsed
time, capped at `scroll_time`. -/
theorem Toggle.animate_on (dTs : List Nat) : ∀ s : Toggle α, s.state = true →
    0 < s.scroll_time → s.scroll_time < 2 ^ 64 → s._t ≤ s.scroll_time →
    (s.animate dTs)._t = min (s._t + dTs.sum) s.scroll_time ∧
    (s.animate dTs).state = true ∧ (s.animate dTs).scroll_time = s.scroll_time ∧
    (s.animate dTs).off_position = s.off_position ∧
    (s.animate dTs).on_position = s.on_position := by
  induction dTs with
  | nil =>
    intro s _ _ _ ht
    exact ⟨by simp [Toggle.animate, ht], by assumption, rfl, rfl, rfl⟩
  | cons d l ih =>
    intro s hs hD h64 ht
    obtain ⟨f1, f2, f3, _, f5, f6, _⟩ := Toggle.Update_frame s d
    rw [if_neg (Nat.pos_iff_ne_zero.1 hD), Toggle.advance_eq s d h64 ht, hs, if_pos rfl] at f1
    have hle : (s.Update d)._t ≤ (s.Update d).scroll_time := by
      rw [f1, f2]
      exact min_le_right _ _
    obtain ⟨g1, g2, g3, g4, g5⟩ := ih (s.Update d) (f3.trans hs) (by rw [f2]; exact hD)
      (by rw [f2]; exact h64) hle
    have e : s.animate (d :: l) = (s.Update d).animate l := rfl
    rw [e]
    refine ⟨?_, g2, g3.trans f2, g4.trans f5, g5.trans f6⟩
    rw [g1, f1, f2, List.sum_cons]
    omega

/-- The position written by the animated branch of `Update` is the interpolation
at the fraction `_t / scroll_time`. -/
theorem Toggle.Update_lerp (s : Toggle α) (dT : Nat) (hD : 0 < s.scroll_time)
    (hle : (s.Update dT)._t ≤ s.scroll_time) :
    (s.Update dT).cur_position =
      LerpPosition (((s.Update dT)._t : α) / (s.scroll_time : α)) s.off_position s.on_position := by
  have hne : s.scroll_time ≠ 0 := Nat.pos_iff_ne_zero.1 hD
  have ht := (Toggle.Update_frame s dT).1
  rw [if_neg hne] at ht
  rw [(Toggle.Update_position s dT).1, if_neg hne, ← ht]
  have hpos : (0 : α) < (s.scroll_time : α) := Nat.cast_pos.2 hD
  have h0 : (0 : α) ≤ ((s.Update dT)._t : α) / (s.scroll_time : α) :=
    div_nonneg (Nat.cast_nonneg _) (le_of_lt hpos)
  have h1 : ((s.Update dT)._t : α) / (s.scroll_time : α) ≤ 1 := by
    rw [div_le_one hpos]
    exact Nat.cast_le.2 hle
  unfold LerpClampedPosition LerpPosition
  rw [clamp_of_mem _ h0 h1]

/-- C22: an animated toggle (`scroll_time = D > 0`) whose counter is 0 is
switched on and then updated with elapsed times `dTs` summing to `d`.  The
counter `_t` is `min(d, D)`, the fraction `_t / (double)scroll_time` is
`min(d, D) / D`, and `cur_position` is the interpolation between `off_position`
and `on_position` at that fraction.  With `D = 500` the fraction is 1/2 when
`d = 250`; it is 1 once `d >= D` and stays 1 under further updates. -/
theorem C22_animation_fraction (s : Toggle α) (dTs : List Nat) (hD : 0 < s.scroll_time)
    (h64 : s.scroll_time < 2 ^ 64) (ht : s._t = 0) (hne : dTs ≠ []) :
    (({ s with state := true } : Toggle α).animate dTs)._t = min dTs.sum s.scroll_time ∧
    ((({ s with state := true } : Toggle α).animate dTs)._t : α) /
        ((({ s with state := true } : Toggle α).animate dTs).scroll_time : α) =
      ((min dTs.sum s.scroll_time : Nat) : α) / (s.scroll_time : α) ∧
    (({ s with state := true } : Toggle α).animate dTs).cur_position =
      LerpPosition (((min dTs.sum s.scroll_time : Nat) : α) / (s.scroll_time : α))
        s.off_position s.on_position ∧
    (s.scroll_time = 500 → dTs.sum = 250 →
      ((({ s with state := true } : Toggle α).animate dTs)._t : α) /
        ((({ s with state := true } : Toggle α).animate dTs).scroll_time : α) = 1 / 2) ∧
    (s.scroll_time ≤ dTs.sum → ∀ more : List Nat,
      ((({ s with state := true } : Toggle α).animate (dTs ++ more))._t : α) /
        ((({ s with state := true } : Toggle α).animate (dTs ++ more)).scroll_time : α) = 1) := by
  have key : ∀ l : List Nat,
      (({ s with state := true } : Toggle α).animate l)._t = min l.sum s.scroll_time ∧
      (({ s with state := true } : Toggle α).animate l).scroll_time = s.scroll_time ∧
      (({ s with state := true } : Toggle α).animate l).off_position = s.off_position ∧
      (({ s with state := true } : Toggle α).animate l).on_position = s.on_position := by
    intro l
    obtain ⟨g1, _, g3, g4, g5⟩ := Toggle.animate_on l ({ s with state := true } : Toggle α)
      rfl hD h64 (by show s._t ≤ s.scroll_time; omega)
    refine ⟨?_, g3, g4, g5⟩
    rw [g1]
    show min (s._t + l.sum) s.scroll_time = _
    rw [ht, Nat.zero_add]
  obtain ⟨k1, k2, _, _⟩ := key dTs
  have hpos : (0 : α) < (s.scroll_time : α) := Nat.cast_pos.2 hD
  refine ⟨k1, by rw [k1, k2], ?_, fun h500 h250 => ?_, fun hge more => ?_⟩
  · obtain ⟨l, d, rfl⟩ : ∃ l d, dTs = l ++ [d] := by
      induction dTs using List.reverseRecOn with
      | nil => exact absurd rfl hne
      | append_singleton l d _ => exact ⟨l, d, rfl⟩
    obtain ⟨j1, j2, j3, j4⟩ := key l
    have e := Toggle.animate_append ({ s with state := true } : Toggle α) l d
    have hle : ((({ s with state := true } : Toggle α).animate l).Update d)._t ≤
        (({ s with state := true } : Toggle α).animate l).scroll_time := by
      rw [← e, k1, j2]
      exact min_le_right _ _
    have hl := Toggle.Update_lerp (({ s with state := true } : Toggle α).animate l) d
      (by rw [j2]; exact hD) hle
    rw [← e, j2, j3, j4, k1] at hl
    exact hl
  · rw [k1, k2, h500, h250]
    norm_num
  · obtain ⟨m1, m2, _, _⟩ := key (dTs ++ more)
    rw [m1, m2, List.sum_append, min_eq_right (le_trans hge (Nat.le_add_right _ _))]
    exact div_self (ne_of_gt hpos)

theorem C22_animation_fraction_witness :
    (demoToggleOn.animate [100, 150])._t = 250 ∧
    ((demoToggleOn.animate [100, 150])._t : ℚ) /
      ((demoToggleOn.animate [100, 150]).scroll_time : ℚ) = 1 / 2 ∧
    (demoToggleOn.animate [100, 150]).cur_position = ⟨⟨1 / 2, 1 / 2⟩, ⟨0, 0⟩⟩ := by
  obtain ⟨h1, _, h3, h4, _⟩ := C22_animation_fraction demoToggle [100, 150] (by decide)
    (by decide) rfl (by decide)
  refine ⟨h1, h4 rfl rfl, ?_⟩
  have e : (demoToggleOn.animate [100, 150]).cur_position =
      LerpPosition ((((min ([100, 150] : List Nat).sum demoToggle.scroll_time : Nat)) : ℚ) /
        (demoToggle.scroll_time : ℚ)) demoToggle.off_position demoToggle.on_position := h3
  rw [e]
  have hm : min ([100, 150] : List Nat).sum demoToggle.scroll_time = 250 := by decide
  rw [hm]
  show LerpPosition (((250 : Nat) : ℚ) / ((500 : Nat) : ℚ)) ⟨⟨1 / 4, 1 / 2⟩, ⟨0, 0⟩⟩
    ⟨⟨3 / 4, 1 / 2⟩, ⟨0, 0⟩⟩ = _
  unfold LerpPosition
  show (GUIPosition.mk _ _ : GUIPosition ℚ) = _
  congr 1 <;> ext <;> norm_num

end ToggleAnimation

section ToggleInvariants

variable {α : Type} [LinearOrderedField α]

/-- C23: the elapsed-counter clamp invariant.  Start from a toggle with
`_t <= scroll_time` (the constructor establishes this) and run any sequence of
state flips and `Update(dT)` calls (`dT` any `Uint64`).  Then `_t <= scroll_time`
still holds and `scroll_time` is unchanged; and in the next `Update(dT)` none of
the unsigned expressions wraps: `scroll_time - _t` is the true difference,
`_t + dT` is evaluated only when it stays below `2 ^ 64`, `_t - dT` only when
`dT < _t`.  The new counter is `min(_t + dT, scroll_time)` when the state is on
and `max(_t - dT, 0)` when it is off, so a flip (which leaves `_t` alone) makes
the animation continue from the current `_t`. -/
theorem C23_counter_clamp_invariant (s0 : Toggle α) (steps : List ToggleStep)
    (h64 : s0.scroll_time < 2 ^ 64) (h0 : s0._t ≤ s0.scroll_time) :
    (s0.run steps)._t ≤ (s0.run steps).scroll_time ∧
    (s0.run steps).scroll_time = s0.scroll_time ∧
    (∀ dT : Nat,
      sub64 (s0.run steps).scroll_time (s0.run steps)._t =
        (s0.run steps).scroll_time - (s0.run steps)._t ∧
      (dT < sub64 (s0.run steps).scroll_time (s0.run steps)._t →
        (s0.run steps)._t + dT < 2 ^ 64 ∧
        add64 (s0.run steps)._t dT = (s0.run steps)._t + dT) ∧
      (dT < (s0.run steps)._t →
        sub64 (s0.run steps)._t dT = (s0.run steps)._t - dT) ∧
      ((s0.run steps).Update dT)._t =
        (if (s0.run steps).scroll_time = 0 then 0
         else if (s0.run steps).state then min ((s0.run steps)._t + dT) (s0.run steps).scroll_time
         else (s0.run steps)._t - dT) ∧
      ((s0.run steps).Update dT)._t ≤ ((s0.run steps).Update dT).scroll_time) ∧
    ((s0.run steps).step ToggleStep.flip)._t = (s0.run steps)._t ∧
    (∀ (mem : Toggle α) shape off_pos on_pos click_area state scroll_time button,
      (Toggle.init mem shape off_pos on_pos click_area state scroll_time button)._t ≤
        (Toggle.init mem shape off_pos on_pos click_area state scroll_time button).scroll_time) := by
  have hsc := (Toggle.run_frame s0 steps).1
  have hle := Toggle.run_le s0 steps h64 h0
  have h64b : (s0.run steps).scroll_time < 2 ^ 64 := by rw [hsc]; exact h64
  have hleb : (s0.run steps)._t ≤ (s0.run steps).scroll_time := by rw [hsc]; exact hle
  refine ⟨hleb, hsc, fun dT => ⟨sub64_of_le _ _ hleb h64b, fun hlt => ?_, fun hlt => ?_, ?_, ?_⟩,
    rfl, ?_⟩
  · rw [sub64_of_le _ _ hleb h64b] at hlt
    have hlt2 : (s0.run steps)._t + dT < 2 ^ 64 := by omega
    exact ⟨hlt2, Nat.mod_eq_of_lt hlt2⟩
  · exact sub64_of_le _ _ (le_of_lt hlt) (lt_of_le_of_lt hleb h64b)
  · rw [(Toggle.Update_frame _ dT).1]
    split_ifs with hz hs
    · rfl
    · rw [Toggle.advance_eq _ dT h64b hleb, if_pos hs]
    · rw [Toggle.advance_eq _ dT h64b hleb, if_neg hs]
  · rw [(Toggle.Update_frame _ dT).2.1]
    exact Toggle.Update_le _ dT h64b hleb
  · intro mem shape off_pos on_pos click_area state scroll_time button
    cases state <;> simp [Toggle.init]

theorem C23_counter_clamp_invariant_witness :
    (demoToggle.run [ToggleStep.flip, ToggleStep.update 300, ToggleStep.flip,
      ToggleStep.update 100, ToggleStep.flip, ToggleStep.update 18446744073709551615])._t ≤ 500 ∧
    (demoToggle.run [ToggleStep.flip, ToggleStep.update 300, ToggleStep.flip,
      ToggleStep.update 100])._t = 200 := by
  have h := (C23_counter_clamp_invariant demoToggle [ToggleStep.flip, ToggleStep.update 300,
    ToggleStep.flip, ToggleStep.update 100, ToggleStep.flip,
    ToggleStep.update 18446744073709551615] (by decide) (by decide))
  have h1 := h.1
  rw [h.2.1] at h1
  exact ⟨h1, by decide⟩

/-- C24: the click of a toggle.  A delivered button event negates `state` exactly
when it is a release, of the configured button, at a point inside the cached
`_click_area`; every other event leaves the toggle as it was.  `SetParentShape`
caches `_click_area = click_area.Get(shape.Get(parent))`, whatever `state`,
`cur_position` and `_t` are, and neither `Update` nor a click changes it.  Two
accepted clicks restore the toggle. -/
theorem C24_toggle_click (s : Toggle α) (e : ButtonEvent) :
    ((s.deliver e).state = (!s.state) ↔
      (e.released = true ∧ e.button = s.button ∧
        s._click_area.contains (pixel e.x e.y) = true)) ∧
    (¬ (e.released = true ∧ e.button = s.button ∧
        s._click_area.contains (pixel e.x e.y) = true) → s.deliver e = s) ∧
    (∀ P : FRect α, (s.SetParentShape P)._click_area = s.click_area.Get (s.shape.Get P)) ∧
    (∀ dT, (s.Update dT)._click_area = s._click_area) ∧
    (s.deliver e)._click_area = s._click_area ∧
    (∀ e2 : ButtonEvent,
      (e.released = true ∧ e.button = s.button ∧
        s._click_area.contains (pixel e.x e.y) = true) →
      (e2.released = true ∧ e2.button = s.button ∧
        s._click_area.contains (pixel e2.x e2.y) = true) →
      (s.deliver e).deliver e2 = s) := by
  have hyes : (e.released = true ∧ e.button = s.button ∧
      s._click_area.contains (pixel e.x e.y) = true) →
      s.deliver e = { s with state := !s.state } := by
    rintro ⟨h1, h2, h3⟩
    simp [Toggle.deliver, Toggle.Notify, h1, h2, h3]
  have hno : ¬ (e.released = true ∧ e.button = s.button ∧
      s._click_area.contains (pixel e.x e.y) = true) → s.deliver e = s := by
    intro hn
    unfold Toggle.deliver Toggle.Notify
    by_cases h1 : e.released = true
    · by_cases h2 : e.button = s.button
      · have h3 : s._click_area.contains (pixel e.x e.y) = false := by
          cases hc : s._click_area.contains (pixel e.x e.y) with
          | false => rfl
          | true => exact absurd ⟨h1, h2, hc⟩ hn
        simp [h1, h2, h3]
      · simp [h1, h2]
    · simp [h1]
  refine ⟨⟨fun h => ?_, fun h => ?_⟩, hno, fun P => (Toggle.SetParentShape_cache s P).2.2.2.2.1,
    fun dT => (Toggle.Update_frame s dT).2.2.2.2.2.2.2.2.2.1, ?_, fun e2 h1 h2 => ?_⟩
  · by_contra hn
    rw [hno hn] at h
    cases hs : s.state <;> rw [hs] at h <;> exact absurd h (by decide)
  · rw [hyes h]
  · by_cases hc : (e.released = true ∧ e.button = s.button ∧
        s._click_area.contains (pixel e.x e.y) = true)
    · rw [hyes hc]
    · rw [hno hc]
  · rw [hyes h1]
    obtain ⟨g1, g2, g3⟩ := h2
    cases s
    simp only at g2 g3
    simp [Toggle.deliver, Toggle.Notify, g1, g2, g3]

/-- The templates `Lerp` and `LerpClamped` commute with `GUIPosition::Get`. -/
theorem LerpPosition_Get (t : α) (a b : GUIPosition α) (P : FRect α) :
    (LerpPosition t a b).Get P = LerpPoint t (a.Get P) (b.Get P) ∧
    (LerpClampedPosition t a b).Get P = LerpClampedPoint t (a.Get P) (b.Get P) := by
  refine ⟨?_, ?_⟩
  · ext <;> simp [LerpPosition, LerpPoint, GUIPosition.Get] <;> ring
  · ext <;> simp [LerpClampedPosition, LerpClampedPoint, GUIPosition.Get] <;> ring

theorem Toggle.Update_cached (s : Toggle α) (dT : Nat) (hf : s.Fresh) :
    (s.Update dT).Fresh ∧
    (s.Update dT)._cur_position = (s.Update dT).cur_position.Get (s.Update dT)._shape := by
  obtain ⟨_, _, _, _, f5, f6, f7, f8, f9, _⟩ := Toggle.Update_frame s dT
  obtain ⟨p1, p2, _⟩ := Toggle.Update_position s dT
  refine ⟨⟨by rw [f8, f5, f7]; exact hf.1, by rw [f9, f6, f7]; exact hf.2⟩, ?_⟩
  rw [p1, p2, f7]
  split_ifs with hz hs
  · exact hf.2
  · exact hf.1
  · rw [(LerpPosition_Get _ _ _ _).2, hf.1, hf.2]

/-- C30: blending commutes with evaluation.  In exact arithmetic
`Lerp(t, a, b).Get(P) = Lerp(t, a.Get(P), b.Get(P))` for all `GUIPosition`s `a`,
`b`, every factor `t` and every rectangle `P`, and the same holds for
`LerpClamped`.  Therefore, after `SetParentShape(P)` and any sequence of state
flips and `Update` calls, the cached `_cur_position` is
`cur_position.Get(_shape)` with `_shape = shape.Get(P)`; each `Update` on a
toggle whose cached endpoints are the evaluated ones yields this, in the
animated branch and in the branch `scroll_time == 0` alike. -/
theorem C30_blend_commutes_with_Get (t : α) (a b : GUIPosition α) (P : FRect α)
    (s0 : Toggle α) (steps : List ToggleStep) (dT : Nat) :
    (LerpPosition t a b).Get P = LerpPoint t (a.Get P) (b.Get P) ∧
    (LerpClampedPosition t a b).Get P = LerpClampedPoint t (a.Get P) (b.Get P) ∧
    ((s0.SetParentShape P).run steps)._cur_position =
      ((s0.SetParentShape P).run steps).cur_position.Get ((s0.SetParentShape P).run steps)._shape ∧
    ((s0.SetParentShape P).run steps)._shape = s0.shape.Get P ∧
    (s0.Fresh → (s0.Update dT)._cur_position =
      (s0.Update dT).cur_position.Get (s0.Update dT)._shape) := by
  refine ⟨(LerpPosition_Get t a b P).1, (LerpPosition_Get t a b P).2, ?_,
    ((Toggle.run_frame _ steps).2.2.2.2.1).trans (Toggle.SetParentShape_cache s0 P).1,
    fun hf => (Toggle.Update_cached s0 dT hf).2⟩
  have key : ((s0.SetParentShape P).run steps).Fresh ∧
      ((s0.SetParentShape P).run steps)._cur_position =
        ((s0.SetParentShape P).run steps).cur_position.Get
          ((s0.SetParentShape P).run steps)._shape := by
    induction steps using List.reverseRecOn with
    | nil => exact Toggle.SetParentShape_fresh s0 P
    | append_singleton l st ih =>
      rw [Toggle.run_append]
      cases st with
      | flip => exact ih
      | update d => exact Toggle.Update_cached _ d ih.1
  exact key.2

end ToggleInvariants

/-! ## Registries -/

theorem RenderMap.mem_set (m : RenderMap) (k : Int) (v : List Nat) (hs : RenderMap.Sorted m)
    (it : Int × List Nat) :
    it ∈ RenderMap.set m k v ↔ it = (k, v) ∨ (it ∈ m ∧ it.1 ≠ k) := by
  induction m with
  | nil => simp [RenderMap.set]
  | cons hd rest ih =>
    obtain ⟨k2, v2⟩ := hd
    have hs2 := List.pairwise_cons.1 hs
    have hlt : ∀ b ∈ rest, k2 < b.1 := hs2.1
    unfold RenderMap.set
    split_ifs with h1 h2
    · simp only [List.mem_cons]
      constructor
      · rintro (h | h | h)
        · exact Or.inl h
        · right
          refine ⟨Or.inl h, ?_⟩
          rw [h]
          exact ne_of_gt h1
        · exact Or.inr ⟨Or.inr h, ne_of_gt (lt_trans h1 (hlt it h))⟩
      · rintro (h | ⟨h, _⟩)
        · exact Or.inl h
        · exact Or.inr h
    · subst h2
      simp only [List.mem_cons]
      constructor
      · rintro (h | h)
        · exact Or.inl h
        · exact Or.inr ⟨Or.inr h, ne_of_gt (hlt it h)⟩
      · rintro (h | ⟨h | h, hne⟩)
        · exact Or.inl h
        · rw [h] at hne
          exact absurd rfl hne
        · exact Or.inr h
    · simp only [List.mem_cons, ih hs2.2]
      have hk : k2 ≠ k := fun e => h2 e.symm
      constructor
      · rintro (h | h | ⟨h, hne⟩)
        · right
          refine ⟨Or.inl h, ?_⟩
          rw [h]
          exact hk
        · exact Or.inl h
        · exact Or.inr ⟨Or.inr h, hne⟩
      · rintro (h | ⟨h | h, hne⟩)
        · exact Or.inr (Or.inl h)
        · exact Or.inl h
        · exact Or.inr (Or.inr ⟨h, hne⟩)

theorem RenderMap.set_sorted (m : RenderMap) (k : Int) (v : List Nat)
    (hs : RenderMap.Sorted m) : RenderMap.Sorted (RenderMap.set m k v) := by
  induction m with
  | nil => simp [RenderMap.set, RenderMap.Sorted]
  | cons hd rest ih =>
    obtain ⟨k2, v2⟩ := hd
    have hs2 := List.pairwise_cons.1 hs
    have hlt : ∀ b ∈ rest, k2 < b.1 := hs2.1
    unfold RenderMap.set
    split_ifs with h1 h2
    · refine List.pairwise_cons.2 ⟨fun b hb => ?_, hs⟩
      rcases List.mem_cons.1 hb with e | hb2
      · rw [e]
        exact h1
      · exact lt_trans h1 (hlt b hb2)
    · subst h2
      exact List.pairwise_cons.2 ⟨hlt, hs2.2⟩
    · refine List.pairwise_cons.2 ⟨fun b hb => ?_, ih hs2.2⟩
      rcases (RenderMap.mem_set rest k v hs2.2 b).1 hb with e | ⟨hb2, _⟩
      · rw [e]
        exact lt_of_le_of_ne (not_lt.1 h1) (fun e2 => h2 e2.symm)
      · exact hlt b hb2

theorem RenderMap.get_of_mem (m : RenderMap) (k : Int) (v : List Nat)
    (hs : RenderMap.Sorted m) (hm : (k, v) ∈ m) : RenderMap.get m k = v := by
  induction m with
  | nil => exact absurd hm (List.not_mem_nil _)
  | cons hd rest ih =>
    obtain ⟨k2, v2⟩ := hd
    have hs2 := List.pairwise_cons.1 hs
    unfold RenderMap.get
    by_cases hk : k2 = k
    · subst hk
      simp only [List.find?_cons, decide_True]
      rcases List.mem_cons.1 hm with e | hm2
      · exact (Prod.mk.inj e).2.symm
      · exact absurd (hs2.1 _ hm2) (lt_irrefl _)
    · have hm2 : (k, v) ∈ rest := by
        rcases List.mem_cons.1 hm with e | hm2
        · exact absurd (Prod.mk.inj e).1.symm hk
        · exact hm2
      simp only [List.find?_cons, hk, decide_False]
      exact ih hs2.2 hm2

theorem RenderMap.get_absent (m : RenderMap) (k : Int) (ha : ∀ it ∈ m, it.1 ≠ k) :
    RenderMap.get m k = [] := by
  unfold RenderMap.get
  have : m.find? (fun it => decide (it.1 = k)) = none := by
    rw [List.find?_eq_none]
    intro it hit
    simpa using ha it hit
  rw [this]

theorem RenderMap.count_eq_zero (m : RenderMap) (k : Int) :
    RenderMap.count m k = 0 ↔ ∀ it ∈ m, it.1 ≠ k := by
  unfold RenderMap.count
  split_ifs with h
  · simp only [one_ne_zero, false_iff]
    rw [List.any_eq_true] at h
    obtain ⟨it, hit, hk⟩ := h
    exact fun ha => ha it hit (of_decide_eq_true hk)
  · simp only [true_iff]
    intro it hit hk
    apply h
    rw [List.any_eq_true]
    exact ⟨it, hit, decide_eq_true hk⟩

/-- The map after `_Add`: sorted, the bucket of the key has the object appended,
the other buckets are as before. -/
theorem IRenderable._Add_spec (m : RenderMap) (k : Int) (r : Nat) (hs : RenderMap.Sorted m) :
    RenderMap.Sorted (IRenderable._Add m k r) ∧
    ∀ it, it ∈ IRenderable._Add m k r ↔
      it = (k, RenderMap.get m k ++ [r]) ∨ (it ∈ m ∧ it.1 ≠ k) := by
  unfold IRenderable._Add
  by_cases hc : RenderMap.count m k = 0
  · simp only [hc, if_true]
    have hs1 := RenderMap.set_sorted m k [] hs
    have hg1 : RenderMap.get (RenderMap.set m k []) k = [] :=
      RenderMap.get_of_mem _ k [] hs1 ((RenderMap.mem_set m k [] hs _).2 (Or.inl rfl))
    have hg : RenderMap.get m k = [] := RenderMap.get_absent m k ((RenderMap.count_eq_zero m k).1 hc)
    refine ⟨RenderMap.set_sorted _ k _ hs1, fun it => ?_⟩
    rw [RenderMap.mem_set _ k _ hs1, hg1, hg, RenderMap.mem_set m k [] hs]
    constructor
    · rintro (h | ⟨h | h, hne⟩)
      · exact Or.inl h
      · rw [h] at hne
        exact absurd rfl hne
      · exact Or.inr h
    · rintro (h | h)
      · exact Or.inl h
      · exact Or.inr ⟨Or.inr h, h.2⟩
  · simp only [hc, if_false]
    exact ⟨RenderMap.set_sorted m k _ hs, fun it => RenderMap.mem_set m k _ hs it⟩

theorem IRenderable.constructed_fields (order : Nat → Int) (enabled : Nat → Bool) (n : Nat) :
    ∀ r, r < n → (IRenderable.constructed order enabled n)._order r = order r ∧
      (IRenderable.constructed order enabled n)._enabled r = enabled r := by
  induction n with
  | zero => intro r hr; exact absurd hr (Nat.not_lt_zero r)
  | succ n ih =>
    intro r hr
    by_cases e : r = n
    · subst e
      simp [IRenderable.constructed, IRenderable.init]
    · have hr2 : r < n := by omega
      obtain ⟨i1, i2⟩ := ih r hr2
      simp [IRenderable.constructed, IRenderable.init, Function.update, e, i1, i2]

/-- The registry after `n` constructions: the keys ascend, the bucket of a key
lists the objects constructed with that key in construction order, and every
object has its bucket. -/
theorem IRenderable.constructed_registry (order : Nat → Int) (enabled : Nat → Bool) (n : Nat) :
    RenderMap.Sorted (IRenderable.constructed order enabled n)._renderables ∧
    (∀ it ∈ (IRenderable.constructed order enabled n)._renderables,
      it.2 = (List.range n).filter (fun i => decide (order i = it.1))) ∧
    (∀ i, i < n → ∃ it ∈ (IRenderable.constructed order enabled n)._renderables,
      it.1 = order i) := by
  induction n with
  | zero =>
    exact ⟨List.Pairwise.nil, fun it hit => absurd hit (List.not_mem_nil _),
      fun i hi => absurd hi (Nat.not_lt_zero i)⟩
  | succ n ih =>
    obtain ⟨hs, hb, hc⟩ := ih
    have hreg : (IRenderable.constructed order enabled (n + 1))._renderables =
        IRenderable._Add (IRenderable.constructed order enabled n)._renderables (order n) n := by
      simp [IRenderable.constructed, IRenderable.init]
    obtain ⟨a1, a2⟩ := IRenderable._Add_spec _ (order n) n hs
    rw [hreg]
    have hget : RenderMap.get (IRenderable.constructed order enabled n)._renderables (order n) =
        (List.range n).filter (fun i => decide (order i = order n)) := by
      by_cases hp : ∃ it ∈ (IRenderable.constructed order enabled n)._renderables,
          it.1 = order n
      · obtain ⟨⟨k, v⟩, hit, hk⟩ := hp
        simp only at hk
        subst hk
        rw [RenderMap.get_of_mem _ _ v hs hit]
        exact hb _ hit
      · have hab : ∀ it ∈ (IRenderable.constructed order enabled n)._renderables,
            it.1 ≠ order n := fun it hit e => hp ⟨it, hit, e⟩
        rw [RenderMap.get_absent _ _ hab]
        symm
        rw [List.filter_eq_nil_iff]
        intro i hi hd
        obtain ⟨it, hit, hk⟩ := hc i (List.mem_range.1 hi)
        exact hab it hit (hk.trans (of_decide_eq_true hd))
    refine ⟨a1, fun it hit => ?_, fun i hi => ?_⟩
    · rcases (a2 it).1 hit with e | ⟨hm, hne⟩
      · rw [e, hget, List.range_succ, List.filter_append]
        simp
      · rw [hb it hm, List.range_succ, List.filter_append]
        have : decide (order n = it.1) = false := decide_eq_false (fun e => hne e.symm)
        simp [this]
    · by_cases e : order i = order n
      · exact ⟨_, (a2 _).2 (Or.inl rfl), e.symm⟩
      · have hi2 : i < n := by
          rcases Nat.lt_succ_iff_lt_or_eq.1 hi with h | h
          · exact h
          · rw [h] at e
            exact absurd rfl e
        obtain ⟨it, hit, hk⟩ := hc i hi2
        exact ⟨it, (a2 it).2 (Or.inr ⟨hit, by rw [hk]; exact e⟩), hk⟩

/-- C25: the render pass after any constructions.  The renderables
`0, ..., n - 1` are constructed in this order with arbitrary order keys and
flags; `en` are the flags in force at the time of the pass (as constructed, or
changed by `SetEnable`).  `RenderAllGUI` calls `RenderGUI` exactly once on each
enabled renderable and never on a disabled one; the calls are in ascending
order key and, for equal keys, in construction order.  Hence a renderable with
a smaller key is drawn before one with a larger key, whichever was constructed
first. -/
theorem C25_render_pass_order (order : Nat → Int) (enabled : Nat → Bool) (n : Nat)
    (en : Nat → Bool) :
    (∀ r, r < n → (IRenderable.constructed order enabled n)._order r = order r ∧
      (IRenderable.constructed order enabled n)._enabled r = enabled r) ∧
    (IRenderable.RenderAllGUI
      { IRenderable.constructed order enabled n with _enabled := en }).Nodup ∧
    (∀ r, r ∈ IRenderable.RenderAllGUI
        { IRenderable.constructed order enabled n with _enabled := en } ↔
      r < n ∧ en r = true) ∧
    (IRenderable.RenderAllGUI
      { IRenderable.constructed order enabled n with _enabled := en }).Pairwise
        (fun a b => order a < order b ∨ (order a = order b ∧ a < b)) ∧
    (∀ a b, a < n → b < n → en a = true → en b = true → order a < order b →
      ∃ l1 l2 l3, IRenderable.RenderAllGUI
        { IRenderable.constructed order enabled n with _enabled := en } =
          l1 ++ a :: l2 ++ b :: l3) := by
  obtain ⟨hs, hb, hc⟩ := IRenderable.constructed_registry order enabled n
  have hmem : ∀ r, r ∈ IRenderable.RenderAllGUI
      { IRenderable.constructed order enabled n with _enabled := en } ↔
      r < n ∧ en r = true := by
    intro r
    simp only [IRenderable.RenderAllGUI, List.mem_flatten, List.mem_map]
    constructor
    · rintro ⟨l, ⟨it, hit, rfl⟩, hr⟩
      rw [hb it hit] at hr
      obtain ⟨hr1, hr2⟩ := List.mem_filter.1 hr
      exact ⟨List.mem_range.1 (List.mem_filter.1 hr1).1, hr2⟩
    · rintro ⟨hr, he⟩
      obtain ⟨it, hit, hk⟩ := hc r hr
      refine ⟨_, ⟨it, hit, rfl⟩, List.mem_filter.2 ⟨?_, he⟩⟩
      rw [hb it hit]
      exact List.mem_filter.2 ⟨List.mem_range.2 hr, decide_eq_true hk.symm⟩
  have hpw : (IRenderable.RenderAllGUI
      { IRenderable.constructed order enabled n with _enabled := en }).Pairwise
        (fun a b => order a < order b ∨ (order a = order b ∧ a < b)) := by
    simp only [IRenderable.RenderAllGUI]
    rw [List.pairwise_flatten]
    refine ⟨fun l hl => ?_, ?_⟩
    · obtain ⟨it, hit, rfl⟩ := List.mem_map.1 hl
      rw [hb it hit]
      have hlt : ((List.range n).filter (fun i => decide (order i = it.1))).Pairwise (· < ·) :=
        (List.pairwise_lt_range n).filter _
      refine ((hlt.filter (fun r => en r)).imp_of_mem ?_)
      intro a b ha hb2 hab
      have ka := of_decide_eq_true (List.mem_filter.1 (List.mem_filter.1 ha).1).2
      have kb := of_decide_eq_true (List.mem_filter.1 (List.mem_filter.1 hb2).1).2
      exact Or.inr ⟨ka.trans kb.symm, hab⟩
    · rw [List.pairwise_map]
      refine hs.imp_of_mem ?_
      intro it1 it2 h1 h2 hlt a ha b hb2
      rw [hb it1 h1] at ha
      rw [hb it2 h2] at hb2
      have ka := of_decide_eq_true (List.mem_filter.1 (List.mem_filter.1 ha).1).2
      have kb := of_decide_eq_true (List.mem_filter.1 (List.mem_filter.1 hb2).1).2
      left
      rw [ka, kb]
      exact hlt
  refine ⟨IRenderable.constructed_fields order enabled n, ?_, hmem, hpw, ?_⟩
  · refine hpw.imp ?_
    rintro a b (h | ⟨_, h⟩) e
    · rw [e] at h
      exact lt_irrefl _ h
    · rw [e] at h
      exact lt_irrefl _ h
  · intro a b ha hb2 ea eb hab
    obtain ⟨s, t, hst⟩ := List.append_of_mem ((hmem a).2 ⟨ha, ea⟩)
    have hbm := (hmem b).2 ⟨hb2, eb⟩
    rw [hst] at hbm hpw
    have hne : b ≠ a := by
      intro e
      rw [e] at hab
      exact lt_irrefl _ hab
    obtain ⟨_, _, hcross⟩ := List.pairwise_append.1 hpw
    rcases List.mem_append.1 hbm with h | h
    · rcases hcross b h a (List.mem_cons_self a t) with h2 | ⟨h2, _⟩
      · exact absurd (lt_trans h2 hab) (lt_irrefl _)
      · rw [h2] at hab
        exact absurd hab (lt_irrefl _)
    · rcases List.mem_cons.1 h with h | h
      · exact absurd h hne
      · obtain ⟨l2, l3, e⟩ := List.append_of_mem h
        refine ⟨s, l2, l3, ?_⟩
        rw [hst, e]
        simp

/-- The algorithm `std::remove` never changes the length of the vector. -/
theorem stdRemove_length (v : List Nat) (x : Nat) : (stdRemove v x).length = v.length := by
  unfold stdRemove
  rw [List.length_append, List.length_drop]
  have := List.length_filter_le (fun y => decide (y ≠ x)) v
  omega

/-- The object stays in the vector when it is the last entry. -/
theorem stdRemove_last (v : List Nat) (x : Nat) (hx : x ∉ v) : stdRemove (v ++ [x]) x = v ++ [x] := by
  unfold stdRemove
  have hf : (v ++ [x]).filter (fun y => decide (y ≠ x)) = v := by
    rw [List.filter_append]
    have h1 : v.filter (fun y => decide (y ≠ x)) = v := by
      rw [List.filter_eq_self]
      intro a ha
      exact decide_eq_true (fun e => hx (e ▸ ha))
    rw [h1]
    simp
  rw [hf, List.drop_left]

theorem RenderMap.entries_set (m : RenderMap) (k : Int) (v : List Nat)
    (hs : RenderMap.Sorted m) :
    RenderMap.entries (RenderMap.set m k v) + (RenderMap.get m k).length =
      RenderMap.entries m + v.length := by
  induction m with
  | nil => simp [RenderMap.set, RenderMap.entries, RenderMap.get]
  | cons hd rest ih =>
    obtain ⟨k2, v2⟩ := hd
    have hs2 := List.pairwise_cons.1 hs
    have hlt : ∀ b ∈ rest, k2 < b.1 := hs2.1
    unfold RenderMap.set
    split_ifs with h1 h2
    · have hab : ∀ it ∈ (k2, v2) :: rest, it.1 ≠ k := by
        intro it hit
        rcases List.mem_cons.1 hit with e | h
        · rw [e]
          exact ne_of_gt h1
        · exact ne_of_gt (lt_trans h1 (hlt it h))
      rw [RenderMap.get_absent _ k hab]
      simp [RenderMap.entries]
      omega
    · subst h2
      rw [RenderMap.get_of_mem _ k v2 hs (List.mem_cons_self _ _)]
      simp [RenderMap.entries]
      omega
    · have hk : ¬ k2 = k := fun e => h2 e.symm
      have hg : RenderMap.get ((k2, v2) :: rest) k = RenderMap.get rest k := by
        simp [RenderMap.get, List.find?_cons, hk]
      have := ih hs2.2
      rw [hg]
      simp only [RenderMap.entries, List.map_cons, List.sum_cons] at this ⊢
      omega

/-- In every registry, `_Remove` leaves the number of entries unchanged and
`_Add` adds one, so each `SetOrder` makes the registry one entry longer. -/
theorem IRenderable.SetOrder_entries (w : Renderables) (r : Nat) (k : Int)
    (hs : RenderMap.Sorted w._renderables) :
    RenderMap.entries (IRenderable._Remove w._renderables (w._order r) r) =
      RenderMap.entries w._renderables ∧
    RenderMap.entries (IRenderable.SetOrder w r k)._renderables =
      RenderMap.entries w._renderables + 1 := by
  have touch : ∀ (m : RenderMap) (k : Int), RenderMap.Sorted m →
      RenderMap.Sorted (if RenderMap.count m k = 0 then RenderMap.set m k [] else m) ∧
      RenderMap.entries (if RenderMap.count m k = 0 then RenderMap.set m k [] else m) =
        RenderMap.entries m := by
    intro m k hm
    split_ifs with hc
    · refine ⟨RenderMap.set_sorted m k [] hm, ?_⟩
      have := RenderMap.entries_set m k [] hm
      rw [RenderMap.get_absent m k ((RenderMap.count_eq_zero m k).1 hc)] at this
      simpa using this
    · exact ⟨hm, rfl⟩
  have hrem : ∀ (m : RenderMap) (k : Int) (r : Nat), RenderMap.Sorted m →
      RenderMap.Sorted (IRenderable._Remove m k r) ∧
      RenderMap.entries (IRenderable._Remove m k r) = RenderMap.entries m := by
    intro m k r hm
    obtain ⟨t1, t2⟩ := touch m k hm
    unfold IRenderable._Remove
    refine ⟨RenderMap.set_sorted _ k _ t1, ?_⟩
    have := RenderMap.entries_set _ k (stdRemove (RenderMap.get
      (if RenderMap.count m k = 0 then RenderMap.set m k [] else m) k) r) t1
    rw [stdRemove_length] at this
    simp only at this ⊢
    omega
  have hadd : ∀ (m : RenderMap) (k : Int) (r : Nat), RenderMap.Sorted m →
      RenderMap.entries (IRenderable._Add m k r) = RenderMap.entries m + 1 := by
    intro m k r hm
    obtain ⟨t1, t2⟩ := touch m k hm
    unfold IRenderable._Add
    have := RenderMap.entries_set _ k (RenderMap.get
      (if RenderMap.count m k = 0 then RenderMap.set m k [] else m) k ++ [r]) t1
    rw [List.length_append] at this
    simp only [List.length_singleton] at this ⊢
    omega
  obtain ⟨r1, r2⟩ := hrem w._renderables (w._order r) r hs
  refine ⟨r2, ?_⟩
  have e : (IRenderable.SetOrder w r k)._renderables =
      IRenderable._Add (IRenderable._Remove w._renderables (w._order r) r) k r := by
    simp [IRenderable.SetOrder]
  rw [e, hadd _ k r r1, r2]

/-- C26 (the code departs from the claim): `SetOrder` removes the object with
`_Remove`, which calls `std::remove` and discards the result, so the old bucket
keeps its length.  One renderable, object 0, registered with key 0: after
`SetOrder(1)` it is in bucket 1 and still in bucket 0, and `RenderAllGUI` calls
its `RenderGUI` twice; after `SetOrder(0)` bucket 0 holds it twice.  With a
second renderable, object 1, behind it in bucket 0, `SetOrder(1)` on object 0
leaves object 1 twice in bucket 0. -/
theorem C26_SetOrder_keeps_old_entry :
    oneRenderable._renderables = [(0, [0])] ∧
    (IRenderable.SetOrder oneRenderable 0 1)._renderables = [(0, [0]), (1, [0])] ∧
    IRenderable.RenderAllGUI (IRenderable.SetOrder oneRenderable 0 1) = [0, 0] ∧
    (IRenderable.SetOrder oneRenderable 0 0)._renderables = [(0, [0, 0])] ∧
    twoRenderables._renderables = [(0, [0, 1])] ∧
    (IRenderable.SetOrder twoRenderables 0 1)._renderables = [(0, [1, 1]), (1, [0])] ∧
    IRenderable.RenderAllGUI (IRenderable.SetOrder twoRenderables 0 1) = [1, 1, 0] := by
  decide

/-- C27 (the code departs from the claim): the destructors deregister with
`_Remove`, which calls `std::remove` and discards the result; `std::remove` never
shortens the vector.  After the only renderable of a bucket is destroyed the
bucket still holds it and `RenderAllGUI` visits it; after the first of two
renderables of a bucket is destroyed the bucket holds the other one twice.  The
update registry behaves in the same way. -/
theorem C27_destroyed_object_stays_registered :
    (∀ v x, (stdRemove v x).length = v.length) ∧
    (IRenderable.destroy oneRenderable 0)._renderables = [(0, [0])] ∧
    IRenderable.RenderAllGUI (IRenderable.destroy oneRenderable 0) = [0] ∧
    (IRenderable.destroy twoRenderables 0)._renderables = [(0, [1, 1])] ∧
    IRenderable.RenderAllGUI (IRenderable.destroy twoRenderables 0) = [1, 1] ∧
    oneUpdateable._updateables = [0] ∧
    (IUpdateable.destroy oneUpdateable 0)._updateables = [0] ∧
    IUpdateable.UpdateAll (IUpdateable.destroy oneUpdateable 0) = [0] ∧
    (IUpdateable.destroy (IUpdateable.init oneUpdateable 1) 0)._updateables = [1, 1] := by
  refine ⟨stdRemove_length, ?_⟩
  decide

/-! ## The template `Groupable<T>` -/

theorem groupable_deleteLoop_eq (rec1 rec2 : Heap → Option Nat → Option (Except Fault Heap))
    (hrec : ∀ h r, rec1 h r = rec2 h r) (root : Nat) :
    ∀ num h, Groupable.deleteLoop IContainer.primitives rec1 root num h =
      deleteLoop rec2 root num h := by
  intro num
  induction num with
  | zero => intro h; rfl
  | succ num ih =>
    intro h
    have e1 : Groupable.GetChild IContainer.primitives h root num = GetChild h root num := rfl
    have e2 : Groupable.RemoveChildAt IContainer.primitives h root num =
        RemoveChildAt h root num := rfl
    simp only [Groupable.deleteLoop, deleteLoop, e1, e2]
    cases GetChild h root num with
    | error e => rfl
    | ok child =>
      cases RemoveChildAt h root num with
      | error e => rfl
      | ok h1 =>
        have e3 : IContainer.primitives.NumChildren h1 root = NumChildren h1 root := rfl
        simp only [e3, hrec]
        split_ifs with hn
        · rfl
        · cases rec2 h1 (some child) with
          | none => rfl
          | some x =>
            cases x with
            | error e => rfl
            | ok h2 => exact ih h2

/-- C29: `Groupable<T>` and `IContainer` implement the same protocol.  With the
primitives `_AddChild`, `_RemoveChild`, `_ClearChildren`, `_GetChild` and the
members `NumChildren`, `ChildPosition` of the container types, the methods
`AddChild`, `GetChild`, `RemoveChild(child)`, `RemoveChild(index)`,
`ClearChildren` and `DeleteTree` of `Groupable<T>` return on every store and
every argument what the methods of `IContainer` return: the same value, the same
final store, the same assertion failure.  The default bodies of the primitives
in `Groupable<T>` are those of an object without child storage. -/
theorem C29_Groupable_refines_IContainer :
    (∀ h self child, Groupable.AddChild IContainer.primitives h self child =
      AddChild h self child) ∧
    (∀ h self index, Groupable.GetChild IContainer.primitives h self index =
      GetChild h self index) ∧
    (∀ h self child, Groupable.RemoveChild IContainer.primitives h self child =
      RemoveChild h self child) ∧
    (∀ h self index, Groupable.RemoveChildAt IContainer.primitives h self index =
      RemoveChildAt h self index) ∧
    (∀ h self, Groupable.ClearChildren IContainer.primitives h self = ClearChildren h self) ∧
    (∀ fuel h root, Groupable.DeleteTree IContainer.primitives fuel h root =
      DeleteTree fuel h root) ∧
    (∀ h self child index, h.store self = Store.leaf →
      Groupable.defaults._AddChild h self child = _AddChild h self child ∧
      Groupable.defaults._RemoveChild h self index = _RemoveChild h self index ∧
      Groupable.defaults._ClearChildren h self = _ClearChildren h self ∧
      Groupable.defaults._GetChild h self index = _GetChild h self index ∧
      Groupable.defaults.NumChildren h self = NumChildren h self ∧
      ∀ c, Groupable.defaults.ChildPosition h self c = ChildPosition h self c) := by
  refine ⟨fun h self child => ?_, fun _ _ _ => rfl, fun _ _ _ => rfl, fun _ _ _ => rfl,
    fun _ _ => rfl, fun fuel => ?_, fun h self child index hst => ?_⟩
  · cases child with
    | none => rfl
    | some c =>
      rfl
  · induction fuel with
    | zero =>
      intro h root
      cases root <;> rfl
    | succ fuel ih =>
      intro h root
      cases root with
      | none => rfl
      | some r =>
        simp only [Groupable.DeleteTree, DeleteTree]
        exact groupable_deleteLoop_eq _ _ ih r _ h
  · simp [Groupable.defaults, _AddChild, _RemoveChild, _ClearChildren, _GetChild, NumChildren,
      ChildPosition, hst]

/-! ## Subtree size and the depth of the teardown -/

theorem mem_subtree (h : Heap) (hw : WF h) (hc : NoCycle h) (r n : Nat) :
    n ∈ subtree h r ↔ n < h.length ∧ InSubtree h r n := by
  unfold subtree
  rw [List.mem_filter, List.mem_range, List.any_eq_true]
  constructor
  · rintro ⟨hn, k, _, hk⟩
    exact ⟨hn, k, of_decide_eq_true hk⟩
  · rintro ⟨hn, k, hk⟩
    have hle : k ≤ h.length := ChainsEnd.heightLE h (NoCycle.chainsEnd h hw hc) r n k hk
    exact ⟨hn, k, List.mem_range.2 (Nat.lt_succ_of_le hle), decide_eq_true hk⟩

theorem subtree_nodup (h : Heap) (r : Nat) : (subtree h r).Nodup :=
  (List.nodup_range h.length).filter _

/-- In a forest, a chain of `k` parent links up to `r` passes through `k + 1`
distinct objects of the subtree of `r`. -/
theorem chain_le_subtreeSize (h : Heap) (hw : WF h) (hc : NoCycle h) (r : Nat)
    (hr : r < h.length) (n k : Nat) (hk : climb h.parent k n = some r) :
    k + 1 ≤ subtreeSize h r := by
  have hn : n < h.length := by
    by_contra hge
    cases k with
    | zero =>
      have e : n = r := Option.some.inj hk
      rw [e] at hge
      exact hge hr
    | succ k =>
      have hp : h.parent n = none := Heap.parent_of_ge h n (not_lt.1 hge)
      simp [climb, hp] at hk
  have hsome : ∀ j, j ≤ k → ∃ m, climb h.parent j n = some m ∧
      climb h.parent (k - j) m = some r := by
    intro j hj
    obtain ⟨m, hm⟩ := climb_prefix h.parent j k n r hj hk
    refine ⟨m, hm, ?_⟩
    have e : k = j + (k - j) := by omega
    rw [e, climb_add, hm] at hk
    exact hk
  have hinj : ∀ i j, i < j → j ≤ k → climb h.parent i n ≠ climb h.parent j n := by
    intro i j hij hj e
    obtain ⟨a, ha, _⟩ := hsome i (by omega)
    have e2 : j = i + ((j - i - 1) + 1) := by omega
    rw [e2, climb_add, ha] at e
    exact hc a (j - i - 1) e.symm
  have hnd : ((List.range (k + 1)).map (fun j => (climb h.parent j n).getD 0)).Nodup := by
    refine List.Nodup.map_on ?_ (List.nodup_range (k + 1))
    intro i hi j hj e
    have hi2 : i ≤ k := Nat.lt_succ_iff.1 (List.mem_range.1 hi)
    have hj2 : j ≤ k := Nat.lt_succ_iff.1 (List.mem_range.1 hj)
    obtain ⟨a, ha, _⟩ := hsome i hi2
    obtain ⟨b, hb, _⟩ := hsome j hj2
    rw [ha, hb] at e
    simp only [Option.getD_some] at e
    have hab : climb h.parent i n = climb h.parent j n := by rw [ha, hb, e]
    rcases Nat.lt_trichotomy i j with h1 | h1 | h1
    · exact absurd hab (hinj i j h1 hj2)
    · exact h1
    · exact absurd hab.symm (hinj j i h1 hi2)
  have hsub : (List.range (k + 1)).map (fun j => (climb h.parent j n).getD 0) ⊆ subtree h r := by
    intro m hm
    obtain ⟨j, hj, rfl⟩ := List.mem_map.1 hm
    have hj2 : j ≤ k := Nat.lt_succ_iff.1 (List.mem_range.1 hj)
    obtain ⟨a, ha, ha2⟩ := hsome j hj2
    rw [ha]
    simp only [Option.getD_some]
    exact (mem_subtree h hw hc r a).2 ⟨WF.climb_lt h hw j n a hn ha, k - j, ha2⟩
  have := (List.subperm_of_subset hnd hsub).length_le
  rw [List.length_map, List.length_range] at this
  exact this

/-- Detaching a child leaves it a subtree that is strictly smaller than the
subtree of its former parent. -/
theorem subtreeSize_child_lt (h h1 : Heap) (hw : WF h) (hc : NoCycle h) (root num child : Nat)
    (hg : GetChild h root num = Except.ok child)
    (hr : RemoveChildAt h root num = Except.ok h1) :
    child < h1.length ∧ subtreeSize h1 child < subtreeSize h root := by
  obtain ⟨_, _, _, hpar⟩ := (GetChild_ok_iff h root num child).1 hg
  obtain ⟨h2, e1, elen, epar, _⟩ := RemoveChildAt_ok h root num child hw hg
  rw [hr] at e1
  have e : h1 = h2 := Except.ok.inj e1
  subst e
  have hroot : root < h.length := WF.parent_lt h hw child root hpar
  have hprune : ∀ n, h1.parent n = h.parent n ∨ h1.parent n = none := by
    intro n
    rw [epar]
    by_cases hn : n = child <;> simp [hn]
  have hsub : subtree h1 child ⊆ (subtree h root).erase root := by
    intro n hn
    unfold subtree at hn
    rw [List.mem_filter, List.mem_range, List.any_eq_true] at hn
    obtain ⟨hlt, k, _, hk⟩ := hn
    have hk2 := climb_of_pruned h.parent h1.parent hprune k n child (of_decide_eq_true hk)
    have hne : n ≠ root := by
      intro e
      rw [e] at hk2
      exact hc root k (climb_extend h.parent k root child root hk2 hpar)
    rw [List.mem_erase_of_ne hne]
    exact (mem_subtree h hw hc root n).2
      ⟨by rw [← elen]; exact hlt, k + 1, climb_extend h.parent k n child root hk2 hpar⟩
  have hmem : root ∈ subtree h root := (mem_subtree h hw hc root root).2 ⟨hroot, 0, rfl⟩
  have hle := (List.subperm_of_subset (subtree_nodup h1 child) hsub).length_le
  rw [List.length_erase_of_mem hmem] at hle
  have hpos : 0 < (subtree h root).length := List.length_pos_of_mem hmem
  refine ⟨by rw [elen]; exact Heap.lt_of_parent h child root hpar, ?_⟩
  unfold subtreeSize
  omega

/-- C28: `DeleteTree` terminates without an assertion failure.  In a consistent
store without parent cycles, for a live object `root`: the call returns
normally whenever the nesting depth allowed is at least the number of objects
in the subtree of `root`, always with the same final store, which is again
consistent and without cycles; with a smaller bound the model stops at the
bound, and no bound makes an assertion of `GetChild`, `RemoveChild(index)` or
`root->NumChildren() == num` fail.  Each loop step detaches a child whose
subtree, in the store passed to the recursive call, is strictly smaller than the
subtree of `root`, and that store is again consistent and without cycles. -/
theorem C28_DeleteTree_terminates (h : Heap) (root : Nat) (hw : WF h) (hc : NoCycle h)
    (hr : root < h.length) :
    (∃ h2, (∀ fuel, subtreeSize h root ≤ fuel →
        DeleteTree fuel h (some root) = some (Except.ok h2)) ∧ WF h2 ∧ NoCycle h2) ∧
    (∀ fuel e, DeleteTree fuel h (some root) ≠ some (Except.error e)) ∧
    (∀ num child h1, GetChild h root num = Except.ok child →
      RemoveChildAt h root num = Except.ok h1 →
      WF h1 ∧ NoCycle h1 ∧ child < h1.length ∧ subtreeSize h1 child < subtreeSize h root) := by
  have hpos : 1 ≤ subtreeSize h root := chain_le_subtreeSize h hw hc root hr root 0 rfl
  have hH : HeightLE h root (subtreeSize h root - 1) := by
    intro n k hk
    have := chain_le_subtreeSize h hw hc root hr n k hk
    omega
  obtain ⟨h2, e1, ht⟩ := DeleteTree_spec (subtreeSize h root - 1) h root hw hc hH
  have e1b : DeleteTree (subtreeSize h root) h (some root) = some (Except.ok h2) := by
    have e : subtreeSize h root - 1 + 1 = subtreeSize h root := by omega
    rw [e] at e1
    exact e1
  refine ⟨⟨h2, fun fuel hf => DeleteTree_mono _ fuel hf h _ _ e1b, ht.2.1, ?_⟩,
    fun fuel e he => ?_, fun num child h1 hg hrm => ?_⟩
  · exact noCycle_prune h.parent h2.parent hc (TornDown.pruned h h2 root ht)
  · have m1 := DeleteTree_mono fuel (max fuel (subtreeSize h root)) (le_max_left _ _) h _ _ he
    have m2 := DeleteTree_mono _ (max fuel (subtreeSize h root)) (le_max_right _ _) h _ _ e1b
    rw [m1] at m2
    cases Option.some.inj m2
  · obtain ⟨s1, s2⟩ := subtreeSize_child_lt h h1 hw hc root num child hg hrm
    exact ⟨RemoveChildAt_WF h h1 root num hw hrm, RemoveChildAt_noCycle h h1 root num hw hc hrm,
      s1, s2⟩

theorem C28_DeleteTree_terminates_witness :
    subtreeSize deepTree 0 = 6 ∧
    DeleteTree 6 deepTree (some 0) = some (Except.ok deepTreeTorn) ∧
    WF deepTreeTorn ∧
    (WF threeKidsCut ∧ subtreeSize threeKidsCut 2 < subtreeSize threeKids 0) := by
  obtain ⟨⟨h2, e1, hw2, _⟩, _, _⟩ :=
    C28_DeleteTree_terminates deepTree 0 (by decide) (ChainsEnd.noCycle deepTree (by decide))
      (by decide)
  have e := e1 6 (by decide)
  have e0 : DeleteTree 6 deepTree (some 0) = some (Except.ok deepTreeTorn) := rfl
  rw [e0] at e
  injection e with e
  injection e with e
  subst e
  exact ⟨by decide, e0, hw2, by decide, by decide⟩



/-! ## Drag state, `IntSlider::GetValueNorm` and `Clamp` -/

section SliderSync

variable {α : Type} [LinearOrderedField α] {V : Type}

/-- The method `Dragger::Notify` neither reads nor writes `is_clicked`. -/
theorem Slider.Motion_of_is_clicked (mag : FPoint α → α) (lerp : α → V → V → V)
    (s : Slider α V) (b : Bool) (x y : ℤ) :
    ({ s with is_clicked := b } : Slider α V).Motion mag lerp x y =
      { s.Motion mag lerp x y with is_clicked := b } := by
  simp only [Slider.Motion, Slider.SetFromPosition, Slider.SetFromNorm, Slider.passToHandle_eq]
  split_ifs <;> rfl

/-- A press of the slider's button on the handle. -/
theorem Slider.Notify_grab (mag : FPoint α → α) (lerp : α → V → V → V)
    (release : Slider α V → Slider α V) (s : Slider α V) (press : ButtonEvent)
    (hb : press.button = s.button) (hdown : press.released = false)
    (hgrab : (s._handle_shape + s._cur_position).contains (pixel press.x press.y) = true) :
    s.Notify mag lerp release press =
      { s with
        is_clicked := true
        click_relative := (s._handle_shape + s._cur_position).pointToNorm (pixel press.x press.y)
        motion_registered := true } := by
  simp [Slider.Notify, hb, hdown, hgrab, Slider.OnClick]

/-- A press of the slider's button that hits neither the handle nor, with
click-warp, the track: `is_clicked` becomes false and nothing else changes; in
particular `Dragger::OnRelease` is not called. -/
theorem Slider.Notify_miss (mag : FPoint α → α) (lerp : α → V → V → V)
    (release : Slider α V → Slider α V) (s : Slider α V) (e : ButtonEvent)
    (hb : e.button = s.button) (hdown : e.released = false)
    (hout : (s._handle_shape + s._cur_position).contains (pixel e.x e.y) = false)
    (hw : s.click_warp = false ∨ s._slider_area.contains (pixel e.x e.y) = false) :
    s.Notify mag lerp release e = { s with is_clicked := false } := by
  cases hcw : s.click_warp with
  | false => simp [Slider.Notify, hb, hdown, hout, hcw]
  | true =>
    have ha : s._slider_area.contains (pixel e.x e.y) = false := by
      rcases hw with h | h
      · rw [hcw] at h
        exact absurd h (by decide)
      · exact h
    simp [Slider.Notify, hb, hdown, hout, hcw, ha]

/-- The subscription of the dragger follows `is_clicked` across a release, and
across a press that reaches a slider which is not clicked. -/
theorem Slider.Notify_sync (mag : FPoint α → α) (lerp : α → V → V → V)
    (release : Slider α V → Slider α V) (s : Slider α V) (e : ButtonEvent)
    (hrel : ∀ t : Slider α V, (release t).is_clicked = t.is_clicked ∧
      (release t).motion_registered = false)
    (hsync : s.motion_registered = s.is_clicked)
    (hok : e.released = true ∨ s.is_clicked = false) :
    (s.Notify mag lerp release e).motion_registered =
      (s.Notify mag lerp release e).is_clicked := by
  by_cases hb : e.button = s.button
  · cases hr : e.released with
    | true =>
      cases hc : s.is_clicked with
      | true =>
        have e1 : s.Notify mag lerp release e = release { s with is_clicked := false } := by
          simp [Slider.Notify, hb, hr, hc]
        rw [e1, (hrel _).1, (hrel _).2]
      | false =>
        have e1 : s.Notify mag lerp release e = s := by
          simp [Slider.Notify, hb, hr, hc]
        rw [e1, hsync]
    | false =>
      have hidle : s.is_clicked = false := by
        rcases hok with h | h
        · rw [hr] at h
          exact absurd h (by decide)
        · exact h
      have hreg : s.motion_registered = false := hsync.trans hidle
      cases hg : (s._handle_shape + s._cur_position).contains (pixel e.x e.y) with
      | true =>
        rw [Slider.Notify_grab mag lerp release s e hb hr hg]
      | false =>
        by_cases hw : s.click_warp = false ∨ s._slider_area.contains (pixel e.x e.y) = false
        · rw [Slider.Notify_miss mag lerp release s e hb hr hg hw]
          exact hreg
        · have hcw : s.click_warp = true := by
            cases h : s.click_warp with
            | true => rfl
            | false => exact absurd (Or.inl h) hw
          have ha : s._slider_area.contains (pixel e.x e.y) = true := by
            cases h : s._slider_area.contains (pixel e.x e.y) with
            | true => rfl
            | false => exact absurd (Or.inr h) hw
          simp [Slider.Notify, hb, hr, hg, hcw, ha, Slider.OnClick, Slider.SetFromNorm,
            Slider.passToHandle_eq]
  · have e1 : s.Notify mag lerp release e = s := by
      simp [Slider.Notify, hb]
    rw [e1, hsync]

end SliderSync

/-- C31 (the code departs from the claim): a second button-down without a release
in between.  The slider of the spec's test is laid out and pressed on its
handle at (45,10): `is_clicked` is true and the dragger is subscribed.  A second
press of the same button at (80,50), off the handle and off the track, assigns
`is_clicked = false` and returns without `Dragger::OnRelease`: the dragger is
still subscribed, and a pointer motion to (100,10) changes `cur_value` from 1/2
to 1 while `is_clicked` is false. -/
theorem C31_second_press_keeps_dragger :
    demoSliderShaped.is_clicked = false ∧ demoSliderShaped.motion_registered = false ∧
    demoSliderGrabbed.is_clicked = true ∧ demoSliderGrabbed.motion_registered = true ∧
    demoSliderPressedAgain.is_clicked = false ∧
    demoSliderPressedAgain.motion_registered = true ∧
    demoSliderPressedAgain.cur_value = 1 / 2 ∧
    (FloatSlider.Motion horizontalMag demoSliderPressedAgain 100 10).is_clicked = false ∧
    (FloatSlider.Motion horizontalMag demoSliderPressedAgain 100 10).cur_value = 1 := by
  obtain ⟨_, c2, c3, _⟩ := demoSliderShaped_cache
  obtain ⟨h1, _, _, h4, _, h6⟩ := demoSliderShaped_hits
  have hg : demoSliderGrabbed =
      { demoSliderShaped with
        is_clicked := true
        click_relative := (demoSliderShaped._handle_shape + demoSliderShaped._cur_position).pointToNorm
          (pixel 45 10)
        motion_registered := true } :=
    Slider.Notify_grab horizontalMag Lerp FloatSlider.OnRelease demoSliderShaped
      ⟨1, false, 45, 10⟩ rfl rfl h1
  have hp : demoSliderPressedAgain = { demoSliderGrabbed with is_clicked := false } := by
    refine Slider.Notify_miss horizontalMag Lerp FloatSlider.OnRelease demoSliderGrabbed
      ⟨1, false, 80, 50⟩ ?_ rfl ?_ (Or.inr ?_)
    · rw [hg]
      rfl
    · rw [hg]
      exact h4
    · rw [hg]
      exact h6
  have hpx : (pixel 100 10 : FPoint ℚ) = demoSliderShaped._max_position := by
    rw [c2]
    norm_num [pixel]
  have hw : (demoSlider.shape.Get demoParent).size.x ≠ 0 := by
    norm_num [demoSlider, demoParent, GUIRect.Get, GUISize.Get]
  obtain ⟨r1, _⟩ := FloatSlider.drag_to_max horizontalMag demoSlider demoParent
    ⟨1, false, 45, 10⟩ 100 10 rfl rfl rfl rfl hw demoSliderShaped_mag rfl rfl h1 hpx
  have hc : clamp (1 - (((45 : ℤ) : ℚ) - (demoSlider.SetParentShape demoParent)._cur_position.x) /
      (demoSlider.shape.Get demoParent).size.x) 0 1 = 1 := by
    have c3b : (demoSlider.SetParentShape demoParent)._cur_position = ⟨50, 10⟩ := c3
    rw [c3b]
    norm_num [clamp, demoSlider, demoParent, GUIRect.Get, GUISize.Get]
  rw [hc] at r1
  have r1b : (FloatSlider.Motion horizontalMag demoSliderGrabbed 100 10).cur_value = 1 := r1
  have hm : FloatSlider.Motion horizontalMag demoSliderPressedAgain 100 10 =
      { FloatSlider.Motion horizontalMag demoSliderGrabbed 100 10 with is_clicked := false } := by
    rw [hp]
    exact Slider.Motion_of_is_clicked horizontalMag Lerp demoSliderGrabbed false 100 10
  refine ⟨rfl, rfl, by rw [hg], by rw [hg], by rw [hp], ?_, ?_, by rw [hm], ?_⟩
  · rw [hp, hg]
  · rw [hp, hg]
    rfl
  · rw [hm]
    exact r1b

section GetValueNormFacts

variable {α : Type} [LinearOrderedField α]

/-- The method `IntSlider::GetValueNorm` returns 0 for every value below
`max_value` (and 1 at `max_value`), when the range fits `int`. -/
theorem IntSlider.GetValueNorm_truncates (s : Slider α ℤ) (hlo : s.min_value ≤ s.cur_value)
    (hfit : s.max_value - s.min_value < 2 ^ 31) :
    (s.cur_value < s.max_value → IntSlider.GetValueNorm s = 0) ∧
    (s.cur_value = s.max_value → s.min_value < s.max_value → IntSlider.GetValueNorm s = 1) := by
  refine ⟨fun hlt => ?_, fun heq hne => ?_⟩
  · unfold IntSlider.GetValueNorm
    rw [wrapInt_of_mem (s.cur_value - s.min_value) (by omega) (by omega),
      wrapInt_of_mem (s.max_value - s.min_value) (by omega) (by omega),
      Int.tdiv_eq_zero_of_lt (by omega) (by omega)]
    simp [wrapInt]
  · unfold IntSlider.GetValueNorm
    rw [heq, wrapInt_of_mem (s.max_value - s.min_value) (by omega) (by omega),
      Int.tdiv_self (by omega)]
    simp [wrapInt]

end GetValueNormFacts

/-- C32 (the code departs from the claim): `IntSlider::GetValueNorm` divides two
`int`s.  For `min_value = 0`, `max_value = 10`, `cur_value = 5` the exact
fraction is 1/2 and `FloatSlider::GetValueNorm` returns 1/2 for the same three
values, but `IntSlider::GetValueNorm` returns `5 / 10 = 0`. -/
theorem C32_IntSlider_GetValueNorm_truncates :
    tenIntSlider.min_value = 0 ∧ tenIntSlider.max_value = 10 ∧ tenIntSlider.cur_value = 5 ∧
    ((tenIntSlider.cur_value : ℚ) - (tenIntSlider.min_value : ℚ)) /
      ((tenIntSlider.max_value : ℚ) - (tenIntSlider.min_value : ℚ)) = 1 / 2 ∧
    tenFloatSlider.min_value = 0 ∧ tenFloatSlider.max_value = 10 ∧
    tenFloatSlider.cur_value = 5 ∧
    FloatSlider.GetValueNorm tenFloatSlider = 1 / 2 ∧
    IntSlider.GetValueNorm tenIntSlider = 0 := by
  refine ⟨rfl, rfl, rfl, ?_, rfl, rfl, rfl, ?_, ?_⟩
  · norm_num [tenIntSlider]
  · norm_num [FloatSlider.GetValueNorm, tenFloatSlider]
  · exact (IntSlider.GetValueNorm_truncates tenIntSlider (by decide) (by decide)).1 (by decide)

section ClampFacts

variable {α : Type} [LinearOrderedField α]

/-- What `Clamp(SDL::FPoint)` returns: the first component is `value.x` clamped to
`[min.x, max.x]`; the second is `min.y` when `value.x < min.y`, and otherwise
`value.y` cut at `max.y` only. -/
theorem FPoint.Clamp_ok (value min max : FPoint α) (hx : min.x ≤ max.x) (hy : min.y ≤ max.y) :
    ∃ r, FPoint.Clamp value min max = Except.ok r ∧
      min.x ≤ r.x ∧ r.x ≤ max.x ∧
      (min.x ≤ value.x → value.x ≤ max.x → r.x = value.x) ∧
      r.y = (if value.x < min.y then min.y else if value.y > max.y then max.y else value.y) := by
  refine ⟨_, by simp [FPoint.Clamp, ensure, hx, hy]; rfl, ?_, ?_, fun h1 h2 => ?_, rfl⟩
  · show min.x ≤ (if value.x < min.x then min.x else if value.x > max.x then max.x else value.x)
    split_ifs with h1 h2
    · exact le_refl _
    · exact hx
    · exact not_lt.1 h1
  · show (if value.x < min.x then min.x else if value.x > max.x then max.x else value.x) ≤ max.x
    split_ifs with h1 h2
    · exact hx
    · exact le_refl _
    · exact not_lt.1 h2
  · show (if value.x < min.x then min.x else if value.x > max.x then max.x else value.x) = value.x
    rw [if_neg (not_lt.2 h1), if_neg (not_lt.2 h2)]

end ClampFacts

/-- C33 (the code departs from the claim): the second component of both `Clamp`
overloads tests `value.x < min.y` where the first tests `value.x < min.x`.  With
bounds (0,0) and (10,10) the value (5,-3) is returned unchanged, its `y` below
`min.y`; with bounds (0,1) and (10,10) the value (0,5), which lies inside the
bounds, is returned as (0,1). -/
theorem C33_Clamp_tests_x_for_y :
    Point.Clamp ⟨5, -3⟩ ⟨0, 0⟩ ⟨10, 10⟩ = Except.ok ⟨5, -3⟩ ∧
    Point.Clamp ⟨0, 5⟩ ⟨0, 1⟩ ⟨10, 10⟩ = Except.ok ⟨0, 1⟩ ∧
    FPoint.Clamp (⟨5, -3⟩ : FPoint ℚ) ⟨0, 0⟩ ⟨10, 10⟩ = Except.ok ⟨5, -3⟩ ∧
    FPoint.Clamp (⟨0, 5⟩ : FPoint ℚ) ⟨0, 1⟩ ⟨10, 10⟩ = Except.ok ⟨0, 1⟩ := by
  refine ⟨rfl, rfl, ?_, ?_⟩
  · norm_num [FPoint.Clamp, ensure]
    rfl
  · norm_num [FPoint.Clamp, ensure]
    rfl

/-! ## Removal of a child that nothing else refers to -/

theorem stored_of_parentless (h : Heap) (hw : WF h) (b : Nat) (hp : h.parent b = none) :
    stored h b = 0 := by
  unfold stored
  apply List.sum_eq_zero
  intro x hx
  obtain ⟨p, _, rfl⟩ := List.mem_map.1 hx
  rw [List.count_eq_zero]
  intro hmem
  have := (((WF_iff h).1 hw).1 b p).2 hmem
  rw [hp] at this
  exact Option.noConfusion this

/-- When the child storage of `A` holds the only reference to `B`, both removals
end with the destruction of `B`: the call is the body followed by the destructor
of `B` on the store that the body leaves. -/
theorem RemoveChild_sole_owner (st : Owned) (a b i : Nat) (hw : WF st.heap)
    (hbd : Bounded st.heap) (hab : b ≠ a) (hp : st.heap.parent b = some a)
    (hi : ChildPosition st.heap a (some b) = i) (hext : st.outside b = 0) :
    (∃ h2, RemoveChild st.heap a (some b) = Except.ok h2 ∧
      ∀ fuel, RemoveChildOwned fuel st a (some b) = destroy fuel { st with heap := h2 } b) ∧
    (∃ h2, RemoveChildAt st.heap a i = Except.ok h2 ∧
      ∀ fuel, RemoveChildAtOwned fuel st a i = destroy fuel { st with heap := h2 } b) := by
  have hq : ChildPosition st.heap a (some b) ≠ NOT_FOUND :=
    (Bounded.boundOK st.heap a b hw hbd).1 a hp
  obtain ⟨g1, _, g3⟩ := GetChild_ChildPosition st.heap a b hw hp hab
  rw [← g1, hi] at g3
  have gone : ∀ (h2 : Heap) (d : Owned → Nat → Option (Except Fault Owned)), WF h2 →
      h2.parent b = none → release d { st with heap := h2 } b = d { st with heap := h2 } b := by
    intro h2 d hw2 hp2
    unfold release Owned.use_count
    have hz : st.outside b + stored h2 b = 0 := by
      rw [hext, stored_of_parentless h2 hw2 b hp2]
    simp only [hz, if_true]
  constructor
  · obtain ⟨h2, e1, _, e3, _⟩ := RemoveChild_ok st.heap a b hw hp hq
    refine ⟨h2, e1, fun fuel => ?_⟩
    simp only [RemoveChildOwned, e1]
    exact gone h2 _ (RemoveChild_WF st.heap h2 a (some b) hw e1) (by rw [e3]; simp)
  · obtain ⟨h2, e1, _, e3, _⟩ := RemoveChildAt_ok st.heap a i b hw g3
    refine ⟨h2, e1, fun fuel => ?_⟩
    simp only [RemoveChildAtOwned, g3, e1]
    exact gone h2 _ (RemoveChildAt_WF st.heap h2 a i hw e1) (by rw [e3]; simp)

end GUI
